import Mathlib

/-!
# The apultra decompressor (`tools/apultra/src/expand.c`)

A shallow embedding of `apultra_read_bit`, `apultra_read_gamma2`,
`apultra_get_max_decompressed_size` and `apultra_decompress`, and theorems
about them.

Conventions of the embedding.

* `unsigned int` and `int` are 32 bits wide, `size_t` and pointers 64 bits
  (LP64).  An `unsigned int` is a `Nat` reduced modulo `2^32` after every
  operation that can wrap; an `int` is an `Int` obtained with `toI32`.
* A pointer into the input is its index from `pInputData`; a pointer into the
  output is its index from `pOutData`.  Pointer arithmetic is done in `Int`
  and is not wrapped: the buffers are assumed to lie far from both ends of
  the address space.
* The input is a list of bytes (every element is read modulo 256).  The code
  contains reads of `*pInputData++` that are not guarded by a comparison with
  `pInputDataEnd`; such a read at an index past the list yields the byte
  `past k` that memory holds `k` bytes after the end of the input buffer.
* The output memory is a function from indices to bytes, so that the bytes the
  caller left in the buffer are visible to the copy loops.
* `reads` and `writes` are ghost fields: the indices of the input bytes read
  from memory and of the output bytes written, in order.
* A loop of the source is a function with a fuel argument that returns `none`
  when the fuel runs out; `some` results do not depend on the fuel.
-/

namespace Apultra

/-! ## Machine integers -/

/-- Conversion of an `int` to `unsigned int`. -/
def toU32 (i : Int) : Nat := (i % 4294967296).toNat

/-- Conversion of an `unsigned int` to `int` (two's complement). -/
def toI32 (n : Nat) : Int :=
  if n % 4294967296 < 2147483648 then ((n % 4294967296 : Nat) : Int)
  else ((n % 4294967296 : Nat) : Int) - 4294967296

/-- The value `(size_t)-1` that both entry points return for an error. -/
def SIZE_ERR : Nat := 18446744073709551615

/-- Modelled from the spec: `MINMATCH3_OFFSET` is defined in `format.h`, which is
not among the sources; the spec gives the value 1280. -/
def MINMATCH3_OFFSET : Int := 1280

/-- Modelled from the spec: `MINMATCH4_OFFSET` is defined in `format.h`, which is
not among the sources; the spec gives the value 32000. -/
def MINMATCH4_OFFSET : Int := 32000

/-- Modelled from the spec: `APULTRA_FLAG_ENHANCED` is defined in `libapultra.h`,
which is not among the sources; the spec says it is the only recognised bit of
the flags mask. It is taken to be the lowest bit. -/
def APULTRA_FLAG_ENHANCED : Nat := 1

/-! ## The three bit registers and the byte cursor -/

/-- An array of three cells: `nCurBitMask[3]` or `bits[3]`. -/
structure Regs where
  r0 : Nat
  r1 : Nat
  r2 : Nat
deriving DecidableEq, Repr

/-- Array read `a[i]`. -/
def Regs.get (a : Regs) (i : Nat) : Nat :=
  if i = 0 then a.r0 else if i = 1 then a.r1 else a.r2

/-- Array write `a[i] = v`. -/
def Regs.set (a : Regs) (i : Nat) (v : Nat) : Regs :=
  if i = 0 then { a with r0 := v } else if i = 1 then { a with r1 := v } else { a with r2 := v }

/-- The part of the state that the bit reader touches. -/
structure BitReader where
  /-- Index of the byte `pInputData` points at. -/
  pInputData : Nat
  nCurBitMask : Regs
  bits : Regs
  /-- Ghost: indices of the input bytes read so far. -/
  reads : List Nat
deriving DecidableEq, Repr

/-- The byte at index `i` from `pInputData`: a byte of the input, or of the
memory that follows it. -/
def inByte (inp : List Nat) (past : Nat → Nat) (i : Nat) : Nat :=
  if i < inp.length then inp.getD i 0 % 256 else past (i - inp.length) % 256

/-- The expression `*pInputData++`. -/
def rawByte (inp : List Nat) (past : Nat → Nat) (r : BitReader) : Nat × BitReader :=
  (inByte inp past r.pInputData,
   { r with pInputData := r.pInputData + 1, reads := r.reads ++ [r.pInputData] })

/-- The second half of `apultra_read_bit`: take the top bit of the register and
shift the register and its mask. -/
def shiftBit (r : BitReader) (nBitBufferIdx : Nat) : Int × BitReader :=
  let nBit : Int := if r.bits.get nBitBufferIdx &&& 128 ≠ 0 then 1 else 0
  (nBit,
   { r with
     bits := r.bits.set nBitBufferIdx ((r.bits.get nBitBufferIdx <<< 1) % 256),
     nCurBitMask := r.nCurBitMask.set nBitBufferIdx (r.nCurBitMask.get nBitBufferIdx >>> 1) })

/-- `apultra_read_bit`: the next bit of register `nBitBufferIdx`, or `-1` when
the register is empty and no input byte is left. -/
def apultra_read_bit (inp : List Nat) (r : BitReader) (nBitBufferIdx : Nat) : Int × BitReader :=
  if r.nCurBitMask.get nBitBufferIdx = 0 then
    if r.pInputData ≥ inp.length then (-1, r)
    else
      shiftBit
        { r with
          bits := r.bits.set nBitBufferIdx (inp.getD r.pInputData 0 % 256),
          nCurBitMask := r.nCurBitMask.set nBitBufferIdx 128,
          pInputData := r.pInputData + 1,
          reads := r.reads ++ [r.pInputData] }
        nBitBufferIdx
  else shiftBit r nBitBufferIdx

/-- The `do ... while (bit)` loop of the standard branch of
`apultra_read_gamma2`; `v` is the `unsigned int` accumulator. -/
def gamma2Std (inp : List Nat) (nBitBufferIdx : Nat) : Nat → Nat → BitReader → Option (Nat × BitReader)
  | 0, _, _ => none
  | fuel + 1, v, r =>
    let b1 := apultra_read_bit inp r nBitBufferIdx
    let v1 := (toU32 (((v <<< 1) % 4294967296 : Nat) + b1.1)) % 4294967296
    let b2 := apultra_read_bit inp b1.2 nBitBufferIdx
    if b2.1 < 0 then some (toU32 b2.1, b2.2)
    else if b2.1 ≠ 0 then gamma2Std inp nBitBufferIdx fuel v1 b2.2
    else some (v1, b2.2)

/-- The `do ... while (bit == 0)` loop of the enhanced branch of
`apultra_read_gamma2`, with the final recombination; `l` is the saved low byte. -/
def gamma2Enh (inp : List Nat) (nBitBufferIdx : Nat) :
    Nat → Int → Nat → BitReader → Option (Nat × BitReader)
  | 0, _, _, _ => none
  | fuel + 1, l, v, r =>
    let l1 : Int := if l = 0 ∧ v ≥ 256 then toI32 v else l
    let v0 : Nat := if l = 0 ∧ v ≥ 256 then 1 else v
    let b1 := apultra_read_bit inp r nBitBufferIdx
    let v1 := (toU32 (((v0 <<< 1) % 4294967296 : Nat) + b1.1)) % 4294967296
    let b2 := apultra_read_bit inp b1.2 nBitBufferIdx
    if b2.1 < 0 then some (toU32 b2.1, b2.2)
    else if b2.1 = 0 then gamma2Enh inp nBitBufferIdx fuel l1 v1 b2.2
    else if l1 ≠ 0 then some (((v1 <<< 8) % 4294967296 + toU32 (l1 % 256)) % 4294967296, b2.2)
    else some (v1, b2.2)

/-- `apultra_read_gamma2`. The `int` result is given as the `unsigned int` that
the callers store it in (`-1` is `0xFFFFFFFF`). -/
def apultra_read_gamma2 (fuel : Nat) (inp : List Nat) (r : BitReader) (nBitBufferIdx : Nat) :
    Option (Nat × BitReader) :=
  if nBitBufferIdx = 0 then gamma2Std inp nBitBufferIdx fuel 1 r
  else gamma2Enh inp nBitBufferIdx fuel 0 1 r

/-- The value of `nGammaBitBufferIdx`. -/
def gammaIdx (nFlags : Nat) : Nat := if nFlags &&& APULTRA_FLAG_ENHANCED ≠ 0 then 1 else 0

/-- The value of `nNibblesBitBufferIdx`. -/
def nibbleIdx (nFlags : Nat) : Nat := if nFlags &&& APULTRA_FLAG_ENHANCED ≠ 0 then 2 else 0

/-- The offset of a long match as the source computes it: `(hi - bias) << 8` in
`unsigned int`, stored in the `int nMatchOffset`, then or-ed with the low byte. -/
def longOffset (hi bias lo : Nat) : Int :=
  toI32 (toU32 (toI32 ((((hi + 4294967296 - bias) % 4294967296) <<< 8) % 4294967296)) ||| lo)

/-- The variables that the lines between the two gamma2 reads of a `'10'` token
set. -/
structure LongHead where
  nIsRepMatch : Bool
  nMatchOffset : Int
  nMatchLenBias : Nat
  rd : BitReader

/-- The lines between the two gamma2 reads of a `'10'` token: a new offset is
read unless the token follows a literal and `nMatchOffsetHi` is 2, in which case
the token is a rep-match. The same lines stand in both entry points. -/
def longHead (inp : List Nat) (past : Nat → Nat) (nFollowsLiteral : Bool) (nMatchOffset : Int)
    (nMatchOffsetHi : Nat) (r : BitReader) : LongHead :=
  if nFollowsLiteral = false ∨ nMatchOffsetHi ≠ 2 then
    let lo := rawByte inp past r
    let off := longOffset nMatchOffsetHi (if nFollowsLiteral then 3 else 2) lo.1
    { nIsRepMatch := false, nMatchOffset := off,
      nMatchLenBias := if off < 128 then 2 else 0, rd := lo.2 }
  else { nIsRepMatch := true, nMatchOffset := nMatchOffset, nMatchLenBias := 0, rd := r }

/-- The length of a `'10'` token from the gamma2 value `g`: one more from
`MINMATCH3_OFFSET`, one more from `MINMATCH4_OFFSET` (neither for a rep-match),
plus the bias, all in `unsigned int`. -/
def longLen (h : LongHead) (g : Nat) : Nat :=
  let n3 : Nat :=
    if h.nIsRepMatch = false ∧ h.nMatchOffset ≥ MINMATCH3_OFFSET then (g + 1) % 4294967296 else g
  let n4 : Nat :=
    if h.nIsRepMatch = false ∧ h.nMatchOffset ≥ MINMATCH4_OFFSET then (n3 + 1) % 4294967296 else n3
  (n4 + h.nMatchLenBias) % 4294967296

/-! ## Output memory -/

/-- The assignment `m[i] = v`. -/
def store (m : Nat → Nat) (i v : Nat) : Nat → Nat :=
  fun j => if j = i then v else m j

/-- The call `memcpy(m + dst, m + src, n)`. The source never calls it on
overlapping ranges. -/
def memcpy (m : Nat → Nat) (dst src n : Nat) : Nat → Nat :=
  fun j => if dst ≤ j ∧ j < dst + n then m (src + (j - dst)) else m j

/-- The loop `while (nMatchLen) { *pCurOutData++ = *pSrc++; nMatchLen--; }`. -/
def copyBytes : Nat → (Nat → Nat) → Nat → Nat → (Nat → Nat)
  | 0, m, _, _ => m
  | nMatchLen + 1, m, pCurOutData, pSrc =>
    copyBytes nMatchLen (store m pCurOutData (m pSrc)) (pCurOutData + 1) (pSrc + 1)

/-- The loop `do { memcpy(pCopyDst, pCopySrc, 16); pCopySrc += 16; pCopyDst += 16; }
while (pCopyDst < pCopyEndDst)`, with the ghost list of written indices. -/
def copy16 : Nat → (Nat → Nat) → List Nat → Nat → Nat → Nat → Option ((Nat → Nat) × List Nat)
  | 0, _, _, _, _, _ => none
  | fuel + 1, m, w, pCopyDst, pCopySrc, pCopyEndDst =>
    if pCopyDst + 16 < pCopyEndDst then
      copy16 fuel (memcpy m pCopyDst pCopySrc 16) (w ++ List.range' pCopyDst 16)
        (pCopyDst + 16) (pCopySrc + 16) pCopyEndDst
    else some (memcpy m pCopyDst pCopySrc 16, w ++ List.range' pCopyDst 16)

/-! ## `apultra_decompress` -/

/-- The local variables of `apultra_decompress` that change, and the output
memory. -/
structure DState where
  rd : BitReader
  /-- Index of the byte `pCurOutData` points at. -/
  pCurOutData : Nat
  out : Nat → Nat
  nMatchOffset : Int
  nFollowsLiteral : Bool
  /-- Ghost: indices of the output bytes written so far. -/
  writes : List Nat

/-- What one pass through the body of `while (1)` does: go round again, or
leave the function with a return value. -/
inductive Outcome where
  | next (s : DState)
  | ret (v : Nat) (s : DState)

/-- The branch `'0': literal`. -/
def decLiteral (inp : List Nat) (past : Nat → Nat) (cap : Nat) (s : DState) : Outcome :=
  if s.rd.pInputData < inp.length ∧ s.pCurOutData < cap then
    let b := rawByte inp past s.rd
    .next { s with
      rd := b.2, out := store s.out s.pCurOutData b.1, pCurOutData := s.pCurOutData + 1,
      writes := s.writes ++ [s.pCurOutData], nFollowsLiteral := true }
  else .ret SIZE_ERR s

/-- The copy of a long or repeated match, once `pSrc >= pOutData` holds and the
length is known. `s` already has the new offset, flag and reader. -/
def copyLong (fuel cap : Nat) (s : DState) (pSrc nMatchLen : Nat) : Option Outcome :=
  if nMatchLen < 11 ∧ s.nMatchOffset ≥ 8 ∧ (s.pCurOutData : Int) < (cap : Int) - 20 then
    some (.next { s with
      out := memcpy (memcpy s.out s.pCurOutData pSrc 8) (s.pCurOutData + 8) (pSrc + 8) 2,
      writes := s.writes ++ List.range' s.pCurOutData 8 ++ List.range' (s.pCurOutData + 8) 2,
      pCurOutData := s.pCurOutData + nMatchLen })
  else if s.pCurOutData + nMatchLen ≤ cap ∧ pSrc + nMatchLen ≤ cap then
    if s.nMatchOffset ≥ 16 ∧ ((s.pCurOutData + nMatchLen : Nat) : Int) < (cap : Int) - 20 - 15 then
      match copy16 fuel s.out s.writes s.pCurOutData pSrc (s.pCurOutData + nMatchLen) with
      | none => none
      | some mw =>
        some (.next { s with out := mw.1, writes := mw.2, pCurOutData := s.pCurOutData + nMatchLen })
    else
      some (.next { s with
        out := copyBytes nMatchLen s.out s.pCurOutData pSrc,
        writes := s.writes ++ List.range' s.pCurOutData nMatchLen,
        pCurOutData := s.pCurOutData + nMatchLen })
  else some (.ret SIZE_ERR s)

/-- The branch `'10': 8+n bits offset`. -/
def decLong (fuel : Nat) (inp : List Nat) (past : Nat → Nat) (cap nFlags : Nat) (s : DState) :
    Option Outcome :=
  match apultra_read_gamma2 fuel inp s.rd (gammaIdx nFlags) with
  | none => none
  | some (nMatchOffsetHi, r1) =>
    let h := longHead inp past s.nFollowsLiteral s.nMatchOffset nMatchOffsetHi r1
    let s1 : DState :=
      { s with rd := h.rd, nMatchOffset := h.nMatchOffset, nFollowsLiteral := false }
    let pSrc : Int := (s.pCurOutData : Int) - h.nMatchOffset
    if pSrc ≥ 0 then
      match apultra_read_gamma2 fuel inp h.rd (gammaIdx nFlags) with
      | none => none
      | some (g, r3) => copyLong fuel cap { s1 with rd := r3 } pSrc.toNat (longLen h g)
    else some (.ret SIZE_ERR s1)

/-- The branch `'110': 7 bits offset + 1 bit length`, which is also where the
end of data is recognised. -/
def decShort (inp : List Nat) (past : Nat → Nat) (cap : Nat) (s : DState) : Outcome :=
  let c := rawByte inp past s.rd
  let nCommand := c.1
  if nCommand = 0 then .ret (s.pCurOutData % 18446744073709551616) { s with rd := c.2 }
  else
    let nMatchOffset : Int := ((nCommand >>> 1 : Nat) : Int)
    let nMatchLen : Nat := (nCommand &&& 1) + 2
    let s1 : DState := { s with rd := c.2, nMatchOffset := nMatchOffset, nFollowsLiteral := false }
    let pSrc : Int := (s.pCurOutData : Int) - nMatchOffset
    if pSrc ≥ 0 ∧ pSrc + nMatchLen ≤ cap then
      if nMatchOffset ≥ 8 ∧ (s.pCurOutData : Int) < (cap : Int) - 20 then
        .next { s1 with
          out := memcpy (memcpy s.out s.pCurOutData pSrc.toNat 8) (s.pCurOutData + 8) (pSrc.toNat + 8) 2,
          writes := s.writes ++ List.range' s.pCurOutData 8 ++ List.range' (s.pCurOutData + 8) 2,
          pCurOutData := s.pCurOutData + nMatchLen }
      else if s.pCurOutData + nMatchLen ≤ cap then
        .next { s1 with
          out := copyBytes nMatchLen s.out s.pCurOutData pSrc.toNat,
          writes := s.writes ++ List.range' s.pCurOutData nMatchLen,
          pCurOutData := s.pCurOutData + nMatchLen }
      else .ret SIZE_ERR s1
    else .ret SIZE_ERR s1

/-- Four bits of the nibble register put together as `nShortMatchOffset`; each
`int` result of `apultra_read_bit` goes through the `unsigned int nResult`. -/
def readNibble (inp : List Nat) (r : BitReader) (nBitBufferIdx : Nat) : Nat × BitReader :=
  let b3 := apultra_read_bit inp r nBitBufferIdx
  let b2 := apultra_read_bit inp b3.2 nBitBufferIdx
  let b1 := apultra_read_bit inp b2.2 nBitBufferIdx
  let b0 := apultra_read_bit inp b1.2 nBitBufferIdx
  (((toU32 b3.1 <<< 3) % 4294967296) ||| ((toU32 b2.1 <<< 2) % 4294967296)
      ||| ((toU32 b1.1 <<< 1) % 4294967296) ||| ((toU32 b0.1 <<< 0) % 4294967296),
   b0.2)

/-- The branch `'111': 4 bit offset`. -/
def decNibble (inp : List Nat) (cap nFlags : Nat) (s : DState) : Outcome :=
  let n := readNibble inp s.rd (nibbleIdx nFlags)
  let nShortMatchOffset := n.1
  let s1 : DState := { s with rd := n.2, nFollowsLiteral := true }
  if nShortMatchOffset ≠ 0 then
    let pSrc : Int := (s.pCurOutData : Int) - nShortMatchOffset
    if pSrc ≥ 0 ∧ s.pCurOutData + 1 ≤ cap ∧ pSrc + 1 ≤ cap then
      .next { s1 with
        out := store s.out s.pCurOutData (s.out pSrc.toNat),
        writes := s.writes ++ [s.pCurOutData], pCurOutData := s.pCurOutData + 1 }
    else .ret SIZE_ERR s1
  else if s.pCurOutData + 1 ≤ cap then
    .next { s1 with
      out := store s.out s.pCurOutData 0,
      writes := s.writes ++ [s.pCurOutData], pCurOutData := s.pCurOutData + 1 }
  else .ret SIZE_ERR s1

/-- The body of the `while (1)` loop of `apultra_decompress`. The tests
`nResult < 0` are on an `unsigned int`. -/
def decStep (fuel : Nat) (inp : List Nat) (past : Nat → Nat) (cap nFlags : Nat) (s : DState) :
    Option Outcome :=
  let b1 := apultra_read_bit inp s.rd 0
  if toU32 b1.1 < 0 then some (.ret SIZE_ERR { s with rd := b1.2 })
  else if toU32 b1.1 = 0 then some (decLiteral inp past cap { s with rd := b1.2 })
  else
    let b2 := apultra_read_bit inp b1.2 0
    if toU32 b2.1 < 0 then some (.ret SIZE_ERR { s with rd := b2.2 })
    else if toU32 b2.1 = 0 then decLong fuel inp past cap nFlags { s with rd := b2.2 }
    else
      let b3 := apultra_read_bit inp b2.2 0
      if toU32 b3.1 < 0 then some (.ret SIZE_ERR { s with rd := b3.2 })
      else if toU32 b3.1 = 0 then some (decShort inp past cap { s with rd := b3.2 })
      else some (decNibble inp cap nFlags { s with rd := b3.2 })

/-- The `while (1)` loop of `apultra_decompress`: the return value and the final
state. `inner` is the fuel of the loops inside one pass. -/
def decLoop (inner : Nat) (inp : List Nat) (past : Nat → Nat) (cap nFlags : Nat) :
    Nat → DState → Option (Nat × DState)
  | 0, _ => none
  | fuel + 1, s =>
    match decStep inner inp past cap nFlags s with
    | none => none
    | some (.ret v s1) => some (v, s1)
    | some (.next s1) => decLoop inner inp past cap nFlags fuel s1

/-- The state before anything is read: empty registers, `nMatchOffset = 1`,
`nFollowsLiteral = 1`. -/
def decInit (out : Nat → Nat) : DState :=
  { rd := { pInputData := 0, nCurBitMask := ⟨0, 0, 0⟩, bits := ⟨0, 0, 0⟩, reads := [] },
    pCurOutData := 0, out := out, nMatchOffset := 1, nFollowsLiteral := true, writes := [] }

/-- The state after `*pCurOutData++ = *pInputData++`. -/
def decFirst (inp : List Nat) (past : Nat → Nat) (out : Nat → Nat) : DState :=
  let b := rawByte inp past (decInit out).rd
  { decInit out with rd := b.2, out := store out 0 b.1, pCurOutData := 1, writes := [0] }

/-- Fuel that is enough for every loop of a call: each pass of a loop uses up an
input bit or moves the output cursor towards the end of the buffer. -/
def decFuel (inp : List Nat) (cap : Nat) : Nat := 8 * inp.length + cap + 2

/-- `apultra_decompress(pInputData, pOutData, nInputSize, nMaxOutBufferSize, nFlags)`:
the return value and the final state; `out` is the output memory before the
call. -/
def apultra_decompress (inp : List Nat) (past : Nat → Nat) (out : Nat → Nat) (cap nFlags : Nat) :
    Option (Nat × DState) :=
  if 0 ≥ inp.length ∧ 0 < cap then some (SIZE_ERR, decInit out)
  else decLoop (decFuel inp cap) inp past cap nFlags (decFuel inp cap) (decFirst inp past out)

/-- The byte memory that is zero everywhere. -/
def zeros : Nat → Nat := fun _ => 0

/-- The first `n` bytes of a memory. -/
def take (m : Nat → Nat) (n : Nat) : List Nat := (List.range n).map m

/-! ## `apultra_get_max_decompressed_size` -/

/-- The local variables of `apultra_get_max_decompressed_size` that change. -/
structure MState where
  rd : BitReader
  nMatchOffset : Int
  nFollowsLiteral : Bool
  /-- A `size_t`, kept below `2^64`. -/
  nDecompressedSize : Nat

/-- What one pass through the body of `while (1)` of the size query does. -/
inductive MOutcome where
  | next (s : MState)
  | ret (v : Nat) (s : MState)

/-- The branch `'0': literal` of the size query: the byte is skipped, not read. -/
def maxLiteral (inp : List Nat) (s : MState) : MOutcome :=
  if s.rd.pInputData < inp.length then
    .next { s with
      rd := { s.rd with pInputData := s.rd.pInputData + 1 },
      nDecompressedSize := (s.nDecompressedSize + 1) % 18446744073709551616,
      nFollowsLiteral := true }
  else .ret SIZE_ERR s

/-- The branch `'10'` of the size query. -/
def maxLong (fuel : Nat) (inp : List Nat) (past : Nat → Nat) (nFlags : Nat) (s : MState) :
    Option MOutcome :=
  match apultra_read_gamma2 fuel inp s.rd (gammaIdx nFlags) with
  | none => none
  | some (nMatchOffsetHi, r1) =>
    let h := longHead inp past s.nFollowsLiteral s.nMatchOffset nMatchOffsetHi r1
    match apultra_read_gamma2 fuel inp h.rd (gammaIdx nFlags) with
    | none => none
    | some (g, r3) =>
      some (.next { s with
        rd := r3, nMatchOffset := h.nMatchOffset, nFollowsLiteral := false,
        nDecompressedSize := (s.nDecompressedSize + longLen h g) % 18446744073709551616 })

/-- The branch `'110'` of the size query. -/
def maxShort (inp : List Nat) (past : Nat → Nat) (s : MState) : MOutcome :=
  let c := rawByte inp past s.rd
  let nCommand := c.1
  if nCommand = 0 then .ret s.nDecompressedSize { s with rd := c.2 }
  else
    .next { s with
      rd := c.2, nMatchOffset := ((nCommand >>> 1 : Nat) : Int), nFollowsLiteral := false,
      nDecompressedSize := (s.nDecompressedSize + ((nCommand &&& 1) + 2)) % 18446744073709551616 }

/-- The branch `'111'` of the size query: the four bits are read and dropped. -/
def maxNibble (inp : List Nat) (nFlags : Nat) (s : MState) : MOutcome :=
  let n := readNibble inp s.rd (nibbleIdx nFlags)
  .next { s with
    rd := n.2, nFollowsLiteral := true,
    nDecompressedSize := (s.nDecompressedSize + 1) % 18446744073709551616 }

/-- The body of the `while (1)` loop of `apultra_get_max_decompressed_size`. The
tests `nResult < 0` are on an `unsigned int`. -/
def maxStep (fuel : Nat) (inp : List Nat) (past : Nat → Nat) (nFlags : Nat) (s : MState) :
    Option MOutcome :=
  let b1 := apultra_read_bit inp s.rd 0
  if toU32 b1.1 < 0 then some (.ret SIZE_ERR { s with rd := b1.2 })
  else if toU32 b1.1 = 0 then some (maxLiteral inp { s with rd := b1.2 })
  else
    let b2 := apultra_read_bit inp b1.2 0
    if toU32 b2.1 < 0 then some (.ret SIZE_ERR { s with rd := b2.2 })
    else if toU32 b2.1 = 0 then maxLong fuel inp past nFlags { s with rd := b2.2 }
    else
      let b3 := apultra_read_bit inp b2.2 0
      if toU32 b3.1 < 0 then some (.ret SIZE_ERR { s with rd := b3.2 })
      else if toU32 b3.1 = 0 then some (maxShort inp past { s with rd := b3.2 })
      else some (maxNibble inp nFlags { s with rd := b3.2 })

/-- The `while (1)` loop of the size query. -/
def maxLoop (inner : Nat) (inp : List Nat) (past : Nat → Nat) (nFlags : Nat) :
    Nat → MState → Option (Nat × MState)
  | 0, _ => none
  | fuel + 1, s =>
    match maxStep inner inp past nFlags s with
    | none => none
    | some (.ret v s1) => some (v, s1)
    | some (.next s1) => maxLoop inner inp past nFlags fuel s1

/-- The state of the size query after `pInputData++; nDecompressedSize++`. -/
def maxFirst : MState :=
  { rd := { pInputData := 1, nCurBitMask := ⟨0, 0, 0⟩, bits := ⟨0, 0, 0⟩, reads := [] },
    nMatchOffset := 1, nFollowsLiteral := true, nDecompressedSize := 1 }

/-- `apultra_get_max_decompressed_size(pInputData, nInputSize, nFlags)` run for at
most `fuel` passes of its `while (1)` loop: `none` when it has not returned by
then. The loops of `apultra_read_gamma2` get the fuel `decFuel inp 0`, which is
always enough for them. -/
def apultra_get_max_decompressed_size (fuel : Nat) (inp : List Nat) (past : Nat → Nat)
    (nFlags : Nat) : Option Nat :=
  if 0 ≥ inp.length then some SIZE_ERR
  else (maxLoop (decFuel inp 0) inp past nFlags fuel maxFirst).map Prod.fst


/-! ## The bit reader: how many bits are left -/

/-- Number of bits still held by the three registers. -/
def regBits (a : Regs) : Nat := Nat.size a.r0 + Nat.size a.r1 + Nat.size a.r2

/-- Number of bits the reader can still deliver: eight for each unread input
byte and what the registers hold. -/
def remBits (inp : List Nat) (r : BitReader) : Nat :=
  8 * (inp.length - r.pInputData) + regBits r.nCurBitMask

/-- The prefix bits of a token as the three `if`s of the loop body consume them:
`0` for `'0'`, `1` for `'10'`, `2` for `'110'`, `3` otherwise, with the reader
after them. A failed read counts as a non-zero bit, as it does in the source. -/
def tokenKind (inp : List Nat) (r : BitReader) : Nat × BitReader :=
  let b1 := apultra_read_bit inp r 0
  if toU32 b1.1 = 0 then (0, b1.2)
  else
    let b2 := apultra_read_bit inp b1.2 0
    if toU32 b2.1 = 0 then (1, b2.2)
    else
      let b3 := apultra_read_bit inp b2.2 0
      if toU32 b3.1 = 0 then (2, b3.2) else (3, b3.2)

/-- The quantity that every pass of the loop of `apultra_decompress` makes
smaller: the bits left in the input plus the room left in the output. -/
def decMeasure (inp : List Nat) (cap : Nat) (s : DState) : Nat :=
  remBits inp s.rd + (cap - s.pCurOutData)

/-- An outcome that does not give bits back or move the output cursor
backwards. -/
def Advances (inp : List Nat) (s : DState) : Outcome → Prop
  | .next s1 => remBits inp s1.rd ≤ remBits inp s.rd ∧ s.pCurOutData ≤ s1.pCurOutData
  | .ret _ _ => True

/-- An outcome that does not give bits back and moves the output cursor one byte
forward, inside the buffer. -/
def AdvancesOne (inp : List Nat) (cap : Nat) (s : DState) : Outcome → Prop
  | .next s1 => remBits inp s1.rd ≤ remBits inp s.rd ∧ s1.pCurOutData = s.pCurOutData + 1 ∧
      s1.pCurOutData ≤ cap
  | .ret _ _ => True

/-- An outcome, reached from output length `pos`, whose output cursor has not
moved back, has moved only inside the buffer, and has not moved at all if the
function returns. -/
def PosStep (cap pos : Nat) : Outcome → Prop
  | .next s1 => pos ≤ s1.pCurOutData ∧ (s1.pCurOutData = pos ∨ s1.pCurOutData ≤ cap)
  | .ret _ s1 => s1.pCurOutData = pos

/-- An outcome, reached from the list `w` of written indices, that has written
only below the capacity. -/
def WritesOK (cap : Nat) (w : List Nat) : Outcome → Prop
  | .next s1 => ∀ i ∈ s1.writes, i ∈ w ∨ i < cap
  | .ret _ s1 => ∀ i ∈ s1.writes, i ∈ w ∨ i < cap

/-- Two readers that differ at most in the ghost list of reads. -/
def sameBits (a b : BitReader) : Prop :=
  a.pInputData = b.pInputData ∧ a.nCurBitMask = b.nCurBitMask ∧ a.bits = b.bits

/-- The relation between the state of `apultra_decompress` and the state of
`apultra_get_max_decompressed_size` after the same tokens. -/
def Sim (s : DState) (m : MState) : Prop :=
  sameBits s.rd m.rd ∧ m.nMatchOffset = s.nMatchOffset ∧
    m.nFollowsLiteral = s.nFollowsLiteral ∧
    m.nDecompressedSize = s.pCurOutData % 18446744073709551616

/-- What the size query does on a pass in which the decoder had the outcome `o`:
it goes on when the decoder goes on, to a related state, and it returns the
same value when the decoder returns a value other than the error value. -/
def Follows (o : Outcome) (mo : Option MOutcome) : Prop :=
  match o with
  | .next s1 => ∃ m1, mo = some (.next m1) ∧ Sim s1 m1
  | .ret v _ => v = SIZE_ERR ∨ ∃ m1, mo = some (.ret v m1)

/-! ## The compressor, modelled from the spec -/

/-- Modelled from the spec: `apultra_get_max_compressed_size` is in `shrink.c`,
which is not among the sources. The spec asks for a bound of the form
`N + ceil(N/8) + small_constant` and names `N + N/8 + 16` as a safe choice. -/
def apultra_get_max_compressed_size (nInputSize : Nat) : Nat :=
  nInputSize + nInputSize / 8 + 16

/-- What a stream is made of after its first byte: bits of the command-prefix
register and raw bytes. -/
inductive Item where
  | bit (b : Bool)
  | raw (v : Nat)

/-- The bits among the items, in order. -/
def bitsOf : List Item → List Bool
  | [] => []
  | .bit b :: r => b :: bitsOf r
  | .raw _ :: r => bitsOf r

/-- Bit `i` of a bit sequence as a number, 0 past its end. -/
def bitAt (bs : List Bool) (i : Nat) : Nat := if bs.getD i false then 1 else 0

/-- The byte that holds the first eight bits of a sequence, the first bit in
bit 7, padded with zeros. -/
def byteOfBits (bs : List Bool) : Nat :=
  128 * bitAt bs 0 + 64 * bitAt bs 1 + 32 * bitAt bs 2 + 16 * bitAt bs 3 + 8 * bitAt bs 4 +
    4 * bitAt bs 5 + 2 * bitAt bs 6 + bitAt bs 7

/-- Modelled from the spec: the bit writer of the compressor (`shrink.c`, not
among the sources) for a stream that uses one bit register. Bits are packed
MSB-first; the byte that holds eight bits stands in the stream where the first
of them is written, and raw bytes follow in the order they are written.
`avail` is the number of bits still free in the byte being filled. -/
def packFrom : List Item → Nat → List Nat
  | [], _ => []
  | .raw v :: r, avail => v % 256 :: packFrom r avail
  | .bit b :: r, 0 => byteOfBits (bitsOf (.bit b :: r)) :: packFrom r 7
  | .bit _ :: r, avail + 1 => packFrom r avail

/-- The end-of-data token: prefix bits `110` and the command byte 0. -/
def eodItems : List Item := [.bit true, .bit true, .bit false, .raw 0]

/-- One Literal token (prefix bit `0` and the byte) for each byte, then the
end-of-data token. -/
def litItems : List Nat → List Item
  | [] => eodItems
  | v :: r => .bit false :: .raw v :: litItems r

/-- Modelled from the spec: `apultra_compress` is in `shrink.c`, which is not
among the sources. The spec leaves the choice of tokens to the implementer and
accepts any stream that the decoder takes back to the input; this is the
encoder that writes the first byte raw, one Literal token for each further byte
and the end-of-data token. It uses prefix bits only, so its output is the same
with and without the ENHANCED flag, and it chooses no match, so the window plays
no part. The result is `none` for the error value, returned when the stream
does not fit `nMaxOutBufferSize`. -/
def apultra_compress (x : List Nat) (nMaxOutBufferSize : Nat) (_nFlags : Nat)
    (_nMaxWindowSize : Nat) : Option (List Nat) :=
  let stream : List Nat :=
    match x with
    | [] => packFrom eodItems 0
    | b :: r => b % 256 :: packFrom (litItems r) 0
  if stream.length ≤ nMaxOutBufferSize then some stream else none

/-- The reader has consumed the stream up to the items `items`: register 0 was
loaded with the byte of the bit sequence `bs0` and has delivered `k` of its
bits, and the rest of the input is what the writer produces for `items`. -/
def RegInv (inp : List Nat) (r : BitReader) (items : List Item) : Prop :=
  ∃ (bs0 : List Bool) (k : Nat), 1 ≤ k ∧ k ≤ 8 ∧ r.nCurBitMask.r0 = 128 >>> k ∧
    (k < 8 → r.bits.r0 = byteOfBits bs0 * 2 ^ k % 256) ∧ bitsOf items = bs0.drop k ∧
    inp.drop r.pInputData = packFrom items (8 - k)

/-- Size of a list of items in bits: one for a bit and eight for a raw byte. -/
def weight : List Item → Nat
  | [] => 0
  | .bit _ :: r => 1 + weight r
  | .raw _ :: r => 8 + weight r

/-! ## Inputs of the worked examples -/

/-- A stream whose first token is a LongMatch with `hi = 2^23 + 3` and `lo = 0`,
followed by the end-of-data token. -/
def signInput : List Nat := [0x41, 0x95, 0x55, 0x55, 0x55, 0x55, 0x5E, 0x00, 0x30, 0x00]

/-- A stream whose first token is a LongMatch with `hi = 2^24 + 3` and `lo = 1`,
followed by the end-of-data token. -/
def wrapInput : List Nat := [0x41, 0x95, 0x55, 0x55, 0x55, 0x55, 0x57, 0x8C, 0x01, 0x00]

/-! ## The reference decoder: every match copied byte by byte -/

/-- The copy of a match in the reference decoder: the bounds-checked byte loop
of the source, and nothing else. -/
def refCopy (cap : Nat) (s : DState) (pSrc nMatchLen : Nat) : Outcome :=
  if s.pCurOutData + nMatchLen ≤ cap ∧ pSrc + nMatchLen ≤ cap then
    .next { s with
      out := copyBytes nMatchLen s.out s.pCurOutData pSrc,
      writes := s.writes ++ List.range' s.pCurOutData nMatchLen,
      pCurOutData := s.pCurOutData + nMatchLen }
  else .ret SIZE_ERR s

/-- The branch `'10'` of the reference decoder: `decLong` with `refCopy` in the
place of `copyLong`. -/
def refLong (fuel : Nat) (inp : List Nat) (past : Nat → Nat) (cap nFlags : Nat) (s : DState) :
    Option Outcome :=
  match apultra_read_gamma2 fuel inp s.rd (gammaIdx nFlags) with
  | none => none
  | some (nMatchOffsetHi, r1) =>
    let h := longHead inp past s.nFollowsLiteral s.nMatchOffset nMatchOffsetHi r1
    let s1 : DState :=
      { s with rd := h.rd, nMatchOffset := h.nMatchOffset, nFollowsLiteral := false }
    let pSrc : Int := (s.pCurOutData : Int) - h.nMatchOffset
    if pSrc ≥ 0 then
      match apultra_read_gamma2 fuel inp h.rd (gammaIdx nFlags) with
      | none => none
      | some (g, r3) => some (refCopy cap { s1 with rd := r3 } pSrc.toNat (longLen h g))
    else some (.ret SIZE_ERR s1)

/-- The branch `'110'` of the reference decoder: `decShort` without the 8+2-byte
path. -/
def refShort (inp : List Nat) (past : Nat → Nat) (cap : Nat) (s : DState) : Outcome :=
  let c := rawByte inp past s.rd
  let nCommand := c.1
  if nCommand = 0 then .ret (s.pCurOutData % 18446744073709551616) { s with rd := c.2 }
  else
    let nMatchOffset : Int := ((nCommand >>> 1 : Nat) : Int)
    let nMatchLen : Nat := (nCommand &&& 1) + 2
    let s1 : DState := { s with rd := c.2, nMatchOffset := nMatchOffset, nFollowsLiteral := false }
    let pSrc : Int := (s.pCurOutData : Int) - nMatchOffset
    if pSrc ≥ 0 ∧ pSrc + nMatchLen ≤ cap then
      if s.pCurOutData + nMatchLen ≤ cap then
        .next { s1 with
          out := copyBytes nMatchLen s.out s.pCurOutData pSrc.toNat,
          writes := s.writes ++ List.range' s.pCurOutData nMatchLen,
          pCurOutData := s.pCurOutData + nMatchLen }
      else .ret SIZE_ERR s1
    else .ret SIZE_ERR s1

/-- One pass of the reference decoder: the pass of `apultra_decompress` with the
two match branches replaced. -/
def refStep (fuel : Nat) (inp : List Nat) (past : Nat → Nat) (cap nFlags : Nat) (s : DState) :
    Option Outcome :=
  if (tokenKind inp s.rd).1 = 0 then
    some (decLiteral inp past cap { s with rd := (tokenKind inp s.rd).2 })
  else if (tokenKind inp s.rd).1 = 1 then
    refLong fuel inp past cap nFlags { s with rd := (tokenKind inp s.rd).2 }
  else if (tokenKind inp s.rd).1 = 2 then
    some (refShort inp past cap { s with rd := (tokenKind inp s.rd).2 })
  else some (decNibble inp cap nFlags { s with rd := (tokenKind inp s.rd).2 })

/-- The loop of the reference decoder. -/
def refLoop (inner : Nat) (inp : List Nat) (past : Nat → Nat) (cap nFlags : Nat) :
    Nat → DState → Option (Nat × DState)
  | 0, _ => none
  | fuel + 1, s =>
    match refStep inner inp past cap nFlags s with
    | none => none
    | some (.ret v s1) => some (v, s1)
    | some (.next s1) => refLoop inner inp past cap nFlags fuel s1

/-- The reference decoder of the refinement claim: `apultra_decompress` in which
every match is a left-to-right byte-by-byte copy of exactly its length. -/
def reference_decompress (inp : List Nat) (past : Nat → Nat) (out : Nat → Nat)
    (cap nFlags : Nat) : Option (Nat × DState) :=
  if 0 ≥ inp.length ∧ 0 < cap then some (SIZE_ERR, decInit out)
  else refLoop (decFuel inp cap) inp past cap nFlags (decFuel inp cap) (decFirst inp past out)

/-- Every pass of a run of `apultra_decompress` leaves `nMatchOffset` at 1 or
more: since it starts at 1 and only a match sets it, this says that every match
offset of the run is at least 1. -/
def offsetsPositive (inner : Nat) (inp : List Nat) (past : Nat → Nat) (cap nFlags : Nat) :
    Nat → DState → Bool
  | 0, _ => true
  | fuel + 1, s =>
    match decStep inner inp past cap nFlags s with
    | some (.next s1) =>
      decide (1 ≤ s1.nMatchOffset) && offsetsPositive inner inp past cap nFlags fuel s1
    | _ => true

/-- Two decoder states that differ only in the ghost list of writes and in the
output memory at and above the output cursor. -/
def Agree (s r : DState) : Prop :=
  s.rd = r.rd ∧ s.pCurOutData = r.pCurOutData ∧ s.nMatchOffset = r.nMatchOffset ∧
    s.nFollowsLiteral = r.nFollowsLiteral ∧ ∀ i, i < s.pCurOutData → s.out i = r.out i

/-- What the reference decoder does on a pass in which `apultra_decompress` had
the outcome `o`: if the decoder goes on with an offset of 1 or more, the
reference goes on to an agreeing state; if the decoder returns a value other
than the error value, the reference returns it from an agreeing state. -/
def Refines (o : Outcome) (ro : Option Outcome) : Prop :=
  match o with
  | .next s1 => 1 ≤ s1.nMatchOffset → ∃ r1, ro = some (.next r1) ∧ Agree s1 r1
  | .ret v s1 => v = SIZE_ERR ∨ ∃ r1, ro = some (.ret v r1) ∧ Agree s1 r1

/-- A stream of fifteen literals, a ShortMatch with offset 8 and length 3, a
LongMatch with offset 16 and length 12, and the end-of-data token: with capacity
80 the ShortMatch takes the 8+2-byte path and the LongMatch the 16-byte-chunk
path. -/
def fastInput : List Nat :=
  [0x41, 0x00, 0x42, 0x43, 0x44, 0x45, 0x46, 0x47, 0x48, 0x49, 0x01, 0x4A, 0x4B, 0x4C, 0x4D,
    0x4E, 0x4F, 0x50, 0xA1, 0x11, 0x10, 0xCC, 0x00]

/-! ## The LongMatch of the specification -/

/-- The offset of a LongMatch in the words of the specification:
`((hi - bias) << 8) | lo` over the natural numbers, where `bias` is 3 after a
literal and 2 otherwise. -/
def specLongOffset (nFollowsLiteral : Bool) (hi lo : Nat) : Nat :=
  ((hi - (if nFollowsLiteral then 3 else 2)) <<< 8) ||| lo

/-- The length of a LongMatch in the words of the specification: the gamma2
value `g` plus 2 below offset 128, `g` from 128, `g + 1` from 1280 and `g + 2`
from 32000. -/
def specLongLen (offset g : Nat) : Nat :=
  if offset < 128 then g + 2
  else if offset < 1280 then g
  else if offset < 32000 then g + 1
  else g + 2

/-- A stream whose first token is a LongMatch with offset 1 and the gamma2 value
`2^32 - 1` (31 value bits, all 1), followed by the end-of-data token. -/
def lenWrapInput : List Nat :=
  [0x41, 0xAF, 0x01, 0xFF, 0xFF, 0xFF, 0xFF, 0xFF, 0xFF, 0xFF, 0xB0, 0x00]

/-- A stream of two LongMatch tokens and the end-of-data token: the first has
offset 1 and length 1279, the second has offset 1280 and the gamma2 value
`2^32 - 1`. -/
def minWrapInput : List Nat :=
  [0x41, 0xA5, 0x01, 0xFF, 0xF6, 0xBB, 0x00, 0xFF, 0xFF, 0xFF, 0xFF, 0xFF, 0xFF, 0xFF, 0xEC, 0x00]

/-- The state after `k` passes through the body of the `while (1)` loop of
`apultra_decompress`, none of which leaves the function. -/
def decPasses (inner : Nat) (inp : List Nat) (past : Nat → Nat) (cap nFlags : Nat) :
    Nat → DState → Option DState
  | 0, s => some s
  | k + 1, s =>
    match decStep inner inp past cap nFlags s with
    | some (.next s1) => decPasses inner inp past cap nFlags k s1
    | _ => none

/-- The results of `k` successive calls of `apultra_read_bit` on register
`nBitBufferIdx`, first call first, and the reader after them. -/
def readBits (inp : List Nat) (nBitBufferIdx : Nat) : Nat → BitReader → List Int × BitReader
  | 0, r => ([], r)
  | k + 1, r =>
    let b := apultra_read_bit inp r nBitBufferIdx
    let rest := readBits inp nBitBufferIdx k b.2
    (b.1 :: rest.1, rest.2)

/-! ## The gamma2 codes of the specification -/

/-- The number whose binary digits are those of `v` followed by the bits `bs`,
highest first; `binVal 1 bs` is the number written `1 b1 ... bk`. -/
def binVal (v : Nat) : List Bool → Nat
  | [] => v
  | b :: r => binVal (2 * v + b.toNat) r

/-- The standard gamma2 code of the value bits `b1 ... bk`, as the results of the
reads of single bits: each value bit is followed by the continuation bit, 1 to
go on and 0 after the last value bit. -/
def stdCode : List Bool → List Int
  | [] => []
  | [b] => [(b.toNat : Int), 0]
  | b :: c :: r => (b.toNat : Int) :: 1 :: stdCode (c :: r)

/-- The enhanced gamma2 code of the value bits `b1 ... bk`: each value bit is
followed by the continuation bit, 0 to go on and 1 after the last value bit. -/
def enhCode : List Bool → List Int
  | [] => []
  | [b] => [(b.toNat : Int), 1]
  | b :: c :: r => (b.toNat : Int) :: 0 :: enhCode (c :: r)

/-- The value of an enhanced gamma2 code in the words of the specification: the
number `1 b1 ... bk` for up to eight value bits, and otherwise the number
`1 b9 ... bk` shifted left by eight bits, or-ed with the number `b1 ... b8`. -/
def enhVal (bs : List Bool) : Nat :=
  if bs.length ≤ 8 then binVal 1 bs
  else (binVal 1 (bs.drop 8) <<< 8) ||| binVal 0 (bs.take 8)

/-- The enhanced branch of `apultra_read_gamma2` run on the value bits alone,
every continuation bit but the last being 0: the same assignments to `l` and `v`
as in `gamma2Enh`, and the final recombination. -/
def enhLoop (l : Int) (v : Nat) : List Bool → Nat
  | [] => if l ≠ 0 then ((v <<< 8) % 4294967296 + toU32 (l % 256)) % 4294967296 else v
  | b :: r =>
    enhLoop (if l = 0 ∧ v ≥ 256 then toI32 v else l)
      ((toU32 ((((if l = 0 ∧ v ≥ 256 then 1 else v) <<< 1) % 4294967296 : Nat) +
        (b.toNat : Int))) % 4294967296) r

/-! ## Registers that a read leaves alone -/

/-- Register `j` of the reader `b` holds the bits and the mask that it holds in
the reader `a`. -/
def regKept (j : Nat) (a b : BitReader) : Prop :=
  b.bits.get j = a.bits.get j ∧ b.nCurBitMask.get j = a.nCurBitMask.get j

/-- The reader in the state of an outcome has register `j` as the reader `r`
has it. -/
def KeepsReg (j : Nat) (r : BitReader) : Outcome → Prop
  | .next s1 => regKept j r s1.rd
  | .ret _ s1 => regKept j r s1.rd

/-- The stream made of the first byte of `x`, one Literal token for each further
byte, and the end-of-data token. -/
def literalStream : List Nat → List Nat
  | [] => []
  | b :: r => b % 256 :: packFrom (litItems r) 0

/-! ## Offsets as the stream encodes them -/

/-- The offset that the token at the state `s` encodes is 1 or more, and for a
LongMatch is computed without wrap-around: a ShortMatch has `cmd >> 1 ≥ 1`, a
LongMatch has `hi ≥ bias` and `1 ≤ ((hi - bias) << 8) | lo < 2^31`. Literal,
NibbleMatch and RepMatch tokens encode no offset. -/
def encodedOffsetOK (inner : Nat) (inp : List Nat) (past : Nat → Nat) (nFlags : Nat)
    (s : DState) : Bool :=
  if (tokenKind inp s.rd).1 = 1 then
    match apultra_read_gamma2 inner inp (tokenKind inp s.rd).2 (gammaIdx nFlags) with
    | some (hi, r1) =>
      if s.nFollowsLiteral = true ∧ hi = 2 then true
      else
        decide ((if s.nFollowsLiteral then 3 else 2) ≤ hi ∧
          1 ≤ specLongOffset s.nFollowsLiteral hi (inByte inp past r1.pInputData) ∧
          specLongOffset s.nFollowsLiteral hi (inByte inp past r1.pInputData) < 2147483648)
    | none => true
  else if (tokenKind inp s.rd).1 = 2 then
    decide (1 ≤ inByte inp past (tokenKind inp s.rd).2.pInputData >>> 1)
  else true

/-- Every token that the first `n` passes of a run of `apultra_decompress` apply
encodes an offset that is 1 or more, in the sense of `encodedOffsetOK`. -/
def encodedOffsetsPositive (inner : Nat) (inp : List Nat) (past : Nat → Nat) (cap nFlags : Nat) :
    Nat → DState → Bool
  | 0, _ => true
  | n + 1, s =>
    match decStep inner inp past cap nFlags s with
    | some (.next s1) =>
      encodedOffsetOK inner inp past nFlags s &&
        encodedOffsetsPositive inner inp past cap nFlags n s1
    | _ => true

/-- A stream whose first token is a LongMatch with `hi = 3` and `lo = 0` after
the first byte, that is with offset 0, followed by the end-of-data token. -/
def zeroOffsetInput : List Nat := [0x41, 0xAB, 0x00, 0x00, 0x00]

/-- A stream whose first token is a LongMatch with `hi = 2^24 + 2` and
`lo = 0xFF`, for which the decoder computes the offset `-1`, followed by the
end-of-data token. -/
def negOffsetInput : List Nat :=
  [0x41, 0x95, 0x55, 0x55, 0x55, 0x55, 0x57, 0x0C, 0xFF, 0x00]

/-! ## Runs with the same control state -/

/-- Two decoder states with the same reader, output length, offset and flag: they
may differ in the output memory and in the ghost list of writes. -/
def sameCtl (s r : DState) : Prop :=
  s.rd = r.rd ∧ s.pCurOutData = r.pCurOutData ∧ s.nMatchOffset = r.nMatchOffset ∧
    s.nFollowsLiteral = r.nFollowsLiteral

/-- What a second run does on a pass in which the first had the outcome `o`: it
goes on when the first goes on, to a state with the same control state, and it
returns the same value when the first returns a value other than the error
value. -/
def CtlFollows (o : Outcome) (ro : Option Outcome) : Prop :=
  match o with
  | .next s1 => ∃ r1, ro = some (.next r1) ∧ sameCtl s1 r1
  | .ret v s1 => v = SIZE_ERR ∨ ∃ r1, ro = some (.ret v r1) ∧ sameCtl s1 r1

/-! # Theorems -/

theorem size_half (m : Nat) (h : m ≠ 0) : Nat.size (m >>> 1) + 1 = Nat.size m := by
  have key : ∀ k, Nat.size (m >>> 1) ≤ k ↔ Nat.size m ≤ k + 1 := by
    intro k
    rw [Nat.size_le, Nat.size_le, Nat.shiftRight_eq_div_pow, pow_succ]
    omega
  have h1 := (key (Nat.size (m >>> 1))).1 le_rfl
  have h2 : 0 < Nat.size m := Nat.size_pos.2 (Nat.pos_of_ne_zero h)
  have h3 := (key (Nat.size m - 1)).2 (by omega)
  omega

theorem Regs.get_set (a : Regs) (i v : Nat) : (a.set i v).get i = v := by
  unfold Regs.get Regs.set
  split_ifs <;> rfl

theorem Regs.set_set (a : Regs) (i v w : Nat) : (a.set i v).set i w = a.set i w := by
  unfold Regs.set
  split_ifs <;> rfl

theorem regBits_set (a : Regs) (i v : Nat) :
    regBits (a.set i v) + Nat.size (a.get i) = regBits a + Nat.size v := by
  unfold regBits Regs.get Regs.set
  split_ifs <;> simp only [] <;> omega

theorem size_64 : Nat.size 64 = 7 := by
  have := @Nat.size_pow 6
  simpa using this

theorem shiftBit_fst (r : BitReader) (i : Nat) : (shiftBit r i).1 = 0 ∨ (shiftBit r i).1 = 1 := by
  unfold shiftBit
  simp only []
  split_ifs <;> simp

theorem shiftBit_rem (inp : List Nat) (r : BitReader) (i : Nat) (h : r.nCurBitMask.get i ≠ 0) :
    remBits inp (shiftBit r i).2 + 1 = remBits inp r := by
  unfold shiftBit remBits
  simp only []
  have h1 := regBits_set r.nCurBitMask i (r.nCurBitMask.get i >>> 1)
  have h2 := size_half _ h
  omega

theorem shiftBit_pIn (r : BitReader) (i : Nat) : (shiftBit r i).2.pInputData = r.pInputData := rfl

/-- A read either fails, leaving the reader as it was, or delivers a bit and
uses up exactly one of the bits that are left. -/
theorem read_bit_cases (inp : List Nat) (r : BitReader) (i : Nat) :
    (apultra_read_bit inp r i = (-1, r) ∧ inp.length ≤ r.pInputData ∧ r.nCurBitMask.get i = 0) ∨
    (((apultra_read_bit inp r i).1 = 0 ∨ (apultra_read_bit inp r i).1 = 1) ∧
      remBits inp (apultra_read_bit inp r i).2 + 1 = remBits inp r ∧
      r.pInputData ≤ (apultra_read_bit inp r i).2.pInputData ∧
      ((apultra_read_bit inp r i).2.pInputData ≤ inp.length ∨
        (apultra_read_bit inp r i).2.pInputData = r.pInputData)) := by
  unfold apultra_read_bit
  by_cases hm : r.nCurBitMask.get i = 0
  · by_cases hp : r.pInputData ≥ inp.length
    · left
      simp [hm, hp]
    · right
      rw [if_pos hm, if_neg hp]
      refine ⟨shiftBit_fst _ _, ?_, ?_, ?_⟩
      · have h := shiftBit_rem inp
          { r with
            bits := r.bits.set i (inp.getD r.pInputData 0 % 256),
            nCurBitMask := r.nCurBitMask.set i 128,
            pInputData := r.pInputData + 1,
            reads := r.reads ++ [r.pInputData] } i (by simp [Regs.get_set])
        rw [h]
        unfold remBits
        simp only []
        have h1 := regBits_set r.nCurBitMask i 128
        have h3 : Nat.size 128 = 8 := by
          have := @Nat.size_pow 7
          simpa using this
        rw [hm] at h1
        simp only [Nat.size_zero] at h1
        omega
      · rw [shiftBit_pIn]; simp
      · left
        rw [shiftBit_pIn]
        simp only []
        omega
  · right
    rw [if_neg hm]
    refine ⟨shiftBit_fst _ _, shiftBit_rem inp r i hm, ?_, ?_⟩
    · rw [shiftBit_pIn]
    · right; rw [shiftBit_pIn]

theorem toU32_neg_one : toU32 (-1) = 4294967295 := by decide

theorem toU32_zero : toU32 0 = 0 := by decide

theorem toU32_one : toU32 1 = 1 := by decide

theorem read_bit_rem_le (inp : List Nat) (r : BitReader) (i : Nat) :
    remBits inp (apultra_read_bit inp r i).2 ≤ remBits inp r := by
  rcases read_bit_cases inp r i with ⟨h, _, _⟩ | ⟨_, h, _, _⟩
  · rw [h]
  · omega

theorem read_bit_val (inp : List Nat) (r : BitReader) (i : Nat) :
    (apultra_read_bit inp r i).1 = -1 ∨ (apultra_read_bit inp r i).1 = 0 ∨
      (apultra_read_bit inp r i).1 = 1 := by
  rcases read_bit_cases inp r i with ⟨h, _, _⟩ | ⟨h, _, _, _⟩
  · rw [h]; simp
  · tauto

theorem read_bit_ok_rem (inp : List Nat) (r : BitReader) (i : Nat)
    (h : (apultra_read_bit inp r i).1 ≠ -1) :
    remBits inp (apultra_read_bit inp r i).2 + 1 = remBits inp r := by
  rcases read_bit_cases inp r i with ⟨h1, _, _⟩ | ⟨_, h1, _, _⟩
  · rw [h1] at h; simp at h
  · exact h1

theorem read_bit_pIn_le (inp : List Nat) (r : BitReader) (i : Nat) :
    r.pInputData ≤ (apultra_read_bit inp r i).2.pInputData := by
  rcases read_bit_cases inp r i with ⟨h, _, _⟩ | ⟨_, _, h, _⟩
  · rw [h]
  · exact h

theorem toU32_bit_eq_zero (inp : List Nat) (r : BitReader) (i : Nat) :
    toU32 (apultra_read_bit inp r i).1 = 0 ↔ (apultra_read_bit inp r i).1 = 0 := by
  rcases read_bit_val inp r i with h | h | h <;> rw [h] <;> simp [toU32_neg_one, toU32_zero, toU32_one]

theorem tokenKind_le (inp : List Nat) (r : BitReader) :
    remBits inp (tokenKind inp r).2 ≤ remBits inp r ∧ (tokenKind inp r).1 ≤ 3 ∧
      ((tokenKind inp r).1 ≤ 2 → remBits inp (tokenKind inp r).2 < remBits inp r) ∧
      r.pInputData ≤ (tokenKind inp r).2.pInputData := by
  unfold tokenKind
  simp only [toU32_bit_eq_zero]
  have a1 := read_bit_rem_le inp r 0
  have a2 := read_bit_rem_le inp (apultra_read_bit inp r 0).2 0
  have a3 := read_bit_rem_le inp (apultra_read_bit inp (apultra_read_bit inp r 0).2 0).2 0
  have p1 := read_bit_pIn_le inp r 0
  have p2 := read_bit_pIn_le inp (apultra_read_bit inp r 0).2 0
  have p3 := read_bit_pIn_le inp (apultra_read_bit inp (apultra_read_bit inp r 0).2 0).2 0
  split_ifs with h1 h2 h3
  · have := read_bit_ok_rem inp r 0 (by rw [h1]; decide)
    simp only []
    omega
  · have := read_bit_ok_rem inp (apultra_read_bit inp r 0).2 0 (by rw [h2]; decide)
    simp only []
    omega
  · have := read_bit_ok_rem inp (apultra_read_bit inp (apultra_read_bit inp r 0).2 0).2 0
      (by rw [h3]; decide)
    simp only []
    omega
  · simp only []
    omega

theorem decStep_eq (fuel : Nat) (inp : List Nat) (past : Nat → Nat) (cap nFlags : Nat) (s : DState) :
    decStep fuel inp past cap nFlags s =
      if (tokenKind inp s.rd).1 = 0 then
        some (decLiteral inp past cap { s with rd := (tokenKind inp s.rd).2 })
      else if (tokenKind inp s.rd).1 = 1 then
        decLong fuel inp past cap nFlags { s with rd := (tokenKind inp s.rd).2 }
      else if (tokenKind inp s.rd).1 = 2 then
        some (decShort inp past cap { s with rd := (tokenKind inp s.rd).2 })
      else some (decNibble inp cap nFlags { s with rd := (tokenKind inp s.rd).2 }) := by
  unfold decStep tokenKind
  simp only [Nat.not_lt_zero, if_false]
  split_ifs <;> simp_all

theorem maxStep_eq (fuel : Nat) (inp : List Nat) (past : Nat → Nat) (nFlags : Nat) (s : MState) :
    maxStep fuel inp past nFlags s =
      if (tokenKind inp s.rd).1 = 0 then
        some (maxLiteral inp { s with rd := (tokenKind inp s.rd).2 })
      else if (tokenKind inp s.rd).1 = 1 then
        maxLong fuel inp past nFlags { s with rd := (tokenKind inp s.rd).2 }
      else if (tokenKind inp s.rd).1 = 2 then
        some (maxShort inp past { s with rd := (tokenKind inp s.rd).2 })
      else some (maxNibble inp nFlags { s with rd := (tokenKind inp s.rd).2 }) := by
  unfold maxStep tokenKind
  simp only [Nat.not_lt_zero, if_false]
  split_ifs <;> simp_all

/-! ## `apultra_read_gamma2` returns, and does not depend on the fuel -/

theorem gamma2Std_some (inp : List Nat) (i : Nat) :
    ∀ (fuel v : Nat) (r : BitReader), remBits inp r < fuel →
      ∃ x, gamma2Std inp i fuel v r = some x ∧ remBits inp x.2 ≤ remBits inp r ∧
        r.pInputData ≤ x.2.pInputData := by
  intro fuel
  induction fuel with
  | zero => intro v r h; omega
  | succ n ih =>
    intro v r h
    unfold gamma2Std
    simp only []
    have a1 := read_bit_rem_le inp r i
    have a2 := read_bit_rem_le inp (apultra_read_bit inp r i).2 i
    have p1 := read_bit_pIn_le inp r i
    have p2 := read_bit_pIn_le inp (apultra_read_bit inp r i).2 i
    split_ifs with h1 h2
    · exact ⟨_, rfl, by simp only []; omega, by simp only []; omega⟩
    · have h3 := read_bit_ok_rem inp (apultra_read_bit inp r i).2 i (by omega)
      obtain ⟨x, hx, hx1, hx2⟩ := ih
        ((toU32 (((v <<< 1) % 4294967296 : Nat) + (apultra_read_bit inp r i).1)) % 4294967296)
        (apultra_read_bit inp (apultra_read_bit inp r i).2 i).2 (by omega)
      exact ⟨x, hx, by omega, by omega⟩
    · exact ⟨_, rfl, by simp only []; omega, by simp only []; omega⟩

theorem gamma2Enh_some (inp : List Nat) (i : Nat) :
    ∀ (fuel : Nat) (l : Int) (v : Nat) (r : BitReader), remBits inp r < fuel →
      ∃ x, gamma2Enh inp i fuel l v r = some x ∧ remBits inp x.2 ≤ remBits inp r ∧
        r.pInputData ≤ x.2.pInputData := by
  intro fuel
  induction fuel with
  | zero => intro l v r h; omega
  | succ n ih =>
    intro l v r h
    unfold gamma2Enh
    simp only []
    generalize (if l = 0 ∧ v ≥ 256 then toI32 v else l) = l1
    generalize (if l = 0 ∧ v ≥ 256 then 1 else v) = v0
    have a1 := read_bit_rem_le inp r i
    have a2 := read_bit_rem_le inp (apultra_read_bit inp r i).2 i
    have p1 := read_bit_pIn_le inp r i
    have p2 := read_bit_pIn_le inp (apultra_read_bit inp r i).2 i
    split_ifs with h1 h2 h3
    · exact ⟨_, rfl, by simp only []; omega, by simp only []; omega⟩
    · have h3 := read_bit_ok_rem inp (apultra_read_bit inp r i).2 i (by omega)
      obtain ⟨x, hx, hx1, hx2⟩ := ih _ _
        (apultra_read_bit inp (apultra_read_bit inp r i).2 i).2 (by omega)
      exact ⟨x, hx, by omega, by omega⟩
    · exact ⟨_, rfl, by simp only []; omega, by simp only []; omega⟩
    · exact ⟨_, rfl, by simp only []; omega, by simp only []; omega⟩

theorem gamma2Std_mono (inp : List Nat) (i : Nat) :
    ∀ (fuel k v : Nat) (r : BitReader) (x : Nat × BitReader),
      gamma2Std inp i fuel v r = some x → gamma2Std inp i (fuel + k) v r = some x := by
  intro fuel
  induction fuel with
  | zero => intro k v r x h; simp [gamma2Std] at h
  | succ n ih =>
    intro k v r x h
    rw [show n + 1 + k = (n + k) + 1 by omega]
    unfold gamma2Std at h ⊢
    simp only [] at h ⊢
    split_ifs at h ⊢ with h1 h2
    · exact h
    · exact ih k _ _ x h
    · exact h

theorem gamma2Enh_mono (inp : List Nat) (i : Nat) :
    ∀ (fuel k : Nat) (l : Int) (v : Nat) (r : BitReader) (x : Nat × BitReader),
      gamma2Enh inp i fuel l v r = some x → gamma2Enh inp i (fuel + k) l v r = some x := by
  intro fuel
  induction fuel with
  | zero => intro k l v r x h; simp [gamma2Enh] at h
  | succ n ih =>
    intro k l v r x h
    rw [show n + 1 + k = (n + k) + 1 by omega]
    unfold gamma2Enh at h ⊢
    simp only [] at h ⊢
    generalize (if l = 0 ∧ v ≥ 256 then toI32 v else l) = l1 at h ⊢
    generalize (if l = 0 ∧ v ≥ 256 then 1 else v) = v0 at h ⊢
    split_ifs at h ⊢ with h1 h2 h3
    · exact h
    · exact ih k _ _ _ x h
    · exact h
    · exact h

/-- With more fuel than bits left, `apultra_read_gamma2` returns. -/
theorem read_gamma2_some (fuel : Nat) (inp : List Nat) (r : BitReader) (i : Nat)
    (h : remBits inp r < fuel) :
    ∃ x, apultra_read_gamma2 fuel inp r i = some x ∧ remBits inp x.2 ≤ remBits inp r ∧
      r.pInputData ≤ x.2.pInputData := by
  unfold apultra_read_gamma2
  split_ifs
  · exact gamma2Std_some inp i fuel 1 r h
  · exact gamma2Enh_some inp i fuel 0 1 r h

theorem read_gamma2_mono (fuel k : Nat) (inp : List Nat) (r : BitReader) (i : Nat)
    (x : Nat × BitReader) (h : apultra_read_gamma2 fuel inp r i = some x) :
    apultra_read_gamma2 (fuel + k) inp r i = some x := by
  unfold apultra_read_gamma2 at h ⊢
  split_ifs at h ⊢
  · exact gamma2Std_mono inp i fuel k 1 r x h
  · exact gamma2Enh_mono inp i fuel k 0 1 r x h

/-- Two runs of `apultra_read_gamma2` that both return agree. -/
theorem read_gamma2_fuel (f1 f2 : Nat) (inp : List Nat) (r : BitReader) (i : Nat)
    (x y : Nat × BitReader) (h1 : apultra_read_gamma2 f1 inp r i = some x)
    (h2 : apultra_read_gamma2 f2 inp r i = some y) : x = y := by
  have a := read_gamma2_mono f1 f2 inp r i x h1
  have b := read_gamma2_mono f2 f1 inp r i y h2
  rw [Nat.add_comm] at b
  rw [a] at b
  exact Option.some.inj b

theorem rawByte_rem_le (inp : List Nat) (past : Nat → Nat) (r : BitReader) :
    remBits inp (rawByte inp past r).2 ≤ remBits inp r := by
  unfold rawByte remBits
  simp only []
  omega

theorem readNibble_rem_le (inp : List Nat) (r : BitReader) (i : Nat) :
    remBits inp (readNibble inp r i).2 ≤ remBits inp r := by
  unfold readNibble
  simp only []
  have a1 := read_bit_rem_le inp r i
  have a2 := read_bit_rem_le inp (apultra_read_bit inp r i).2 i
  have a3 := read_bit_rem_le inp (apultra_read_bit inp (apultra_read_bit inp r i).2 i).2 i
  have a4 := read_bit_rem_le inp
    (apultra_read_bit inp (apultra_read_bit inp (apultra_read_bit inp r i).2 i).2 i).2 i
  omega

theorem copy16_some :
    ∀ (fuel : Nat) (m : Nat → Nat) (w : List Nat) (dst src e : Nat), 0 < fuel → e ≤ dst + fuel →
      ∃ x, copy16 fuel m w dst src e = some x := by
  intro fuel
  induction fuel with
  | zero => intro m w dst src e h; omega
  | succ n ih =>
    intro m w dst src e _ h
    unfold copy16
    split_ifs with h1
    · exact ih _ _ _ _ _ (by omega) (by omega)
    · exact ⟨_, rfl⟩

/-! ## Every pass of the loop of `apultra_decompress` makes progress -/

theorem decLiteral_advances (inp : List Nat) (past : Nat → Nat) (cap : Nat) (s : DState) :
    Advances inp s (decLiteral inp past cap s) := by
  unfold decLiteral
  split_ifs
  · have := rawByte_rem_le inp past s.rd
    simp only [Advances]
    omega
  · trivial

theorem decShort_advances (inp : List Nat) (past : Nat → Nat) (cap : Nat) (s : DState) :
    Advances inp s (decShort inp past cap s) := by
  unfold decShort
  have := rawByte_rem_le inp past s.rd
  simp only []
  split_ifs <;> simp only [Advances] <;> first | trivial | omega

theorem decNibble_advances (inp : List Nat) (cap nFlags : Nat) (s : DState) :
    AdvancesOne inp cap s (decNibble inp cap nFlags s) := by
  unfold decNibble
  have := readNibble_rem_le inp s.rd (nibbleIdx nFlags)
  simp only []
  split_ifs <;> simp only [AdvancesOne] <;> first | trivial | omega | exact ⟨by omega, trivial, by omega⟩

theorem copyLong_advances (fuel cap : Nat) (inp : List Nat) (s : DState) (pSrc nMatchLen : Nat)
    (hc : cap < fuel) :
    ∃ o, copyLong fuel cap s pSrc nMatchLen = some o ∧ Advances inp s o := by
  unfold copyLong
  split_ifs with h1 h2 h3
  · exact ⟨_, rfl, by simp only [Advances]; omega⟩
  · obtain ⟨x, hx⟩ := copy16_some fuel s.out s.writes s.pCurOutData pSrc
      (s.pCurOutData + nMatchLen) (by omega) (by omega)
    rw [hx]
    exact ⟨_, rfl, by simp only [Advances]; omega⟩
  · exact ⟨_, rfl, by simp only [Advances]; omega⟩
  · exact ⟨_, rfl, trivial⟩

theorem longHead_rem_le (inp : List Nat) (past : Nat → Nat) (f : Bool) (o : Int) (hi : Nat)
    (r : BitReader) : remBits inp (longHead inp past f o hi r).rd ≤ remBits inp r := by
  unfold longHead
  have := rawByte_rem_le inp past r
  split_ifs <;> simp only [] <;> omega

theorem decLong_advances (fuel : Nat) (inp : List Nat) (past : Nat → Nat) (cap nFlags : Nat)
    (s : DState) (hb : remBits inp s.rd < fuel) (hc : cap < fuel) :
    ∃ o, decLong fuel inp past cap nFlags s = some o ∧ Advances inp s o := by
  unfold decLong
  obtain ⟨⟨hi, r1⟩, hx, hx1, -⟩ := read_gamma2_some fuel inp s.rd (gammaIdx nFlags) hb
  rw [hx]
  simp only [] at hx1 ⊢
  have hh := longHead_rem_le inp past s.nFollowsLiteral s.nMatchOffset hi r1
  generalize longHead inp past s.nFollowsLiteral s.nMatchOffset hi r1 = h at hh ⊢
  split_ifs with h1
  · obtain ⟨⟨g, r3⟩, hy, hy1, -⟩ := read_gamma2_some fuel inp h.rd (gammaIdx nFlags) (by omega)
    rw [hy]
    simp only [] at hy1 ⊢
    obtain ⟨o, ho, hadv⟩ := copyLong_advances fuel cap inp
      { rd := r3, pCurOutData := s.pCurOutData, out := s.out, nMatchOffset := h.nMatchOffset,
        nFollowsLiteral := false, writes := s.writes }
      ((s.pCurOutData : Int) - h.nMatchOffset).toNat (longLen h g) hc
    refine ⟨o, ho, ?_⟩
    cases o with
    | next s1 =>
      simp only [Advances] at hadv ⊢
      omega
    | ret v s1 => trivial
  · exact ⟨_, rfl, trivial⟩

/-- A pass of the loop returns a result, and if the loop goes on the measure has
gone down. -/
theorem decStep_progress (fuel : Nat) (inp : List Nat) (past : Nat → Nat) (cap nFlags : Nat)
    (s : DState) (hb : remBits inp s.rd < fuel) (hc : cap < fuel) :
    ∃ o, decStep fuel inp past cap nFlags s = some o ∧
      match o with
      | .next s1 => decMeasure inp cap s1 < decMeasure inp cap s ∧
          remBits inp s1.rd ≤ remBits inp s.rd
      | .ret _ _ => True := by
  rw [decStep_eq]
  obtain ⟨k1, k2, k3, -⟩ := tokenKind_le inp s.rd
  split_ifs with h0 h1 h2
  · refine ⟨_, rfl, ?_⟩
    have h := decLiteral_advances inp past cap { s with rd := (tokenKind inp s.rd).2 }
    revert h
    cases decLiteral inp past cap { s with rd := (tokenKind inp s.rd).2 } with
    | next s1 =>
      simp only [Advances, decMeasure]
      intro h
      have := k3 (by omega)
      omega
    | ret v s1 => intro _; trivial
  · obtain ⟨o, ho, h⟩ := decLong_advances fuel inp past cap nFlags
      { s with rd := (tokenKind inp s.rd).2 } (by simp only []; omega) hc
    refine ⟨o, ho, ?_⟩
    cases o with
    | next s1 =>
      simp only [Advances, decMeasure] at h ⊢
      have := k3 (by omega)
      omega
    | ret v s1 => trivial
  · refine ⟨_, rfl, ?_⟩
    have h := decShort_advances inp past cap { s with rd := (tokenKind inp s.rd).2 }
    revert h
    cases decShort inp past cap { s with rd := (tokenKind inp s.rd).2 } with
    | next s1 =>
      simp only [Advances, decMeasure]
      intro h
      have := k3 (by omega)
      omega
    | ret v s1 => intro _; trivial
  · refine ⟨_, rfl, ?_⟩
    have h := decNibble_advances inp cap nFlags { s with rd := (tokenKind inp s.rd).2 }
    revert h
    cases decNibble inp cap nFlags { s with rd := (tokenKind inp s.rd).2 } with
    | next s1 =>
      simp only [AdvancesOne, decMeasure]
      intro h
      omega
    | ret v s1 => intro _; trivial

/-- The loop of `apultra_decompress` returns when its fuel exceeds the measure. -/
theorem decLoop_some (inner : Nat) (inp : List Nat) (past : Nat → Nat) (cap nFlags : Nat)
    (hc : cap < inner) :
    ∀ (fuel : Nat) (s : DState), remBits inp s.rd < inner → decMeasure inp cap s < fuel →
      ∃ x, decLoop inner inp past cap nFlags fuel s = some x := by
  intro fuel
  induction fuel with
  | zero => intro s _ h; omega
  | succ n ih =>
    intro s hb hm
    unfold decLoop
    obtain ⟨o, ho, h⟩ := decStep_progress inner inp past cap nFlags s hb hc
    rw [ho]
    cases o with
    | next s1 =>
      simp only [] at h ⊢
      exact ih s1 (by omega) (by omega)
    | ret v s1 => exact ⟨_, rfl⟩

theorem decStep_ret (fuel : Nat) (inp : List Nat) (past : Nat → Nat) (cap nFlags : Nat)
    (s s1 : DState) (v : Nat) (h : decStep fuel inp past cap nFlags s = some (.ret v s1)) :
    v = SIZE_ERR ∨ v = s1.pCurOutData % 18446744073709551616 := by
  rw [decStep_eq] at h
  split_ifs at h
  · unfold decLiteral at h
    split_ifs at h <;> simp at h
    exact Or.inl h.1.symm
  · unfold decLong at h
    split at h
    · simp at h
    · simp only [] at h
      split_ifs at h
      · split at h
        · simp at h
        · unfold copyLong at h
          split_ifs at h
          · simp at h
          · split at h <;> simp at h
          · simp at h
          · simp at h
            exact Or.inl h.1.symm
      · simp at h
        exact Or.inl h.1.symm
  · unfold decShort at h
    simp only [] at h
    split_ifs at h <;> simp at h
    · right
      rw [← h.2, ← h.1]
    all_goals exact Or.inl h.1.symm
  · unfold decNibble at h
    simp only [] at h
    split_ifs at h <;> simp at h
    all_goals exact Or.inl h.1.symm

theorem decLoop_ret (inner : Nat) (inp : List Nat) (past : Nat → Nat) (cap nFlags : Nat) :
    ∀ (fuel : Nat) (s s1 : DState) (v : Nat),
      decLoop inner inp past cap nFlags fuel s = some (v, s1) →
      v = SIZE_ERR ∨ v = s1.pCurOutData % 18446744073709551616 := by
  intro fuel
  induction fuel with
  | zero => intro s s1 v h; simp [decLoop] at h
  | succ n ih =>
    intro s s1 v h
    unfold decLoop at h
    split at h
    · simp at h
    · rename_i v2 s2 hst
      simp at h
      rw [← h.1, ← h.2]
      exact decStep_ret inner inp past cap nFlags s s2 v2 hst
    · exact ih _ _ _ h

theorem regBits_zero : regBits ⟨0, 0, 0⟩ = 0 := by
  simp [regBits]

theorem decFirst_measure (inp : List Nat) (past out : Nat → Nat) (cap : Nat) :
    remBits inp (decFirst inp past out).rd < decFuel inp cap ∧
      decMeasure inp cap (decFirst inp past out) < decFuel inp cap := by
  simp only [decFirst, decInit, rawByte, decMeasure, remBits, decFuel, regBits_zero]
  omega

/-- C2. `apultra_decompress` returns for every input, every memory content after
the input, every output memory, capacity and flags: the fuel `decFuel` that the
embedding gives its loops is never used up, and the value returned is the error
value or the output length reached at the end-of-data token. -/
theorem decompress_terminates (inp : List Nat) (past out : Nat → Nat) (cap nFlags : Nat) :
    ∃ v s, apultra_decompress inp past out cap nFlags = some (v, s) ∧
      (v = SIZE_ERR ∨ v = s.pCurOutData % 18446744073709551616) := by
  unfold apultra_decompress
  split_ifs with h
  · exact ⟨SIZE_ERR, decInit out, rfl, Or.inl rfl⟩
  · obtain ⟨hb, hm⟩ := decFirst_measure inp past out cap
    obtain ⟨⟨v, s⟩, hx⟩ := decLoop_some (decFuel inp cap) inp past cap nFlags
      (by unfold decFuel; omega) (decFuel inp cap) (decFirst inp past out) hb hm
    exact ⟨v, s, hx, decLoop_ret _ _ _ _ _ _ _ _ _ hx⟩

/-! ## The results of `apultra_decompress` do not depend on the fuel -/

theorem copy16_mono :
    ∀ (fuel k : Nat) (m : Nat → Nat) (w : List Nat) (dst src e : Nat)
      (x : (Nat → Nat) × List Nat),
      copy16 fuel m w dst src e = some x → copy16 (fuel + k) m w dst src e = some x := by
  intro fuel
  induction fuel with
  | zero => intro k m w dst src e x h; simp [copy16] at h
  | succ n ih =>
    intro k m w dst src e x h
    rw [show n + 1 + k = (n + k) + 1 by omega]
    unfold copy16 at h ⊢
    split_ifs at h ⊢
    · exact ih k _ _ _ _ _ x h
    · exact h

theorem copyLong_mono (fuel k cap : Nat) (s : DState) (pSrc nMatchLen : Nat) (o : Outcome)
    (h : copyLong fuel cap s pSrc nMatchLen = some o) :
    copyLong (fuel + k) cap s pSrc nMatchLen = some o := by
  unfold copyLong at h ⊢
  split_ifs at h ⊢
  · exact h
  · split at h
    · simp at h
    · rename_i mw hmw
      rw [copy16_mono fuel k _ _ _ _ _ mw hmw]
      exact h
  · exact h
  · exact h

theorem decLong_mono (fuel k : Nat) (inp : List Nat) (past : Nat → Nat) (cap nFlags : Nat)
    (s : DState) (o : Outcome) (h : decLong fuel inp past cap nFlags s = some o) :
    decLong (fuel + k) inp past cap nFlags s = some o := by
  unfold decLong at h ⊢
  split at h
  · simp at h
  · rename_i hi r1 hg
    rw [read_gamma2_mono fuel k inp s.rd (gammaIdx nFlags) (hi, r1) hg]
    simp only [] at h ⊢
    split_ifs at h ⊢
    · split at h
      · simp at h
      · rename_i g r3 hg2
        rw [read_gamma2_mono fuel k inp _ (gammaIdx nFlags) (g, r3) hg2]
        exact copyLong_mono fuel k cap _ _ _ o h
    · exact h

theorem decStep_mono (fuel k : Nat) (inp : List Nat) (past : Nat → Nat) (cap nFlags : Nat)
    (s : DState) (o : Outcome) (h : decStep fuel inp past cap nFlags s = some o) :
    decStep (fuel + k) inp past cap nFlags s = some o := by
  rw [decStep_eq] at h ⊢
  split_ifs at h ⊢
  · exact h
  · exact decLong_mono fuel k inp past cap nFlags _ o h
  · exact h
  · exact h

/-- A result of the loop of the decoder is the result with any larger fuel, for
the loop itself and for the loops inside a pass. -/
theorem decLoop_mono (inner j : Nat) (inp : List Nat) (past : Nat → Nat) (cap nFlags : Nat) :
    ∀ (fuel k : Nat) (s : DState) (x : Nat × DState),
      decLoop inner inp past cap nFlags fuel s = some x →
      decLoop (inner + j) inp past cap nFlags (fuel + k) s = some x := by
  intro fuel
  induction fuel with
  | zero => intro k s x h; simp [decLoop] at h
  | succ n ih =>
    intro k s x h
    rw [show n + 1 + k = (n + k) + 1 by omega]
    unfold decLoop at h ⊢
    split at h
    · simp at h
    · rename_i v2 s2 hst
      rw [decStep_mono inner j inp past cap nFlags s _ hst]
      exact h
    · rename_i s2 hst
      rw [decStep_mono inner j inp past cap nFlags s _ hst]
      exact ih k s2 x h

/-- The value of `apultra_decompress` is what its loop returns with any fuel at
least as large as the one the embedding supplies. -/
theorem decompress_fuel_irrelevant (inp : List Nat) (past out : Nat → Nat) (cap nFlags : Nat)
    (inner fuel : Nat) (hi : decFuel inp cap ≤ inner) (hf : decFuel inp cap ≤ fuel)
    (h : ¬ (0 ≥ inp.length ∧ 0 < cap)) :
    decLoop inner inp past cap nFlags fuel (decFirst inp past out) =
      apultra_decompress inp past out cap nFlags := by
  obtain ⟨hb, hm⟩ := decFirst_measure inp past out cap
  obtain ⟨x, hx⟩ := decLoop_some (decFuel inp cap) inp past cap nFlags
    (by unfold decFuel; omega) (decFuel inp cap) (decFirst inp past out) hb hm
  have := decLoop_mono (decFuel inp cap) (inner - decFuel inp cap) inp past cap nFlags
    (decFuel inp cap) (fuel - decFuel inp cap) _ x hx
  rw [show decFuel inp cap + (inner - decFuel inp cap) = inner by omega,
    show decFuel inp cap + (fuel - decFuel inp cap) = fuel by omega] at this
  unfold apultra_decompress
  rw [if_neg h, this, hx]

/-! ## The size query follows the decoder -/

theorem sameBits_refl (a : BitReader) : sameBits a a := ⟨rfl, rfl, rfl⟩

theorem remBits_same (inp : List Nat) (a b : BitReader) (h : sameBits a b) :
    remBits inp a = remBits inp b := by
  obtain ⟨h1, h2, h3⟩ := h
  unfold remBits
  rw [h1, h2]

theorem read_bit_same (inp : List Nat) (a b : BitReader) (i : Nat) (h : sameBits a b) :
    (apultra_read_bit inp a i).1 = (apultra_read_bit inp b i).1 ∧
      sameBits (apultra_read_bit inp a i).2 (apultra_read_bit inp b i).2 := by
  obtain ⟨h1, h2, h3⟩ := h
  unfold apultra_read_bit shiftBit sameBits
  rw [h1, h2, h3]
  split_ifs <;> simp [h1, h2, h3]

theorem rawByte_same (inp : List Nat) (past : Nat → Nat) (a b : BitReader) (h : sameBits a b) :
    (rawByte inp past a).1 = (rawByte inp past b).1 ∧
      sameBits (rawByte inp past a).2 (rawByte inp past b).2 := by
  obtain ⟨h1, h2, h3⟩ := h
  unfold rawByte sameBits
  simp [h1, h2, h3]

theorem gamma2Std_same (inp : List Nat) (i : Nat) :
    ∀ (fuel v : Nat) (a b : BitReader) (x : Nat × BitReader), sameBits a b →
      gamma2Std inp i fuel v a = some x →
      ∃ y, gamma2Std inp i fuel v b = some y ∧ x.1 = y.1 ∧ sameBits x.2 y.2 := by
  intro fuel
  induction fuel with
  | zero => intro v a b x _ h; simp [gamma2Std] at h
  | succ n ih =>
    intro v a b x hs h
    unfold gamma2Std at h ⊢
    simp only [] at h ⊢
    obtain ⟨e1, s1⟩ := read_bit_same inp a b i hs
    obtain ⟨e2, s2⟩ := read_bit_same inp _ _ i s1
    rw [← e1, ← e2]
    split_ifs at h ⊢ with h1 h2
    · have h := Option.some.inj h
      subst h
      exact ⟨_, rfl, rfl, s2⟩
    · exact ih _ _ _ x s2 h
    · have h := Option.some.inj h
      subst h
      exact ⟨_, rfl, rfl, s2⟩

theorem gamma2Enh_same (inp : List Nat) (i : Nat) :
    ∀ (fuel : Nat) (l : Int) (v : Nat) (a b : BitReader) (x : Nat × BitReader), sameBits a b →
      gamma2Enh inp i fuel l v a = some x →
      ∃ y, gamma2Enh inp i fuel l v b = some y ∧ x.1 = y.1 ∧ sameBits x.2 y.2 := by
  intro fuel
  induction fuel with
  | zero => intro l v a b x _ h; simp [gamma2Enh] at h
  | succ n ih =>
    intro l v a b x hs h
    unfold gamma2Enh at h ⊢
    simp only [] at h ⊢
    generalize (if l = 0 ∧ v ≥ 256 then toI32 v else l) = l1 at h ⊢
    generalize (if l = 0 ∧ v ≥ 256 then 1 else v) = v0 at h ⊢
    obtain ⟨e1, s1⟩ := read_bit_same inp a b i hs
    obtain ⟨e2, s2⟩ := read_bit_same inp _ _ i s1
    rw [← e1, ← e2]
    split_ifs at h ⊢ with h1 h2 h3
    · have h := Option.some.inj h
      subst h
      exact ⟨_, rfl, rfl, s2⟩
    · exact ih _ _ _ _ x s2 h
    · have h := Option.some.inj h
      subst h
      exact ⟨_, rfl, rfl, s2⟩
    · have h := Option.some.inj h
      subst h
      exact ⟨_, rfl, rfl, s2⟩

theorem read_gamma2_same (fuel : Nat) (inp : List Nat) (a b : BitReader) (i : Nat)
    (x : Nat × BitReader) (hs : sameBits a b) (h : apultra_read_gamma2 fuel inp a i = some x) :
    ∃ y, apultra_read_gamma2 fuel inp b i = some y ∧ x.1 = y.1 ∧ sameBits x.2 y.2 := by
  unfold apultra_read_gamma2 at h ⊢
  split_ifs at h ⊢
  · exact gamma2Std_same inp i fuel 1 a b x hs h
  · exact gamma2Enh_same inp i fuel 0 1 a b x hs h

/-- A gamma2 read of the decoder is matched by the size query, whatever fuel
each of them runs with, as long as the size query has enough. -/
theorem read_gamma2_sim (f1 f2 : Nat) (inp : List Nat) (a b : BitReader) (i : Nat)
    (x : Nat × BitReader) (hs : sameBits a b) (h : apultra_read_gamma2 f1 inp a i = some x)
    (hf : remBits inp a < f2) :
    ∃ y, apultra_read_gamma2 f2 inp b i = some y ∧ x.1 = y.1 ∧ sameBits x.2 y.2 := by
  obtain ⟨z, hz, -, -⟩ := read_gamma2_some f2 inp a i hf
  have := read_gamma2_fuel f1 f2 inp a i x z h hz
  subst this
  exact read_gamma2_same f2 inp a b i x hs hz

theorem tokenKind_same (inp : List Nat) (a b : BitReader) (h : sameBits a b) :
    (tokenKind inp a).1 = (tokenKind inp b).1 ∧ sameBits (tokenKind inp a).2 (tokenKind inp b).2 := by
  unfold tokenKind
  simp only []
  obtain ⟨e1, s1⟩ := read_bit_same inp a b 0 h
  obtain ⟨e2, s2⟩ := read_bit_same inp _ _ 0 s1
  obtain ⟨e3, s3⟩ := read_bit_same inp _ _ 0 s2
  rw [← e1, ← e2, ← e3]
  split_ifs <;> first | exact ⟨rfl, s1⟩ | exact ⟨rfl, s2⟩ | exact ⟨rfl, s3⟩

theorem readNibble_same (inp : List Nat) (a b : BitReader) (i : Nat) (h : sameBits a b) :
    (readNibble inp a i).1 = (readNibble inp b i).1 ∧
      sameBits (readNibble inp a i).2 (readNibble inp b i).2 := by
  unfold readNibble
  simp only []
  obtain ⟨e1, s1⟩ := read_bit_same inp a b i h
  obtain ⟨e2, s2⟩ := read_bit_same inp _ _ i s1
  obtain ⟨e3, s3⟩ := read_bit_same inp _ _ i s2
  obtain ⟨e4, s4⟩ := read_bit_same inp _ _ i s3
  rw [← e1, ← e2, ← e3, ← e4]
  exact ⟨rfl, s4⟩

theorem longHead_same (inp : List Nat) (past : Nat → Nat) (f : Bool) (o : Int) (hi : Nat)
    (a b : BitReader) (h : sameBits a b) :
    (longHead inp past f o hi a).nIsRepMatch = (longHead inp past f o hi b).nIsRepMatch ∧
      (longHead inp past f o hi a).nMatchOffset = (longHead inp past f o hi b).nMatchOffset ∧
      (longHead inp past f o hi a).nMatchLenBias = (longHead inp past f o hi b).nMatchLenBias ∧
      sameBits (longHead inp past f o hi a).rd (longHead inp past f o hi b).rd := by
  unfold longHead
  obtain ⟨e1, s1⟩ := rawByte_same inp past a b h
  simp only []
  rw [← e1]
  split_ifs <;> first | exact ⟨rfl, rfl, rfl, s1⟩ | exact ⟨rfl, rfl, rfl, h⟩

theorem longLen_same (h1 h2 : LongHead) (g : Nat) (a : h1.nIsRepMatch = h2.nIsRepMatch)
    (b : h1.nMatchOffset = h2.nMatchOffset) (c : h1.nMatchLenBias = h2.nMatchLenBias) :
    longLen h1 g = longLen h2 g := by
  unfold longLen
  rw [a, b, c]

theorem decLiteral_sim (inp : List Nat) (past : Nat → Nat) (cap : Nat) (s : DState) (m : MState)
    (hs : Sim s m) : Follows (decLiteral inp past cap s) (some (maxLiteral inp m)) := by
  obtain ⟨⟨h1, h2, h3⟩, h4, h5, h6⟩ := hs
  unfold decLiteral maxLiteral
  split_ifs with a b b
  · refine ⟨_, rfl, ⟨?_, ?_, ?_⟩, ?_, ?_, ?_⟩
    · simp [rawByte, h1]
    · simp [rawByte, h2]
    · simp [rawByte, h3]
    · exact h4
    · rfl
    · simp only []
      omega
  · omega
  · exact Or.inl rfl
  · exact Or.inl rfl

theorem decShort_sim (inp : List Nat) (past : Nat → Nat) (cap : Nat) (s : DState) (m : MState)
    (hs : Sim s m) : Follows (decShort inp past cap s) (some (maxShort inp past m)) := by
  obtain ⟨hr, h4, h5, h6⟩ := hs
  obtain ⟨e1, s1⟩ := rawByte_same inp past s.rd m.rd hr
  unfold decShort maxShort
  simp only []
  rw [← e1]
  split_ifs with a b c d
  · right
    exact ⟨_, by rw [h6]⟩
  · exact ⟨_, rfl, s1, rfl, rfl, by simp only []; omega⟩
  · exact ⟨_, rfl, s1, rfl, rfl, by simp only []; omega⟩
  · exact Or.inl rfl
  · exact Or.inl rfl

theorem decNibble_sim (inp : List Nat) (cap nFlags : Nat) (s : DState) (m : MState)
    (hs : Sim s m) : Follows (decNibble inp cap nFlags s) (some (maxNibble inp nFlags m)) := by
  obtain ⟨hr, h4, h5, h6⟩ := hs
  obtain ⟨e1, s1⟩ := readNibble_same inp s.rd m.rd (nibbleIdx nFlags) hr
  unfold decNibble maxNibble
  simp only []
  split_ifs with a b c
  · exact ⟨_, rfl, s1, h4, rfl, by simp only []; omega⟩
  · exact Or.inl rfl
  · exact ⟨_, rfl, s1, h4, rfl, by simp only []; omega⟩
  · exact Or.inl rfl

theorem copyLong_sim (fuel cap : Nat) (s : DState) (m : MState) (pSrc nMatchLen : Nat)
    (o : Outcome) (hs : Sim s m) (h : copyLong fuel cap s pSrc nMatchLen = some o) :
    Follows o (some (.next { m with
      nDecompressedSize := (m.nDecompressedSize + nMatchLen) % 18446744073709551616 })) := by
  obtain ⟨hr, h4, h5, h6⟩ := hs
  unfold copyLong at h
  split_ifs at h with a b c
  · have h := Option.some.inj h
    subst h
    exact ⟨_, rfl, hr, h4, h5, by simp only []; omega⟩
  · split at h
    · simp at h
    · have h := Option.some.inj h
      subst h
      exact ⟨_, rfl, hr, h4, h5, by simp only []; omega⟩
  · have h := Option.some.inj h
    subst h
    exact ⟨_, rfl, hr, h4, h5, by simp only []; omega⟩
  · have h := Option.some.inj h
    subst h
    exact Or.inl rfl

theorem decLong_sim (fd fm : Nat) (inp : List Nat) (past : Nat → Nat) (cap nFlags : Nat)
    (s : DState) (m : MState) (o : Outcome) (hs : Sim s m) (hf : remBits inp s.rd < fm)
    (h : decLong fd inp past cap nFlags s = some o) :
    Follows o (maxLong fm inp past nFlags m) := by
  obtain ⟨hr, h4, h5, h6⟩ := hs
  unfold decLong at h
  unfold maxLong
  split at h
  · simp at h
  · rename_i hi r1 hg
    obtain ⟨⟨hi2, q1⟩, hy, ey, sy⟩ := read_gamma2_sim fd fm inp s.rd m.rd (gammaIdx nFlags)
      (hi, r1) hr hg hf
    rw [hy]
    simp only [] at ey sy h ⊢
    subst ey
    rw [h4, h5]
    obtain ⟨l1, l2, l3, l4⟩ := longHead_same inp past s.nFollowsLiteral s.nMatchOffset hi r1 q1 sy
    have hle := longHead_rem_le inp past s.nFollowsLiteral s.nMatchOffset hi r1
    obtain ⟨z, hz, hz1, -⟩ := read_gamma2_some fm inp s.rd (gammaIdx nFlags) hf
    have hr1 : remBits inp r1 ≤ remBits inp s.rd := by
      have e := read_gamma2_fuel fd fm inp s.rd (gammaIdx nFlags) (hi, r1) z hg hz
      rw [← e] at hz1
      exact hz1
    generalize longHead inp past s.nFollowsLiteral s.nMatchOffset hi r1 = hd at h l1 l2 l3 l4 hle
    generalize longHead inp past s.nFollowsLiteral s.nMatchOffset hi q1 = hm at l1 l2 l3 l4 ⊢
    split_ifs at h with hp
    · split at h
      · simp at h
      · rename_i g r3 hg2
        obtain ⟨⟨g2, q3⟩, hy2, ey2, sy2⟩ := read_gamma2_sim fd fm inp hd.rd hm.rd
          (gammaIdx nFlags) (g, r3) l4 hg2 (by omega)
        rw [hy2]
        simp only [] at ey2 sy2 ⊢
        subst ey2
        have hsim : Sim
            { rd := r3, pCurOutData := s.pCurOutData, out := s.out,
              nMatchOffset := hd.nMatchOffset, nFollowsLiteral := false, writes := s.writes }
            { rd := q3, nMatchOffset := hm.nMatchOffset, nFollowsLiteral := false,
              nDecompressedSize := m.nDecompressedSize } :=
          ⟨sy2, l2.symm, rfl, h6⟩
        have := copyLong_sim fd cap _ _ _ _ o hsim h
        rw [longLen_same hd hm g l1 l2 l3] at this
        exact this
    · have h := Option.some.inj h
      subst h
      exact Or.inl rfl

/-- One pass of the decoder is followed by one pass of the size query. -/
theorem decStep_sim (fd fm : Nat) (inp : List Nat) (past : Nat → Nat) (cap nFlags : Nat)
    (s : DState) (m : MState) (o : Outcome) (hs : Sim s m) (hf : remBits inp s.rd < fm)
    (h : decStep fd inp past cap nFlags s = some o) :
    Follows o (maxStep fm inp past nFlags m) := by
  rw [decStep_eq] at h
  rw [maxStep_eq]
  obtain ⟨hr, h4, h5, h6⟩ := hs
  obtain ⟨ek, sk⟩ := tokenKind_same inp s.rd m.rd hr
  obtain ⟨k1, -, -, -⟩ := tokenKind_le inp s.rd
  rw [← ek]
  have hsim : Sim { s with rd := (tokenKind inp s.rd).2 } { m with rd := (tokenKind inp m.rd).2 } :=
    ⟨sk, h4, h5, h6⟩
  split_ifs at h ⊢ with c0 c1 c2
  · have h := Option.some.inj h
    subst h
    exact decLiteral_sim inp past cap _ _ hsim
  · exact decLong_sim fd fm inp past cap nFlags _ _ o hsim (by simp only []; omega) h
  · have h := Option.some.inj h
    subst h
    exact decShort_sim inp past cap _ _ hsim
  · have h := Option.some.inj h
    subst h
    exact decNibble_sim inp cap nFlags _ _ hsim

theorem decStep_next_rem (fuel : Nat) (inp : List Nat) (past : Nat → Nat) (cap nFlags : Nat)
    (s s1 : DState) (hb : remBits inp s.rd < fuel) (hc : cap < fuel)
    (h : decStep fuel inp past cap nFlags s = some (.next s1)) :
    remBits inp s1.rd ≤ remBits inp s.rd := by
  obtain ⟨o, ho, hp⟩ := decStep_progress fuel inp past cap nFlags s hb hc
  rw [h] at ho
  have ho := Option.some.inj ho
  subst ho
  exact hp.2

theorem decLoop_sim (fd fm : Nat) (inp : List Nat) (past : Nat → Nat) (cap nFlags : Nat)
    (hc : cap < fd) :
    ∀ (fuel : Nat) (s : DState) (m : MState) (v : Nat) (sf : DState), Sim s m →
      remBits inp s.rd < fm → remBits inp s.rd < fd →
      decLoop fd inp past cap nFlags fuel s = some (v, sf) → v ≠ SIZE_ERR →
      ∃ mf, maxLoop fm inp past nFlags fuel m = some (v, mf) := by
  intro fuel
  induction fuel with
  | zero => intro s m v sf _ _ _ h; simp [decLoop] at h
  | succ n ih =>
    intro s m v sf hs hm hd h hv
    unfold decLoop at h
    unfold maxLoop
    split at h
    · simp at h
    · rename_i v2 s2 hst
      have h := Option.some.inj h
      have hfol := decStep_sim fd fm inp past cap nFlags s m _ hs hm hst
      simp only [Follows] at hfol
      have e1 : v2 = v := congrArg Prod.fst h
      subst e1
      rcases hfol with hbad | ⟨m1, hm1⟩
      · exact absurd hbad hv
      · rw [hm1]
        exact ⟨m1, rfl⟩
    · rename_i s2 hst
      have hfol := decStep_sim fd fm inp past cap nFlags s m _ hs hm hst
      simp only [Follows] at hfol
      obtain ⟨m1, hm1, hsim⟩ := hfol
      rw [hm1]
      have hle := decStep_next_rem fd inp past cap nFlags s s2 hd hc hst
      exact ih s2 m1 v sf hsim (by omega) (by omega) h hv

theorem maxLoop_mono (inner : Nat) (inp : List Nat) (past : Nat → Nat) (nFlags : Nat) :
    ∀ (fuel k : Nat) (m : MState) (x : Nat × MState),
      maxLoop inner inp past nFlags fuel m = some x →
      maxLoop inner inp past nFlags (fuel + k) m = some x := by
  intro fuel
  induction fuel with
  | zero => intro k m x h; simp [maxLoop] at h
  | succ n ih =>
    intro k m x h
    rw [show n + 1 + k = (n + k) + 1 by omega]
    unfold maxLoop at h ⊢
    split at h
    · simp at h
    · exact h
    · exact ih k _ x h

theorem nibbleIdx_cases (nFlags : Nat) : nibbleIdx nFlags = 0 ∨ nibbleIdx nFlags = 2 := by
  unfold nibbleIdx
  split_ifs
  · exact Or.inr rfl
  · exact Or.inl rfl

theorem gammaIdx_cases (nFlags : Nat) : gammaIdx nFlags = 0 ∨ gammaIdx nFlags = 1 := by
  unfold gammaIdx
  split_ifs
  · exact Or.inr rfl
  · exact Or.inl rfl

/-- With an empty input and capacity 0 the guard before the first copy lets the
call through, and the first pass of the loop returns the error value. -/
theorem decLoop_empty (past out : Nat → Nat) (nFlags inner fuel : Nat) :
    (decLoop inner [] past 0 nFlags (fuel + 1) (decFirst [] past out)).map Prod.fst =
      some SIZE_ERR := by
  unfold decLoop
  rw [decStep_eq]
  have hk : tokenKind [] (decFirst [] past out).rd = (3, (decFirst [] past out).rd) := by rfl
  rw [hk]
  rcases nibbleIdx_cases nFlags with h | h <;>
    simp [decNibble, h, readNibble, apultra_read_bit, decFirst, decInit, rawByte, Regs.get,
      toU32_neg_one]

/-- C3. Size-oracle agreement: when `apultra_decompress` returns a value other
than the error value, `apultra_get_max_decompressed_size` on the same input,
the same memory after it and the same flags returns that value: it has returned
it after `decFuel inp cap` passes of its loop, and so with any larger fuel. -/
theorem size_oracle_agrees (inp : List Nat) (past out : Nat → Nat) (cap nFlags v : Nat)
    (h0 : (apultra_decompress inp past out cap nFlags).map Prod.fst = some v)
    (hv : v ≠ SIZE_ERR) :
    ∀ f, decFuel inp cap ≤ f → apultra_get_max_decompressed_size f inp past nFlags = some v := by
  intro f hf
  obtain ⟨⟨v2, sf⟩, h, hv2⟩ := Option.map_eq_some'.mp h0
  simp only [] at hv2
  subst hv2
  unfold apultra_decompress at h
  split_ifs at h with h0
  · have h := Option.some.inj h
    exact absurd (congrArg Prod.fst h).symm hv
  · by_cases hn : inp.length = 0
    · have hi : inp = [] := List.length_eq_zero.mp hn
      subst hi
      have hcap : cap = 0 := by
        simp only [List.length_nil] at h0
        omega
      subst hcap
      have h2 := decLoop_empty past out nFlags (decFuel [] 0) 1
      have h3 : decFuel [] 0 = 1 + 1 := rfl
      rw [h3] at h
      rw [h3, h] at h2
      have h2 := Option.some.inj h2
      exact absurd h2 hv
    · obtain ⟨hb, -⟩ := decFirst_measure inp past out cap
      obtain ⟨hb0, -⟩ := decFirst_measure inp past out 0
      have hsim : Sim (decFirst inp past out) maxFirst :=
        ⟨⟨rfl, rfl, rfl⟩, rfl, rfl, rfl⟩
      obtain ⟨mf, hmf⟩ := decLoop_sim (decFuel inp cap) (decFuel inp 0) inp past cap nFlags
        (by unfold decFuel; omega) (decFuel inp cap) (decFirst inp past out) maxFirst v2 sf
        hsim hb0 hb h hv
      have := maxLoop_mono (decFuel inp 0) inp past nFlags (decFuel inp cap) (f - decFuel inp cap)
        maxFirst (v2, mf) hmf
      rw [show decFuel inp cap + (f - decFuel inp cap) = f by omega] at this
      unfold apultra_get_max_decompressed_size
      rw [if_neg (by omega), this]
      rfl

/-! ## Offsets that reach before the start of the output -/

theorem decLoop_of_ret (inner : Nat) (inp : List Nat) (past : Nat → Nat) (cap nFlags f v : Nat)
    (s s1 : DState) (h : decStep inner inp past cap nFlags s = some (.ret v s1)) :
    (decLoop inner inp past cap nFlags (f + 1) s).map Prod.fst = some v := by
  unfold decLoop
  rw [h]
  rfl

theorem toU32_toI32 (n : Nat) : toU32 (toI32 n) = n % 4294967296 := by
  unfold toU32 toI32
  split_ifs <;> omega

theorem toI32_small (n : Nat) (h : n < 2147483648) : toI32 n = (n : Int) := by
  unfold toI32
  split_ifs <;> omega

theorem mul256_or (a lo : Nat) (h : lo < 256) : (a * 256) ||| lo = a * 256 + lo := by
  have := Nat.mul_add_lt_is_or (i := 8) h a
  rw [show (2 : Nat) ^ 8 = 256 by norm_num, Nat.mul_comm] at this
  exact this.symm

theorem shl8_or (a lo : Nat) (h : lo < 256) : (a <<< 8) ||| lo = a * 256 + lo := by
  rw [Nat.shiftLeft_eq, show (2 : Nat) ^ 8 = 256 by norm_num]
  exact mul256_or a lo h

/-- Without wrap-around the source computes the offset `((hi - bias) << 8) | lo`. -/
theorem longOffset_small (hi bias lo : Nat) (hb : bias ≤ hi) (hl : lo < 256)
    (h : ((hi - bias) <<< 8) ||| lo < 2147483648) :
    longOffset hi bias lo = (((hi - bias) <<< 8) ||| lo : Nat) := by
  rw [shl8_or _ _ hl] at h ⊢
  unfold longOffset
  have e1 : (hi + 4294967296 - bias) % 4294967296 = hi - bias := by omega
  rw [e1, toU32_toI32, Nat.mod_mod, Nat.shiftLeft_eq, show (2 : Nat) ^ 8 = 256 by norm_num]
  have e2 : (hi - bias) * 256 % 4294967296 = (hi - bias) * 256 := by omega
  rw [e2, mul256_or _ _ hl]
  exact toI32_small _ h

theorem inByte_lt (inp : List Nat) (past : Nat → Nat) (i : Nat) : inByte inp past i < 256 := by
  unfold inByte
  split_ifs <;> omega

theorem decShort_before_start (inp : List Nat) (past : Nat → Nat) (cap : Nat) (s : DState)
    (h0 : inByte inp past s.rd.pInputData ≠ 0)
    (h1 : s.pCurOutData < inByte inp past s.rd.pInputData >>> 1) :
    ∃ s1, decShort inp past cap s = .ret SIZE_ERR s1 := by
  unfold decShort
  simp only [rawByte]
  rw [if_neg h0, if_neg (by omega)]
  exact ⟨_, rfl⟩

theorem decNibble_before_start (inp : List Nat) (cap nFlags : Nat) (s : DState)
    (h0 : (readNibble inp s.rd (nibbleIdx nFlags)).1 ≠ 0)
    (h1 : s.pCurOutData < (readNibble inp s.rd (nibbleIdx nFlags)).1) :
    ∃ s1, decNibble inp cap nFlags s = .ret SIZE_ERR s1 := by
  unfold decNibble
  simp only []
  rw [if_pos h0, if_neg (by omega)]
  exact ⟨_, rfl⟩

theorem decLong_before_start (fuel : Nat) (inp : List Nat) (past : Nat → Nat) (cap nFlags : Nat)
    (s : DState) (hi : Nat) (r : BitReader)
    (hg : apultra_read_gamma2 fuel inp s.rd (gammaIdx nFlags) = some (hi, r))
    (h1 : (s.pCurOutData : Int) <
      (longHead inp past s.nFollowsLiteral s.nMatchOffset hi r).nMatchOffset) :
    ∃ s1, decLong fuel inp past cap nFlags s = some (.ret SIZE_ERR s1) := by
  unfold decLong
  rw [hg]
  simp only []
  rw [if_neg (by omega)]
  exact ⟨_, rfl⟩

/-- C9 (amended). From any state of the decoder with output length `pos`, a token
whose offset is greater than `pos` makes the call return the error value, for a
ShortMatch (offset `cmd >> 1`), a NibbleMatch with a non-zero nibble, a RepMatch
(offset `nMatchOffset`) and a LongMatch whose offset `((hi - bias) << 8) | lo` is
below `2^31`, so that the 32-bit `int` of the source holds it. -/
theorem offset_before_start_rejected (fuel : Nat) (inp : List Nat) (past : Nat → Nat)
    (cap nFlags : Nat) (s : DState) :
    ((tokenKind inp s.rd).1 = 2 →
      inByte inp past (tokenKind inp s.rd).2.pInputData ≠ 0 →
      s.pCurOutData < inByte inp past (tokenKind inp s.rd).2.pInputData >>> 1 →
      ∀ f, (decLoop fuel inp past cap nFlags (f + 1) s).map Prod.fst = some SIZE_ERR) ∧
    ((tokenKind inp s.rd).1 = 3 →
      (readNibble inp (tokenKind inp s.rd).2 (nibbleIdx nFlags)).1 ≠ 0 →
      s.pCurOutData < (readNibble inp (tokenKind inp s.rd).2 (nibbleIdx nFlags)).1 →
      ∀ f, (decLoop fuel inp past cap nFlags (f + 1) s).map Prod.fst = some SIZE_ERR) ∧
    (∀ r, (tokenKind inp s.rd).1 = 1 →
      apultra_read_gamma2 fuel inp (tokenKind inp s.rd).2 (gammaIdx nFlags) = some (2, r) →
      s.nFollowsLiteral = true →
      (s.pCurOutData : Int) < s.nMatchOffset →
      ∀ f, (decLoop fuel inp past cap nFlags (f + 1) s).map Prod.fst = some SIZE_ERR) ∧
    (∀ hi r, (tokenKind inp s.rd).1 = 1 →
      apultra_read_gamma2 fuel inp (tokenKind inp s.rd).2 (gammaIdx nFlags) = some (hi, r) →
      (s.nFollowsLiteral = false ∨ hi ≠ 2) →
      (if s.nFollowsLiteral then 3 else 2) ≤ hi →
      ((hi - (if s.nFollowsLiteral then 3 else 2)) <<< 8) ||| inByte inp past r.pInputData
        < 2147483648 →
      s.pCurOutData <
        ((hi - (if s.nFollowsLiteral then 3 else 2)) <<< 8) ||| inByte inp past r.pInputData →
      ∀ f, (decLoop fuel inp past cap nFlags (f + 1) s).map Prod.fst = some SIZE_ERR) := by
  refine ⟨?_, ?_, ?_, ?_⟩
  · intro hk h0 h1 f
    obtain ⟨s1, hs1⟩ := decShort_before_start inp past cap
      { s with rd := (tokenKind inp s.rd).2 } h0 h1
    refine decLoop_of_ret fuel inp past cap nFlags f SIZE_ERR s s1 ?_
    rw [decStep_eq, hk, ← hs1]
    simp
  · intro hk h0 h1 f
    obtain ⟨s1, hs1⟩ := decNibble_before_start inp cap nFlags
      { s with rd := (tokenKind inp s.rd).2 } h0 h1
    refine decLoop_of_ret fuel inp past cap nFlags f SIZE_ERR s s1 ?_
    rw [decStep_eq, hk, ← hs1]
    simp
  · intro r hk hg hf h1 f
    obtain ⟨s1, hs1⟩ := decLong_before_start fuel inp past cap nFlags
      { s with rd := (tokenKind inp s.rd).2 } 2 r hg (by
        simp only [longHead, hf]
        simpa using h1)
    refine decLoop_of_ret fuel inp past cap nFlags f SIZE_ERR s s1 ?_
    rw [decStep_eq, hk, ← hs1]
    simp
  · intro hi r hk hg hl hb hs h1 f
    obtain ⟨s1, hs1⟩ := decLong_before_start fuel inp past cap nFlags
      { s with rd := (tokenKind inp s.rd).2 } hi r hg (by
        have e := longOffset_small hi (if s.nFollowsLiteral then 3 else 2)
          (inByte inp past r.pInputData) hb (inByte_lt _ _ _) hs
        have hl2 : (s.nFollowsLiteral = false ∨ hi ≠ 2) := hl
        simp only [longHead, rawByte]
        rw [if_pos hl2]
        simp only []
        rw [e]
        exact_mod_cast h1)
    refine decLoop_of_ret fuel inp past cap nFlags f SIZE_ERR s s1 ?_
    rw [decStep_eq, hk, ← hs1]
    simp

theorem store_self (m : Nat → Nat) (i : Nat) : store m i (m i) = m := by
  funext j
  unfold store
  split_ifs with h
  · rw [h]
  · rfl

theorem copyBytes_self : ∀ (n : Nat) (m : Nat → Nat) (p : Nat), copyBytes n m p p = m := by
  intro n
  induction n with
  | zero => intro m p; rfl
  | succ k ih =>
    intro m p
    unfold copyBytes
    rw [store_self]
    exact ih m (p + 1)

theorem decShort_zero_offset (inp : List Nat) (past : Nat → Nat) (cap : Nat) (s : DState)
    (h0 : inByte inp past s.rd.pInputData = 1) :
    (s.pCurOutData + 3 ≤ cap →
      ∃ s1, decShort inp past cap s = .next s1 ∧ s1.pCurOutData = s.pCurOutData + 3 ∧
        s1.out = s.out ∧ s1.nMatchOffset = 0 ∧ s1.nFollowsLiteral = false) ∧
    (cap < s.pCurOutData + 3 → ∃ s1, decShort inp past cap s = .ret SIZE_ERR s1) := by
  unfold decShort
  simp only [rawByte, h0]
  norm_num
  constructor
  · intro h
    rw [if_pos (by omega), if_neg (by omega), if_pos (by omega)]
    exact ⟨_, rfl, rfl, copyBytes_self _ _ _, rfl, rfl⟩
  · intro h
    rw [if_neg (by omega)]
    exact ⟨_, rfl⟩

theorem decLong_zero_offset (fuel : Nat) (inp : List Nat) (past : Nat → Nat) (cap nFlags : Nat)
    (s : DState) (hi g : Nat) (r r2 : BitReader)
    (hg : apultra_read_gamma2 fuel inp s.rd (gammaIdx nFlags) = some (hi, r))
    (hl : s.nFollowsLiteral = false ∨ hi ≠ 2)
    (ho : longOffset hi (if s.nFollowsLiteral then 3 else 2) (inByte inp past r.pInputData) = 0)
    (hg2 : apultra_read_gamma2 fuel inp (rawByte inp past r).2 (gammaIdx nFlags) = some (g, r2)) :
    (s.pCurOutData + (g + 2) % 4294967296 ≤ cap →
      ∃ s1, decLong fuel inp past cap nFlags s = some (.next s1) ∧
        s1.pCurOutData = s.pCurOutData + (g + 2) % 4294967296 ∧
        s1.out = s.out ∧ s1.nMatchOffset = 0 ∧ s1.nFollowsLiteral = false) ∧
    (cap < s.pCurOutData + (g + 2) % 4294967296 →
      ∃ s1, decLong fuel inp past cap nFlags s = some (.ret SIZE_ERR s1)) := by
  have hh : longHead inp past s.nFollowsLiteral s.nMatchOffset hi r =
      { nIsRepMatch := false, nMatchOffset := 0, nMatchLenBias := 2, rd := (rawByte inp past r).2 } := by
    unfold longHead
    rw [if_pos hl]
    simp only [rawByte] at ho ⊢
    simp [ho]
  unfold decLong
  rw [hg]
  simp only []
  rw [hh]
  simp only []
  rw [hg2]
  have hlen : longLen (⟨false, 0, 2, (rawByte inp past r).2⟩ : LongHead) g =
      (g + 2) % 4294967296 := by
    simp [longLen, MINMATCH3_OFFSET, MINMATCH4_OFFSET]
  simp only [hlen]
  unfold copyLong
  simp only [sub_zero, Int.toNat_ofNat]
  constructor
  · intro h
    rw [if_pos (by omega), if_neg (by omega), if_pos (by omega), if_neg (by omega)]
    exact ⟨_, rfl, rfl, copyBytes_self _ _ _, rfl, rfl⟩
  · intro h
    rw [if_pos (by omega), if_neg (by omega), if_neg (by omega)]
    exact ⟨_, rfl⟩

theorem decStep_kind1 (fuel : Nat) (inp : List Nat) (past : Nat → Nat) (cap nFlags : Nat)
    (s : DState) (hk : (tokenKind inp s.rd).1 = 1) :
    decStep fuel inp past cap nFlags s =
      decLong fuel inp past cap nFlags { s with rd := (tokenKind inp s.rd).2 } := by
  rw [decStep_eq, hk]
  simp

theorem decStep_kind2 (fuel : Nat) (inp : List Nat) (past : Nat → Nat) (cap nFlags : Nat)
    (s : DState) (hk : (tokenKind inp s.rd).1 = 2) :
    decStep fuel inp past cap nFlags s =
      some (decShort inp past cap { s with rd := (tokenKind inp s.rd).2 }) := by
  rw [decStep_eq, hk]
  simp

/-- C10 (amended). A match with offset zero is not rejected for its offset. A
ShortMatch with command byte `0x01`, and a LongMatch whose offset is computed as
0, are applied as a copy of `len` bytes from the current output position onto
itself: the output memory is unchanged, the output length grows by `len` (3 for
the ShortMatch, the gamma2 value plus 2 for the LongMatch), `nMatchOffset`
becomes 0, and the error value is returned only when `pos + len` exceeds the
capacity. -/
theorem zero_offset_match_applied (fuel : Nat) (inp : List Nat) (past : Nat → Nat)
    (cap nFlags : Nat) (s : DState) :
    ((tokenKind inp s.rd).1 = 2 →
      inByte inp past (tokenKind inp s.rd).2.pInputData = 1 →
      (s.pCurOutData + 3 ≤ cap →
        ∃ s1, decStep fuel inp past cap nFlags s = some (.next s1) ∧
          s1.pCurOutData = s.pCurOutData + 3 ∧ s1.out = s.out ∧ s1.nMatchOffset = 0 ∧
          s1.nFollowsLiteral = false) ∧
      (cap < s.pCurOutData + 3 →
        ∀ f, (decLoop fuel inp past cap nFlags (f + 1) s).map Prod.fst = some SIZE_ERR)) ∧
    (∀ hi g r r2, (tokenKind inp s.rd).1 = 1 →
      apultra_read_gamma2 fuel inp (tokenKind inp s.rd).2 (gammaIdx nFlags) = some (hi, r) →
      (s.nFollowsLiteral = false ∨ hi ≠ 2) →
      longOffset hi (if s.nFollowsLiteral then 3 else 2) (inByte inp past r.pInputData) = 0 →
      apultra_read_gamma2 fuel inp (rawByte inp past r).2 (gammaIdx nFlags) = some (g, r2) →
      (s.pCurOutData + (g + 2) % 4294967296 ≤ cap →
        ∃ s1, decStep fuel inp past cap nFlags s = some (.next s1) ∧
          s1.pCurOutData = s.pCurOutData + (g + 2) % 4294967296 ∧ s1.out = s.out ∧
          s1.nMatchOffset = 0 ∧ s1.nFollowsLiteral = false) ∧
      (cap < s.pCurOutData + (g + 2) % 4294967296 →
        ∀ f, (decLoop fuel inp past cap nFlags (f + 1) s).map Prod.fst = some SIZE_ERR)) := by
  constructor
  · intro hk h0
    obtain ⟨a, b⟩ := decShort_zero_offset inp past cap { s with rd := (tokenKind inp s.rd).2 } h0
    rw [decStep_kind2 fuel inp past cap nFlags s hk]
    constructor
    · intro h
      obtain ⟨s1, e, rest⟩ := a h
      exact ⟨s1, by rw [e], rest⟩
    · intro h f
      obtain ⟨s1, e⟩ := b h
      exact decLoop_of_ret fuel inp past cap nFlags f SIZE_ERR s s1
        (by rw [decStep_kind2 fuel inp past cap nFlags s hk, e])
  · intro hi g r r2 hk hg hl ho hg2
    obtain ⟨a, b⟩ := decLong_zero_offset fuel inp past cap nFlags
      { s with rd := (tokenKind inp s.rd).2 } hi g r r2 hg hl ho hg2
    rw [decStep_kind1 fuel inp past cap nFlags s hk]
    constructor
    · intro h
      exact a h
    · intro h f
      obtain ⟨s1, e⟩ := b h
      exact decLoop_of_ret fuel inp past cap nFlags f SIZE_ERR s s1
        (by rw [decStep_kind1 fuel inp past cap nFlags s hk, e])

/-! ## The code at particular inputs -/

/-- C1. With the one-byte input `[0x41]` and capacity 0 the guard before the
first copy does not fire (it asks for an exhausted input and room in the
output), so `*pCurOutData++ = *pInputData++` writes the output byte at index 0,
which is not below the capacity. -/
theorem first_byte_written_at_capacity_zero :
    (apultra_decompress [0x41] zeros zeros 0 0).map (fun r => r.2.writes) = some [0] := by
  decide

/-- C6. The input `[0x41, 0xC0]` ends after the prefix bits `110`: the command
byte is demanded at index 2, past the end. The source reads it without a test
against `pInputDataEnd`; when the byte that follows the buffer in memory is 0 the
call returns 1, not the error value. -/
theorem truncated_input_returns_length :
    (apultra_decompress [0x41, 0xC0] zeros zeros 1 0).map (fun r => (r.1, r.2.rd.reads)) =
      some (1, [0, 1, 2]) := by
  decide

/-- C7. On the two-byte input `[0x41, 0xC0]` the decoder reads the input at
index 2 (the command byte of the `110` token), which is not below the input
length 2; this holds whatever the memory after the buffer contains (here a byte
`0x04`, with which the call then returns the error value). -/
theorem command_byte_read_past_end :
    (apultra_decompress [0x41, 0xC0] (fun _ => 0x04) zeros 1 0).map
      (fun r => (r.1, r.2.rd.reads)) = some (SIZE_ERR, [0, 1, 2]) := by
  decide

/-- C8. With an empty input and capacity 0 the call returns the error value,
but only after it has read the input at index 0 and written the output at
index 0: the guard `pInputData >= pInputDataEnd && pCurOutData < pOutDataEnd`
is false when the capacity is 0. -/
theorem empty_input_capacity_zero :
    (apultra_decompress [] zeros zeros 0 0).map (fun r => (r.1, r.2.rd.reads, r.2.writes)) =
      some (SIZE_ERR, [0], [0]) := by
  decide

/-- C9, counterexample. The first token of `signInput` is a LongMatch after a
literal (bias 3) with `hi = 2^23 + 3` and `lo = 0`: its offset
`((hi - bias) << 8) | lo` is `2^31`, above the output length 1. The source keeps
the offset in an `int`, where it is negative, so the test `pSrc >= pOutData`
passes; with capacity `2^31 + 5` the call returns 5 and the four bytes of the
match come from index `2^31 + 1` of the output buffer. The first token of
`wrapInput` has `hi = 2^24 + 3` and `lo = 1`: the offset is `2^32 + 1`, the
source computes 1 in 32 bits, and with capacity 5 the call returns 5. -/
theorem long_offset_wraps :
    ((tokenKind signInput (decFirst signInput zeros zeros).rd).1 = 1 ∧
      (apultra_read_gamma2 30 signInput
        (tokenKind signInput (decFirst signInput zeros zeros).rd).2 0).map
        (fun x => (x.1, x.2.pInputData)) = some (8388611, 7) ∧
      inByte signInput zeros 7 = 0 ∧
      (decFirst signInput zeros zeros).pCurOutData < ((8388611 - 3) <<< 8) ||| 0 ∧
      (apultra_decompress signInput zeros (fun i => if i < 2147483648 then 0 else 7)
        2147483653 0).map (fun r => (r.1, take r.2.out 5)) = some (5, [65, 7, 7, 7, 7])) ∧
    ((tokenKind wrapInput (decFirst wrapInput zeros zeros).rd).1 = 1 ∧
      (apultra_read_gamma2 30 wrapInput
        (tokenKind wrapInput (decFirst wrapInput zeros zeros).rd).2 0).map
        (fun x => (x.1, x.2.pInputData)) = some (16777219, 8) ∧
      inByte wrapInput zeros 8 = 1 ∧
      (decFirst wrapInput zeros zeros).pCurOutData < ((16777219 - 3) <<< 8) ||| 1 ∧
      (apultra_decompress wrapInput zeros zeros 5 0).map (fun r => (r.1, take r.2.out 5)) =
        some (5, [65, 65, 65, 65, 65])) := by
  decide

/-- C9, witness: the input `[0x41, 0xC0, 0x04]` asks for offset 2 at output
length 1. -/
theorem offset_before_start_rejected_witness :
    (tokenKind [0x41, 0xC0, 0x04] (decFirst [0x41, 0xC0, 0x04] zeros zeros).rd).1 = 2 ∧
    inByte [0x41, 0xC0, 0x04] zeros
      (tokenKind [0x41, 0xC0, 0x04] (decFirst [0x41, 0xC0, 0x04] zeros zeros).rd).2.pInputData ≠ 0 ∧
    (decFirst [0x41, 0xC0, 0x04] zeros zeros).pCurOutData <
      inByte [0x41, 0xC0, 0x04] zeros
        (tokenKind [0x41, 0xC0, 0x04] (decFirst [0x41, 0xC0, 0x04] zeros zeros).rd).2.pInputData >>> 1 ∧
    (decLoop 30 [0x41, 0xC0, 0x04] zeros 4 0 (29 + 1)
      (decFirst [0x41, 0xC0, 0x04] zeros zeros)).map Prod.fst = some SIZE_ERR :=
  ⟨by decide, by decide, by decide,
    (offset_before_start_rejected 30 [0x41, 0xC0, 0x04] zeros 4 0
      (decFirst [0x41, 0xC0, 0x04] zeros zeros)).1 (by decide) (by decide) (by decide) 29⟩

/-- C10, counterexample. In `[0x41, 0xD8, 0x01, 0x00]` the first token is a
ShortMatch with command byte `0x01`, that is offset 0 and length 3. With capacity
4 the call returns 4, not the error value, and the three bytes of the match are
whatever the output buffer held before the call (here 9). -/
theorem zero_offset_not_rejected :
    (tokenKind [0x41, 0xD8, 0x01, 0x00] (decFirst [0x41, 0xD8, 0x01, 0x00] zeros zeros).rd).1 = 2 ∧
    inByte [0x41, 0xD8, 0x01, 0x00] zeros
      (tokenKind [0x41, 0xD8, 0x01, 0x00]
        (decFirst [0x41, 0xD8, 0x01, 0x00] zeros zeros).rd).2.pInputData = 1 ∧
    (apultra_decompress [0x41, 0xD8, 0x01, 0x00] zeros (fun _ => 9) 4 0).map
      (fun r => (r.1, take r.2.out 4)) = some (4, [65, 9, 9, 9]) := by
  decide

/-- C10, witness: the ShortMatch of `[0x41, 0xD8, 0x01, 0x00]` with capacity 4. -/
theorem zero_offset_match_applied_witness :
    (tokenKind [0x41, 0xD8, 0x01, 0x00] (decFirst [0x41, 0xD8, 0x01, 0x00] zeros zeros).rd).1 = 2 ∧
    inByte [0x41, 0xD8, 0x01, 0x00] zeros
      (tokenKind [0x41, 0xD8, 0x01, 0x00]
        (decFirst [0x41, 0xD8, 0x01, 0x00] zeros zeros).rd).2.pInputData = 1 ∧
    (decFirst [0x41, 0xD8, 0x01, 0x00] zeros zeros).pCurOutData + 3 ≤ 4 ∧
    ∃ s1, decStep 38 [0x41, 0xD8, 0x01, 0x00] zeros 4 0
        (decFirst [0x41, 0xD8, 0x01, 0x00] zeros zeros) = some (.next s1) ∧
      s1.pCurOutData = (decFirst [0x41, 0xD8, 0x01, 0x00] zeros zeros).pCurOutData + 3 ∧
      s1.out = (decFirst [0x41, 0xD8, 0x01, 0x00] zeros zeros).out ∧ s1.nMatchOffset = 0 ∧
      s1.nFollowsLiteral = false :=
  ⟨by decide, by decide, by decide,
    ((zero_offset_match_applied 38 [0x41, 0xD8, 0x01, 0x00] zeros 4 0
      (decFirst [0x41, 0xD8, 0x01, 0x00] zeros zeros)).1 (by decide) (by decide)).1 (by decide)⟩

/-- C3, witness: `[0x41, 0xAB, 0x01, 0x00, 0x00]` decodes to six bytes, and the
size query returns 6. -/
theorem size_oracle_agrees_witness :
    (apultra_decompress [0x41, 0xAB, 0x01, 0x00, 0x00] zeros zeros 6 0).map Prod.fst = some 6 ∧
    6 ≠ SIZE_ERR ∧
    apultra_get_max_decompressed_size 48 [0x41, 0xAB, 0x01, 0x00, 0x00] zeros 0 = some 6 :=
  ⟨by decide, by decide,
    size_oracle_agrees [0x41, 0xAB, 0x01, 0x00, 0x00] zeros zeros 6 0 6 (by decide) (by decide)
      48 (by decide)⟩

/-! ## The size query on an input without an end-of-data token -/

theorem readNibble_exhausted (nFlags : Nat) :
    readNibble [0x41] ⟨1, ⟨0, 0, 0⟩, ⟨0, 0, 0⟩, []⟩ (nibbleIdx nFlags) =
      (4294967295, ⟨1, ⟨0, 0, 0⟩, ⟨0, 0, 0⟩, []⟩) := by
  rcases nibbleIdx_cases nFlags with h | h <;> rw [h] <;> decide

/-- Once the only byte of `[0x41]` is consumed, every pass of the loop of the
size query takes the `'111'` branch, because the failed reads are stored in an
`unsigned int` and never compare below zero; the pass changes only the size
counter, so the loop never leaves this state. -/
theorem maxLoop_stuck (inner : Nat) (past : Nat → Nat) (nFlags : Nat) :
    ∀ (fuel : Nat) (off : Int) (fl : Bool) (sz : Nat),
      maxLoop inner [0x41] past nFlags fuel ⟨⟨1, ⟨0, 0, 0⟩, ⟨0, 0, 0⟩, []⟩, off, fl, sz⟩ = none := by
  intro fuel
  induction fuel with
  | zero => intro off fl sz; rfl
  | succ n ih =>
    intro off fl sz
    unfold maxLoop
    have hk : tokenKind [0x41] ⟨1, ⟨0, 0, 0⟩, ⟨0, 0, 0⟩, []⟩ =
        (3, ⟨1, ⟨0, 0, 0⟩, ⟨0, 0, 0⟩, []⟩) := by decide
    have hs : maxStep inner [0x41] past nFlags ⟨⟨1, ⟨0, 0, 0⟩, ⟨0, 0, 0⟩, []⟩, off, fl, sz⟩ =
        some (.next ⟨⟨1, ⟨0, 0, 0⟩, ⟨0, 0, 0⟩, []⟩, off, true,
          (sz + 1) % 18446744073709551616⟩) := by
      rw [maxStep_eq]
      simp only [hk]
      simp [maxNibble, readNibble_exhausted]
    rw [hs]
    exact ih off true _

/-- C5. On the one-byte input `[0x41]` the size query does not return: whatever
number of passes its loop is allowed, whatever the flags and the memory after
the input, it has not returned by then. -/
theorem size_query_does_not_return (fuel : Nat) (past : Nat → Nat) (nFlags : Nat) :
    apultra_get_max_decompressed_size fuel [0x41] past nFlags = none := by
  unfold apultra_get_max_decompressed_size
  rw [if_neg (by decide)]
  have := maxLoop_stuck (decFuel [0x41] 0) past nFlags fuel 1 true 1
  unfold maxFirst
  rw [this]
  rfl

/-! ## Decoding the stream of the modelled compressor -/

set_option maxRecDepth 100000 in
theorem and_128 (x : Nat) (h : x < 256) : x &&& 128 ≠ 0 ↔ 128 ≤ x := by
  have key : ∀ y, y < 256 → (y &&& 128 ≠ 0 ↔ 128 ≤ y) := by decide
  exact key x h

theorem bitAt_le (bs : List Bool) (i : Nat) : bitAt bs i ≤ 1 := by
  unfold bitAt
  split_ifs <;> omega

theorem byteOfBits_lt (bs : List Bool) : byteOfBits bs < 256 := by
  unfold byteOfBits
  have h0 := bitAt_le bs 0
  have h1 := bitAt_le bs 1
  have h2 := bitAt_le bs 2
  have h3 := bitAt_le bs 3
  have h4 := bitAt_le bs 4
  have h5 := bitAt_le bs 5
  have h6 := bitAt_le bs 6
  have h7 := bitAt_le bs 7
  omega

/-- After `k` shifts the top bit of the register is bit `k` of the sequence. -/
theorem byteOfBits_top (bs : List Bool) (k : Nat) (hk : k < 8) :
    128 ≤ byteOfBits bs * 2 ^ k % 256 ↔ bitAt bs k = 1 := by
  unfold byteOfBits
  have h0 := bitAt_le bs 0
  have h1 := bitAt_le bs 1
  have h2 := bitAt_le bs 2
  have h3 := bitAt_le bs 3
  have h4 := bitAt_le bs 4
  have h5 := bitAt_le bs 5
  have h6 := bitAt_le bs 6
  have h7 := bitAt_le bs 7
  interval_cases k <;> norm_num <;> omega

theorem byteOfBits_shift (bs : List Bool) (k : Nat) :
    (byteOfBits bs * 2 ^ k % 256) <<< 1 % 256 = byteOfBits bs * 2 ^ (k + 1) % 256 := by
  rw [Nat.shiftLeft_eq, pow_one, pow_succ, ← Nat.mul_assoc]
  generalize byteOfBits bs * 2 ^ k = a
  omega

theorem drop_cons_facts (inp : List Nat) (p a : Nat) (tl : List Nat)
    (h : inp.drop p = a :: tl) :
    p < inp.length ∧ inp.getD p 0 = a ∧ inp.drop (p + 1) = tl := by
  have hlt : p < inp.length := by
    by_contra hc
    rw [List.drop_eq_nil_of_le (by omega)] at h
    exact absurd h (by simp)
  rw [List.drop_eq_getElem_cons hlt] at h
  refine ⟨hlt, ?_, (List.cons.inj h).2⟩
  rw [List.getD_eq_getElem _ _ hlt]
  exact (List.cons.inj h).1

theorem drop_cons_gen {α : Type} (l : List α) (p : Nat) (a : α) (tl : List α)
    (h : l.drop p = a :: tl) : l[p]? = some a ∧ l.drop (p + 1) = tl := by
  have hlt : p < l.length := by
    by_contra hc
    rw [List.drop_eq_nil_of_le (by omega)] at h
    exact absurd h (by simp)
  rw [List.drop_eq_getElem_cons hlt] at h
  refine ⟨?_, (List.cons.inj h).2⟩
  rw [List.getElem?_eq_getElem hlt, (List.cons.inj h).1]

theorem bitAt_of_drop (bs0 : List Bool) (k : Nat) (b : Bool) (tl : List Bool)
    (h : b :: tl = bs0.drop k) : (bitAt bs0 k = 1 ↔ b = true) ∧ tl = bs0.drop (k + 1) := by
  obtain ⟨h1, h2⟩ := drop_cons_gen bs0 k b tl h.symm
  refine ⟨?_, h2.symm⟩
  unfold bitAt
  rw [List.getD_eq_getElem?_getD, h1]
  cases b <;> simp

theorem shr_128_ne (k : Nat) (h : k < 8) : 128 >>> k ≠ 0 := by
  interval_cases k <;> decide

/-- Reading a bit that the writer packed. -/
theorem read_bit_packed (inp : List Nat) (r : BitReader) (b : Bool) (rest : List Item)
    (h : RegInv inp r (.bit b :: rest)) :
    (apultra_read_bit inp r 0).1 = (if b then 1 else 0) ∧
      RegInv inp (apultra_read_bit inp r 0).2 rest := by
  obtain ⟨bs0, k, hk1, hk8, hmask, hbits, hseq, hdrop⟩ := h
  by_cases hk : k = 8
  · subst hk
    have hm0 : r.nCurBitMask.get 0 = 0 := by
      simp only [Regs.get, if_true]
      rw [hmask]
      rfl
    have hp : packFrom (.bit b :: rest) (8 - 8) =
        byteOfBits (bitsOf (.bit b :: rest)) :: packFrom rest 7 := rfl
    rw [hp] at hdrop
    obtain ⟨hlt, hget, htl⟩ := drop_cons_facts inp r.pInputData _ _ hdrop
    have hB := byteOfBits_lt (bitsOf (.bit b :: rest))
    have htop := byteOfBits_top (bitsOf (.bit b :: rest)) 0 (by omega)
    have hb0 : (bitAt (bitsOf (.bit b :: rest)) 0 = 1 ↔ b = true) := by
      unfold bitAt bitsOf
      cases b <;> simp
    unfold apultra_read_bit
    rw [if_pos hm0, if_neg (by omega)]
    unfold shiftBit
    simp only [Regs.get_set, hget, Nat.mod_eq_of_lt hB, Regs.set_set]
    refine ⟨?_, ?_⟩
    · have := and_128 _ hB
      simp only [pow_zero, Nat.mul_one, Nat.mod_eq_of_lt hB] at htop
      cases b
      · have : ¬ 128 ≤ byteOfBits (bitsOf (.bit false :: rest)) := by
          rw [htop, hb0]; simp
        simp [and_128 _ hB, this]
      · have : 128 ≤ byteOfBits (bitsOf (.bit true :: rest)) := by
          rw [htop, hb0]
        simp [and_128 _ hB, this]
    · refine ⟨bitsOf (.bit b :: rest), 1, by omega, by omega, ?_, ?_, ?_, ?_⟩
      · simp [Regs.set]
      · intro _
        simp only [Regs.set, if_true]
        rw [Nat.shiftLeft_eq]
      · rfl
      · exact htl
  · have hk7 : k < 8 := by omega
    have hm0 : r.nCurBitMask.get 0 ≠ 0 := by
      simp only [Regs.get, if_true]
      rw [hmask]
      exact shr_128_ne k hk7
    obtain ⟨hb, htl⟩ := bitAt_of_drop bs0 k b (bitsOf rest) hseq
    have hp : packFrom (.bit b :: rest) (8 - k) = packFrom rest (8 - (k + 1)) := by
      rw [show 8 - k = (8 - (k + 1)) + 1 by omega]
      rfl
    rw [hp] at hdrop
    have hbv := hbits hk7
    unfold apultra_read_bit
    rw [if_neg hm0]
    unfold shiftBit
    have hget : r.bits.get 0 = byteOfBits bs0 * 2 ^ k % 256 := by
      simp only [Regs.get, if_true]
      exact hbv
    have hlt : byteOfBits bs0 * 2 ^ k % 256 < 256 := Nat.mod_lt _ (by norm_num)
    refine ⟨?_, ?_⟩
    · simp only [hget]
      have htop := byteOfBits_top bs0 k hk7
      cases b
      · have : ¬ 128 ≤ byteOfBits bs0 * 2 ^ k % 256 := by
          rw [htop, hb]; simp
        simp [and_128 _ hlt, this]
      · have : 128 ≤ byteOfBits bs0 * 2 ^ k % 256 := by
          rw [htop, hb]
        simp [and_128 _ hlt, this]
    · refine ⟨bs0, k + 1, by omega, by omega, ?_, ?_, htl, hdrop⟩
      · simp only [Regs.set, Regs.get, if_true]
        rw [hmask, Nat.shiftRight_add]
      · intro _
        simp only [Regs.set, if_true]
        rw [hget]
        exact byteOfBits_shift bs0 k

/-- Reading a raw byte that the writer packed. -/
theorem rawByte_packed (inp : List Nat) (past : Nat → Nat) (r : BitReader) (v : Nat)
    (rest : List Item) (h : RegInv inp r (.raw v :: rest)) :
    r.pInputData < inp.length ∧ (rawByte inp past r).1 = v % 256 ∧
      RegInv inp (rawByte inp past r).2 rest := by
  obtain ⟨bs0, k, hk1, hk8, hmask, hbits, hseq, hdrop⟩ := h
  have hp : packFrom (.raw v :: rest) (8 - k) = v % 256 :: packFrom rest (8 - k) := by
    cases (8 - k) <;> rfl
  rw [hp] at hdrop
  obtain ⟨hlt, hget, htl⟩ := drop_cons_facts inp r.pInputData _ _ hdrop
  refine ⟨hlt, ?_, ?_⟩
  · unfold rawByte inByte
    simp only []
    rw [if_pos hlt, hget]
    exact Nat.mod_mod _ _
  · exact ⟨bs0, k, hk1, hk8, hmask, hbits, hseq, htl⟩

theorem tokenKind_literal (inp : List Nat) (r : BitReader) (rest : List Item)
    (h : RegInv inp r (.bit false :: rest)) :
    tokenKind inp r = (0, (apultra_read_bit inp r 0).2) := by
  obtain ⟨h1, -⟩ := read_bit_packed inp r false rest h
  unfold tokenKind
  simp [h1, toU32_zero]

theorem tokenKind_eod (inp : List Nat) (r : BitReader) (rest : List Item)
    (h : RegInv inp r (.bit true :: .bit true :: .bit false :: rest)) :
    (tokenKind inp r).1 = 2 ∧ RegInv inp (tokenKind inp r).2 rest := by
  obtain ⟨h1, i1⟩ := read_bit_packed inp r true _ h
  obtain ⟨h2, i2⟩ := read_bit_packed inp _ true _ i1
  obtain ⟨h3, i3⟩ := read_bit_packed inp _ false _ i2
  simp only [if_true, Bool.false_eq_true, if_false] at h1 h2 h3
  have e : tokenKind inp r =
      (2, (apultra_read_bit inp (apultra_read_bit inp (apultra_read_bit inp r 0).2 0).2 0).2) := by
    unfold tokenKind
    simp [h1, h2, h3, toU32_zero, toU32_one]
  rw [e]
  exact ⟨rfl, i3⟩

/-- A pass of the decoder over a Literal token that the writer packed. -/
theorem decStep_literal (fuel : Nat) (inp : List Nat) (past : Nat → Nat) (cap nFlags : Nat)
    (s : DState) (v : Nat) (rest : List Item)
    (h : RegInv inp s.rd (.bit false :: .raw v :: rest)) (hc : s.pCurOutData < cap) :
    ∃ s1, decStep fuel inp past cap nFlags s = some (.next s1) ∧
      s1.pCurOutData = s.pCurOutData + 1 ∧ s1.out = store s.out s.pCurOutData (v % 256) ∧
      RegInv inp s1.rd rest := by
  obtain ⟨-, i1⟩ := read_bit_packed inp s.rd false _ h
  obtain ⟨hlt, hv, i2⟩ := rawByte_packed inp past _ v rest i1
  rw [decStep_eq, tokenKind_literal inp s.rd _ h]
  simp only [if_true]
  unfold decLiteral
  simp only []
  rw [if_pos ⟨hlt, hc⟩]
  exact ⟨_, rfl, rfl, by simp only [hv], i2⟩

/-- A pass of the decoder over the end-of-data token that the writer packed. -/
theorem decStep_eod (fuel : Nat) (inp : List Nat) (past : Nat → Nat) (cap nFlags : Nat)
    (s : DState) (h : RegInv inp s.rd eodItems) :
    ∃ s1, decStep fuel inp past cap nFlags s =
        some (.ret (s.pCurOutData % 18446744073709551616) s1) ∧ s1.out = s.out := by
  obtain ⟨hk, i3⟩ := tokenKind_eod inp s.rd _ h
  obtain ⟨-, hv, -⟩ := rawByte_packed inp past _ 0 [] i3
  rw [decStep_kind2 fuel inp past cap nFlags s hk]
  unfold decShort
  simp only []
  rw [if_pos (by rw [hv])]
  exact ⟨_, rfl, rfl⟩

theorem store_other (m : Nat → Nat) (i v j : Nat) (h : j ≠ i) : store m i v j = m j := by
  unfold store
  rw [if_neg h]

theorem store_same (m : Nat → Nat) (i v : Nat) : store m i v i = v := by
  unfold store
  rw [if_pos rfl]

/-- The decoder takes a run of Literal tokens followed by the end-of-data token
back to the bytes of the literals. -/
theorem decLoop_literals (inner : Nat) (inp : List Nat) (past : Nat → Nat) (cap nFlags : Nat) :
    ∀ (lits : List Nat) (s : DState) (fuel : Nat), RegInv inp s.rd (litItems lits) →
      s.pCurOutData + lits.length ≤ cap → lits.length < fuel →
      ∃ sf, decLoop inner inp past cap nFlags fuel s =
          some ((s.pCurOutData + lits.length) % 18446744073709551616, sf) ∧
        (∀ j, j < s.pCurOutData → sf.out j = s.out j) ∧
        (∀ i, i < lits.length → sf.out (s.pCurOutData + i) = lits.getD i 0 % 256) := by
  intro lits
  induction lits with
  | nil =>
    intro s fuel h _ hf
    obtain ⟨s1, hs1, ho⟩ := decStep_eod inner inp past cap nFlags s h
    obtain ⟨f, rfl⟩ : ∃ f, fuel = f + 1 := ⟨fuel - 1, by simp only [List.length_nil] at hf; omega⟩
    refine ⟨s1, ?_, ?_, ?_⟩
    · unfold decLoop
      rw [hs1]
      rfl
    · intro j _
      rw [ho]
    · intro i hi
      simp at hi
  | cons v r ih =>
    intro s fuel h hc hf
    simp only [List.length_cons] at hc hf
    obtain ⟨s1, hs1, hp, ho, hi⟩ := decStep_literal inner inp past cap nFlags s v _ h (by omega)
    obtain ⟨f, rfl⟩ : ∃ f, fuel = f + 1 := ⟨fuel - 1, by omega⟩
    obtain ⟨sf, hsf, hlow, hhi⟩ := ih s1 f hi (by omega) (by omega)
    refine ⟨sf, ?_, ?_, ?_⟩
    · unfold decLoop
      rw [hs1]
      simp only []
      rw [hsf, hp]
      simp only [List.length_cons]
      rw [show s.pCurOutData + 1 + r.length = s.pCurOutData + (r.length + 1) by omega]
    · intro j hj
      rw [hlow j (by omega), ho, store_other _ _ _ _ (by omega)]
    · intro i hi2
      cases i with
      | zero =>
        rw [Nat.add_zero, hlow _ (by omega), ho, store_same]
        rfl
      | succ n =>
        simp only [List.length_cons] at hi2
        have := hhi n (by omega)
        rw [hp] at this
        rw [show s.pCurOutData + (n + 1) = s.pCurOutData + 1 + n by omega, this]
        rfl

theorem packFrom_length (items : List Item) :
    ∀ avail, avail ≤ 7 → 8 * (packFrom items avail).length + avail ≤ weight items + 7 := by
  induction items with
  | nil => intro avail h; simp [packFrom, weight]; omega
  | cons it r ih =>
    intro avail h
    cases it with
    | bit b =>
      cases avail with
      | zero =>
        have := ih 7 (by omega)
        simp only [packFrom, weight, List.length_cons]
        omega
      | succ k =>
        have := ih k (by omega)
        simp only [packFrom, weight]
        omega
    | raw v =>
      have := ih avail h
      simp only [packFrom, weight, List.length_cons]
      omega

theorem weight_litItems (r : List Nat) : weight (litItems r) = 9 * r.length + 11 := by
  induction r with
  | nil => rfl
  | cons v r ih =>
    simp only [litItems, weight, List.length_cons, ih]
    omega

theorem take_eq (m : Nat → Nat) (x : List Nat) (h : ∀ i, i < x.length → m i = x.getD i 0) :
    take m x.length = x := by
  unfold take
  apply List.ext_getElem
  · simp
  · intro i h1 h2
    simp only [List.getElem_map, List.getElem_range]
    rw [h i h2, List.getD_eq_getElem _ _ h2]

/-! ## The output cursor -/

theorem decLiteral_pos (inp : List Nat) (past : Nat → Nat) (cap : Nat) (s : DState) :
    PosStep cap s.pCurOutData (decLiteral inp past cap s) := by
  unfold decLiteral
  split_ifs
  · simp only [PosStep]
    omega
  · rfl

theorem decShort_pos (inp : List Nat) (past : Nat → Nat) (cap : Nat) (s : DState) :
    PosStep cap s.pCurOutData (decShort inp past cap s) := by
  unfold decShort
  simp only [Nat.and_one_is_mod]
  split_ifs <;> simp only [PosStep] <;> first | rfl | omega

theorem decNibble_pos (inp : List Nat) (cap nFlags : Nat) (s : DState) :
    PosStep cap s.pCurOutData (decNibble inp cap nFlags s) := by
  unfold decNibble
  simp only []
  split_ifs <;> simp only [PosStep] <;> first | rfl | omega

theorem copyLong_pos (fuel cap : Nat) (s : DState) (pSrc nMatchLen : Nat) (o : Outcome)
    (h : copyLong fuel cap s pSrc nMatchLen = some o) : PosStep cap s.pCurOutData o := by
  unfold copyLong at h
  split_ifs at h
  · have h := Option.some.inj h
    subst h
    simp only [PosStep]
    omega
  · split at h
    · simp at h
    · have h := Option.some.inj h
      subst h
      simp only [PosStep]
      omega
  · have h := Option.some.inj h
    subst h
    simp only [PosStep]
    omega
  · have h := Option.some.inj h
    subst h
    rfl

theorem decLong_pos (fuel : Nat) (inp : List Nat) (past : Nat → Nat) (cap nFlags : Nat)
    (s : DState) (o : Outcome) (h : decLong fuel inp past cap nFlags s = some o) :
    PosStep cap s.pCurOutData o := by
  unfold decLong at h
  split at h
  · simp at h
  · simp only [] at h
    split_ifs at h
    · split at h
      · simp at h
      · have := copyLong_pos fuel cap _ _ _ o h
        exact this
    · have h := Option.some.inj h
      subst h
      rfl

theorem decStep_pos (fuel : Nat) (inp : List Nat) (past : Nat → Nat) (cap nFlags : Nat)
    (s : DState) (o : Outcome) (h : decStep fuel inp past cap nFlags s = some o) :
    PosStep cap s.pCurOutData o := by
  rw [decStep_eq] at h
  split_ifs at h
  · have h := Option.some.inj h
    subst h
    exact decLiteral_pos inp past cap _
  · have := decLong_pos fuel inp past cap nFlags _ o h
    exact this
  · have h := Option.some.inj h
    subst h
    exact decShort_pos inp past cap _
  · have h := Option.some.inj h
    subst h
    exact decNibble_pos inp cap nFlags _

theorem decLoop_pos (inner : Nat) (inp : List Nat) (past : Nat → Nat) (cap nFlags : Nat) :
    ∀ (fuel : Nat) (s sf : DState) (v : Nat),
      decLoop inner inp past cap nFlags fuel s = some (v, sf) →
      s.pCurOutData ≤ sf.pCurOutData ∧
        (sf.pCurOutData = s.pCurOutData ∨ sf.pCurOutData ≤ cap) := by
  intro fuel
  induction fuel with
  | zero => intro s sf v h; simp [decLoop] at h
  | succ n ih =>
    intro s sf v h
    unfold decLoop at h
    split at h
    · simp at h
    · rename_i v2 s2 hst
      have h := Option.some.inj h
      have e : s2 = sf := congrArg Prod.snd h
      subst e
      have := decStep_pos inner inp past cap nFlags s _ hst
      simp only [PosStep] at this
      omega
    · rename_i s2 hst
      have h1 := decStep_pos inner inp past cap nFlags s _ hst
      have h2 := ih s2 sf v h
      simp only [PosStep] at h1
      omega

/-- With capacity 0 no input makes `apultra_decompress` return 0: the first byte
is copied before any token is read, so the length it returns is at least 1. -/
theorem decompress_capacity_zero (inp : List Nat) (past out : Nat → Nat) (nFlags : Nat) :
    (apultra_decompress inp past out 0 nFlags).map Prod.fst ≠ some 0 := by
  intro h
  obtain ⟨⟨v, sf⟩, h1, h2⟩ := Option.map_eq_some'.mp h
  simp only [] at h2
  subst h2
  unfold apultra_decompress at h1
  rw [if_neg (by omega)] at h1
  have hp := decLoop_pos _ _ _ _ _ _ _ _ _ h1
  have hr := decLoop_ret _ _ _ _ _ _ _ _ _ h1
  have h0 : (decFirst inp past out).pCurOutData = 1 := rfl
  rw [h0] at hp
  unfold SIZE_ERR at hr
  omega

/-! ## Round trip through the modelled compressor -/

/-- C4, counterexample. For the empty byte sequence the round trip fails: the
stream of the modelled compressor makes the decoder, called with capacity 0,
return the error value; and no other stream could do better, because with
capacity 0 the decoder never returns 0. -/
theorem roundtrip_fails_on_empty :
    (apultra_compress [] (apultra_get_max_compressed_size 0) 0 16).map
        (fun s => (apultra_decompress s zeros zeros 0 0).map Prod.fst) = some (some SIZE_ERR) ∧
      ∀ (s : List Nat) (past out : Nat → Nat) (nFlags : Nat),
        (apultra_decompress s past out 0 nFlags).map Prod.fst ≠ some 0 :=
  ⟨by decide, decompress_capacity_zero⟩

theorem compress_fits (b : Nat) (r : List Nat) (nFlags nMaxWindowSize : Nat) :
    apultra_compress (b :: r) (apultra_get_max_compressed_size (b :: r).length) nFlags
      nMaxWindowSize = some (b % 256 :: packFrom (litItems r) 0) := by
  unfold apultra_compress apultra_get_max_compressed_size
  simp only []
  rw [if_pos]
  have h1 := packFrom_length (litItems r) 0 (by omega)
  rw [weight_litItems] at h1
  simp only [List.length_cons]
  omega

theorem regInv_first (b : Nat) (items : List Item) (past out : Nat → Nat) :
    RegInv (b :: packFrom items 0) (decFirst (b :: packFrom items 0) past out).rd items := by
  refine ⟨List.replicate 8 false ++ bitsOf items, 8, by omega, by omega, rfl, ?_, ?_, rfl⟩
  · intro h; omega
  · simp

/-- C4 (amended). Round trip for non-empty input: for every non-empty sequence
`x` of bytes shorter than `2^64`, every flags value and every window,
`apultra_compress` into a buffer of `apultra_get_max_compressed_size (len x)`
bytes succeeds, and `apultra_decompress` of the result with the same flags and
capacity `len x` returns `len x` and leaves `x` in the output, whatever the
output memory and the memory after the stream held. The compressor is the
literal-only encoder modelled from the spec. -/
theorem roundtrip_nonempty (x : List Nat) (past out : Nat → Nat) (nFlags nMaxWindowSize : Nat)
    (hne : x ≠ []) (hbytes : ∀ v ∈ x, v < 256) (hlen : x.length < 18446744073709551616) :
    ∃ s sf, apultra_compress x (apultra_get_max_compressed_size x.length) nFlags
        nMaxWindowSize = some s ∧
      apultra_decompress s past out x.length nFlags = some (x.length, sf) ∧
      take sf.out x.length = x := by
  cases x with
  | nil => exact absurd rfl hne
  | cons b r =>
    have hb : b % 256 = b := Nat.mod_eq_of_lt (hbytes b (List.mem_cons_self _ _))
    have hinv := regInv_first (b % 256) (litItems r) past out
    obtain ⟨sf, hsf, hlow, hhi⟩ := decLoop_literals
      (decFuel (b % 256 :: packFrom (litItems r) 0) (b :: r).length)
      (b % 256 :: packFrom (litItems r) 0) past (b :: r).length nFlags r
      (decFirst (b % 256 :: packFrom (litItems r) 0) past out)
      (decFuel (b % 256 :: packFrom (litItems r) 0) (b :: r).length) hinv
      (by simp only [decFirst, List.length_cons]; omega)
      (by unfold decFuel; simp only [List.length_cons]; omega)
    have hpos : (decFirst (b % 256 :: packFrom (litItems r) 0) past out).pCurOutData = 1 := rfl
    rw [hpos] at hsf hlow hhi
    refine ⟨_, sf, compress_fits b r nFlags nMaxWindowSize, ?_, ?_⟩
    · unfold apultra_decompress
      rw [if_neg (by simp), hsf]
      simp only [List.length_cons] at hlen ⊢
      rw [Nat.mod_eq_of_lt (by omega), Nat.add_comm]
    · apply take_eq
      intro i hi
      cases i with
      | zero =>
        rw [hlow 0 (by omega)]
        simp [decFirst, decInit, rawByte, store, inByte, hb]
      | succ n =>
        simp only [List.length_cons] at hi
        have := hhi n (by omega)
        rw [show n + 1 = 1 + n by omega, this]
        have hm : r.getD n 0 < 256 := by
          rw [List.getD_eq_getElem _ _ (by omega)]
          exact hbytes _ (List.mem_cons_of_mem _ (List.getElem_mem _))
        rw [Nat.mod_eq_of_lt hm, Nat.add_comm 1 n]
        rfl

/-- C4, witness: the three bytes `[1, 2, 3]`. -/
theorem roundtrip_nonempty_witness :
    ([1, 2, 3] : List Nat) ≠ [] ∧ (∀ v ∈ ([1, 2, 3] : List Nat), v < 256) ∧
      ([1, 2, 3] : List Nat).length < 18446744073709551616 ∧
      ∃ s sf, apultra_compress [1, 2, 3] (apultra_get_max_compressed_size 3) 0 16 = some s ∧
        apultra_decompress s zeros zeros 3 0 = some (3, sf) ∧ take sf.out 3 = [1, 2, 3] :=
  ⟨by decide, by decide, by decide,
    roundtrip_nonempty [1, 2, 3] zeros zeros 0 16 (by decide) (by decide) (by decide)⟩

/-! ## Writes stay below the capacity once the first byte is in -/

theorem decLiteral_writes (inp : List Nat) (past : Nat → Nat) (cap : Nat) (s : DState) :
    WritesOK cap s.writes (decLiteral inp past cap s) := by
  unfold decLiteral
  split_ifs with h
  · simp only [WritesOK, List.mem_append, List.mem_singleton]
    intro i hi
    rcases hi with hi | hi
    · exact Or.inl hi
    · right; omega
  · intro i hi
    exact Or.inl hi

theorem decShort_writes (inp : List Nat) (past : Nat → Nat) (cap : Nat) (s : DState) :
    WritesOK cap s.writes (decShort inp past cap s) := by
  unfold decShort
  simp only [Nat.and_one_is_mod]
  split_ifs with h1 h2 h3 h4
  · intro i hi
    exact Or.inl hi
  · simp only [WritesOK, List.mem_append, List.mem_range']
    intro i hi
    rcases hi with (hi | ⟨j, hj, rfl⟩) | ⟨j, hj, rfl⟩
    · exact Or.inl hi
    · right; omega
    · right; omega
  · simp only [WritesOK, List.mem_append, List.mem_range']
    intro i hi
    rcases hi with hi | ⟨j, hj, rfl⟩
    · exact Or.inl hi
    · right; omega
  · intro i hi
    exact Or.inl hi
  · intro i hi
    exact Or.inl hi

theorem decNibble_writes (inp : List Nat) (cap nFlags : Nat) (s : DState) :
    WritesOK cap s.writes (decNibble inp cap nFlags s) := by
  unfold decNibble
  simp only []
  split_ifs with h1 h2 h3
  · simp only [WritesOK, List.mem_append, List.mem_singleton]
    intro i hi
    rcases hi with hi | hi
    · exact Or.inl hi
    · right; omega
  · intro i hi
    exact Or.inl hi
  · simp only [WritesOK, List.mem_append, List.mem_singleton]
    intro i hi
    rcases hi with hi | hi
    · exact Or.inl hi
    · right; omega
  · intro i hi
    exact Or.inl hi

theorem copy16_writes (cap : Nat) :
    ∀ (fuel : Nat) (m : Nat → Nat) (w : List Nat) (dst src e : Nat)
      (x : (Nat → Nat) × List Nat),
      copy16 fuel m w dst src e = some x → dst ≤ e → e + 16 ≤ cap →
      ∀ i ∈ x.2, i ∈ w ∨ i < cap := by
  intro fuel
  induction fuel with
  | zero => intro m w dst src e x h; simp [copy16] at h
  | succ n ih =>
    intro m w dst src e x h hd he i hi
    unfold copy16 at h
    split_ifs at h with h1
    · have := ih _ _ _ _ _ x h (by omega) he i hi
      simp only [List.mem_append, List.mem_range'] at this
      rcases this with (hw | ⟨j, hj, rfl⟩) | hc
      · exact Or.inl hw
      · right; omega
      · exact Or.inr hc
    · have h := Option.some.inj h
      subst h
      simp only [List.mem_append, List.mem_range'] at hi
      rcases hi with hw | ⟨j, hj, rfl⟩
      · exact Or.inl hw
      · right; omega

theorem copyLong_writes (fuel cap : Nat) (s : DState) (pSrc nMatchLen : Nat) (o : Outcome)
    (h : copyLong fuel cap s pSrc nMatchLen = some o) : WritesOK cap s.writes o := by
  unfold copyLong at h
  split_ifs at h with h1 h2 h3
  · have h := Option.some.inj h
    subst h
    simp only [WritesOK, List.mem_append, List.mem_range']
    intro i hi
    rcases hi with (hi | ⟨j, hj, rfl⟩) | ⟨j, hj, rfl⟩
    · exact Or.inl hi
    · right; omega
    · right; omega
  · split at h
    · simp at h
    · rename_i mw hmw
      have h := Option.some.inj h
      subst h
      exact copy16_writes cap fuel _ _ _ _ _ mw hmw (by omega) (by omega)
  · have h := Option.some.inj h
    subst h
    simp only [WritesOK, List.mem_append, List.mem_range']
    intro i hi
    rcases hi with hi | ⟨j, hj, rfl⟩
    · exact Or.inl hi
    · right; omega
  · have h := Option.some.inj h
    subst h
    intro i hi
    exact Or.inl hi

theorem decLong_writes (fuel : Nat) (inp : List Nat) (past : Nat → Nat) (cap nFlags : Nat)
    (s : DState) (o : Outcome) (h : decLong fuel inp past cap nFlags s = some o) :
    WritesOK cap s.writes o := by
  unfold decLong at h
  split at h
  · simp at h
  · simp only [] at h
    split_ifs at h
    · split at h
      · simp at h
      · have := copyLong_writes fuel cap _ _ _ o h
        exact this
    · have h := Option.some.inj h
      subst h
      intro i hi
      exact Or.inl hi

theorem decStep_writes (fuel : Nat) (inp : List Nat) (past : Nat → Nat) (cap nFlags : Nat)
    (s : DState) (o : Outcome) (h : decStep fuel inp past cap nFlags s = some o) :
    WritesOK cap s.writes o := by
  rw [decStep_eq] at h
  split_ifs at h
  · have h := Option.some.inj h
    subst h
    exact decLiteral_writes inp past cap _
  · have := decLong_writes fuel inp past cap nFlags _ o h
    exact this
  · have h := Option.some.inj h
    subst h
    exact decShort_writes inp past cap _
  · have h := Option.some.inj h
    subst h
    exact decNibble_writes inp cap nFlags _

theorem decLoop_writes (inner : Nat) (inp : List Nat) (past : Nat → Nat) (cap nFlags : Nat) :
    ∀ (fuel : Nat) (s sf : DState) (v : Nat),
      decLoop inner inp past cap nFlags fuel s = some (v, sf) →
      ∀ i ∈ sf.writes, i ∈ s.writes ∨ i < cap := by
  intro fuel
  induction fuel with
  | zero => intro s sf v h; simp [decLoop] at h
  | succ n ih =>
    intro s sf v h
    unfold decLoop at h
    split at h
    · simp at h
    · rename_i v2 s2 hst
      have h := Option.some.inj h
      have e : s2 = sf := congrArg Prod.snd h
      subst e
      exact decStep_writes inner inp past cap nFlags s _ hst
    · rename_i s2 hst
      have h1 := decStep_writes inner inp past cap nFlags s _ hst
      have h2 := ih s2 sf v h
      intro i hi
      rcases h2 i hi with h3 | h3
      · exact h1 i h3
      · exact Or.inr h3

/-- When the capacity is at least 1, every output index that `apultra_decompress`
writes is below the capacity; the fast paths that copy 10 or 16 bytes at a time
are included. -/
theorem writes_below_capacity (inp : List Nat) (past out : Nat → Nat) (cap nFlags v : Nat)
    (sf : DState) (hc : 1 ≤ cap) (h : apultra_decompress inp past out cap nFlags = some (v, sf)) :
    ∀ i ∈ sf.writes, i < cap := by
  unfold apultra_decompress at h
  split_ifs at h
  · have h := Option.some.inj h
    have e : decInit out = sf := congrArg Prod.snd h
    subst e
    intro i hi
    simp [decInit] at hi
  · intro i hi
    rcases decLoop_writes _ _ _ _ _ _ _ _ _ h i hi with h1 | h1
    · simp only [decFirst, List.mem_singleton] at h1
      omega
    · exact h1

/-- When the capacity is at least 1, an empty input is rejected before anything
is read or written. -/
theorem empty_input_rejected (past out : Nat → Nat) (cap nFlags : Nat) (hc : 1 ≤ cap) :
    (apultra_decompress [] past out cap nFlags).map (fun r => (r.1, r.2.rd.reads, r.2.writes)) =
      some (SIZE_ERR, [], []) := by
  unfold apultra_decompress
  rw [if_pos ⟨by simp, by omega⟩]
  rfl

/-! ## The copy loops and `memcpy` -/

theorem copyBytes_succ (n : Nat) (m : Nat → Nat) (dst src : Nat) :
    copyBytes (n + 1) m dst src = copyBytes n (store m dst (m src)) (dst + 1) (src + 1) := rfl

theorem copyBytes_below : ∀ (n : Nat) (m : Nat → Nat) (dst src i : Nat), i < dst →
    copyBytes n m dst src i = m i := by
  intro n
  induction n with
  | zero => intro m dst src i _; rfl
  | succ k ih =>
    intro m dst src i h
    rw [copyBytes_succ, ih _ _ _ _ (by omega), store_other _ _ _ _ (by omega)]

theorem copyBytes_add : ∀ (a b : Nat) (m : Nat → Nat) (dst src : Nat),
    copyBytes (a + b) m dst src = copyBytes b (copyBytes a m dst src) (dst + a) (src + a) := by
  intro a
  induction a with
  | zero => intro b m dst src; simp [copyBytes]
  | succ k ih =>
    intro b m dst src
    rw [show k + 1 + b = (k + b) + 1 by omega, copyBytes_succ, ih b _ (dst + 1) (src + 1),
      copyBytes_succ, show dst + 1 + k = dst + (k + 1) by omega,
      show src + 1 + k = src + (k + 1) by omega]

/-- Below `dst + a` a copy of `a + b` bytes is the copy of `a` bytes. -/
theorem copyBytes_prefix (a b : Nat) (m : Nat → Nat) (dst src i : Nat) (h : i < dst + a) :
    copyBytes (a + b) m dst src i = copyBytes a m dst src i := by
  rw [copyBytes_add, copyBytes_below _ _ _ _ _ h]

/-- When the ranges do not overlap, the byte loop is a `memcpy`. -/
theorem copyBytes_eq_memcpy : ∀ (n : Nat) (m : Nat → Nat) (dst src : Nat), src + n ≤ dst →
    copyBytes n m dst src = memcpy m dst src n := by
  intro n
  induction n with
  | zero =>
    intro m dst src _
    funext j
    unfold copyBytes memcpy
    rw [if_neg (by omega)]
  | succ k ih =>
    intro m dst src h
    rw [copyBytes_succ, ih _ _ _ (by omega)]
    funext j
    unfold memcpy store
    by_cases h1 : dst + 1 ≤ j ∧ j < dst + 1 + k
    · rw [if_pos h1, if_neg (by omega), if_pos (by omega)]
      congr 1
      omega
    · rw [if_neg h1]
      by_cases h2 : j = dst
      · rw [if_pos h2, if_pos (by omega)]
        congr 1
        omega
      · rw [if_neg h2, if_neg (by omega)]

/-- A byte loop whose source lies before its destination reads only what lies
below the destination or what it has written itself: two memories that agree
below `dst` agree below `dst + n` after the loop. -/
theorem copyBytes_congr : ∀ (n : Nat) (m1 m2 : Nat → Nat) (dst src : Nat), src < dst →
    (∀ i, i < dst → m1 i = m2 i) →
    ∀ i, i < dst + n → copyBytes n m1 dst src i = copyBytes n m2 dst src i := by
  intro n
  induction n with
  | zero =>
    intro m1 m2 dst src _ h i hi
    exact h i (by omega)
  | succ k ih =>
    intro m1 m2 dst src hs h i hi
    rw [copyBytes_succ, copyBytes_succ]
    apply ih _ _ _ _ (by omega) _ i (by omega)
    intro j hj
    unfold store
    split_ifs
    · exact h src hs
    · exact h j (by omega)

/-- The 8+2-byte fast path: with an offset of 8 or more it is the byte loop for
10 bytes. -/
theorem fast10_eq (m : Nat → Nat) (dst src : Nat) (h : src + 8 ≤ dst) :
    memcpy (memcpy m dst src 8) (dst + 8) (src + 8) 2 = copyBytes 10 m dst src := by
  rw [show (10 : Nat) = 8 + 2 by rfl, copyBytes_add, copyBytes_eq_memcpy 8 m dst src h,
    copyBytes_eq_memcpy 2 _ (dst + 8) (src + 8) (by omega)]

/-- The 16-byte-chunk fast path: with an offset of 16 or more it agrees, below
the end of the match, with the byte loop for the length of the match. -/
theorem copy16_eq :
    ∀ (fuel : Nat) (m : Nat → Nat) (w : List Nat) (dst src e : Nat)
      (x : (Nat → Nat) × List Nat),
      copy16 fuel m w dst src e = some x → src + 16 ≤ dst → dst ≤ e →
      ∀ i, i < e → x.1 i = copyBytes (e - dst) m dst src i := by
  intro fuel
  induction fuel with
  | zero => intro m w dst src e x h; simp [copy16] at h
  | succ n ih =>
    intro m w dst src e x h hs he i hi
    unfold copy16 at h
    split_ifs at h with h1
    · have := ih _ _ _ _ _ x h (by omega) (by omega) i hi
      rw [this, ← copyBytes_eq_memcpy 16 m dst src hs,
        show e - dst = 16 + (e - (dst + 16)) by omega, copyBytes_add]
    · have h := Option.some.inj h
      subst h
      simp only []
      rw [← copyBytes_eq_memcpy 16 m dst src hs,
        show (16 : Nat) = (e - dst) + (16 - (e - dst)) by omega,
        copyBytes_prefix _ _ _ _ _ _ (by omega)]

/-- A byte loop with offset 1 repeats the byte before the destination. -/
theorem copyBytes_offset_one : ∀ (k : Nat) (m : Nat → Nat) (dst j : Nat), 1 ≤ dst → j < k →
    copyBytes k m dst (dst - 1) (dst + j) = m (dst - 1) := by
  intro k
  induction k with
  | zero => intro m dst j _ h; omega
  | succ n ih =>
    intro m dst j hd hj
    rw [copyBytes_succ, show dst - 1 + 1 = (dst + 1) - 1 by omega]
    cases j with
    | zero =>
      simp only [Nat.add_zero]
      rw [copyBytes_below _ _ _ _ _ (by omega), store_same]
    | succ j1 =>
      rw [show dst + (j1 + 1) = (dst + 1) + j1 by omega, ih _ (dst + 1) j1 (by omega) (by omega)]
      rw [show dst + 1 - 1 = dst by omega, store_same]

/-! ## What the match branches do to the state -/

/-- A long or repeated match that is applied moves the output cursor by the
length, keeps the rest of the state, and leaves below the new cursor what the
byte loop leaves; it was within the capacity. -/
theorem copyLong_next (fuel cap : Nat) (s s1 : DState) (pSrc nMatchLen : Nat)
    (h : copyLong fuel cap s pSrc nMatchLen = some (.next s1))
    (hsrc : (pSrc : Int) = (s.pCurOutData : Int) - s.nMatchOffset) :
    s1.pCurOutData = s.pCurOutData + nMatchLen ∧ s1.rd = s.rd ∧
      s1.nMatchOffset = s.nMatchOffset ∧ s1.nFollowsLiteral = s.nFollowsLiteral ∧
      s.pCurOutData + nMatchLen ≤ cap ∧ pSrc + nMatchLen ≤ cap ∧
      ∀ i, i < s.pCurOutData + nMatchLen →
        s1.out i = copyBytes nMatchLen s.out s.pCurOutData pSrc i := by
  unfold copyLong at h
  split_ifs at h with h1 h2 h3
  · have h := Option.some.inj h
    injection h with h
    subst h
    refine ⟨rfl, rfl, rfl, rfl, by omega, by omega, ?_⟩
    intro i hi
    simp only []
    rw [fast10_eq _ _ _ (by omega), show (10 : Nat) = nMatchLen + (10 - nMatchLen) by omega,
      copyBytes_prefix _ _ _ _ _ _ hi]
  · split at h
    · simp at h
    · rename_i mw hmw
      have h := Option.some.inj h
      injection h with h
      subst h
      refine ⟨rfl, rfl, rfl, rfl, by omega, by omega, ?_⟩
      intro i hi
      simp only []
      have := copy16_eq fuel _ _ _ _ _ mw hmw (by omega) (by omega) i hi
      rw [this, show s.pCurOutData + nMatchLen - s.pCurOutData = nMatchLen by omega]
  · have h := Option.some.inj h
    injection h with h
    subst h
    exact ⟨rfl, rfl, rfl, rfl, by omega, by omega, fun i _ => rfl⟩
  · have h := Option.some.inj h
    injection h

theorem copyLong_ret (fuel cap : Nat) (s s1 : DState) (pSrc nMatchLen v : Nat)
    (h : copyLong fuel cap s pSrc nMatchLen = some (.ret v s1)) :
    v = SIZE_ERR ∧ ¬ (s.pCurOutData + nMatchLen ≤ cap ∧ pSrc + nMatchLen ≤ cap) := by
  unfold copyLong at h
  split_ifs at h with h1 h2 h3
  · have h := Option.some.inj h
    injection h
  · split at h
    · simp at h
    · have h := Option.some.inj h
      injection h
  · have h := Option.some.inj h
    injection h
  · have h := Option.some.inj h
    injection h with h3 h4
    exact ⟨h3.symm, h2⟩

theorem copyLong_accepts (fuel cap : Nat) (s : DState) (pSrc nMatchLen : Nat)
    (hf : cap < fuel) (h1 : s.pCurOutData + nMatchLen ≤ cap) (h2 : pSrc + nMatchLen ≤ cap) :
    ∃ s1, copyLong fuel cap s pSrc nMatchLen = some (.next s1) := by
  unfold copyLong
  split_ifs with a b c
  · exact ⟨_, rfl⟩
  · obtain ⟨x, hx⟩ := copy16_some fuel s.out s.writes s.pCurOutData pSrc
      (s.pCurOutData + nMatchLen) (by omega) (by omega)
    rw [hx]
    exact ⟨_, rfl⟩
  · exact ⟨_, rfl⟩
  · exact absurd ⟨h1, h2⟩ b

/-- A short match that is applied. -/
theorem decShort_next (inp : List Nat) (past : Nat → Nat) (cap : Nat) (s s1 : DState)
    (h : decShort inp past cap s = .next s1) :
    inByte inp past s.rd.pInputData ≠ 0 ∧
      s1.pCurOutData = s.pCurOutData + (2 + inByte inp past s.rd.pInputData % 2) ∧
      s1.rd = (rawByte inp past s.rd).2 ∧
      s1.nMatchOffset = ((inByte inp past s.rd.pInputData >>> 1 : Nat) : Int) ∧
      s1.nFollowsLiteral = false ∧
      inByte inp past s.rd.pInputData >>> 1 ≤ s.pCurOutData ∧
      s.pCurOutData + (2 + inByte inp past s.rd.pInputData % 2) ≤ cap ∧
      ∀ i, i < s.pCurOutData + (2 + inByte inp past s.rd.pInputData % 2) →
        s1.out i = copyBytes (2 + inByte inp past s.rd.pInputData % 2) s.out s.pCurOutData
          (s.pCurOutData - inByte inp past s.rd.pInputData >>> 1) i := by
  unfold decShort at h
  simp only [rawByte, Nat.and_one_is_mod] at h
  generalize inByte inp past s.rd.pInputData = cmd at h ⊢
  have e : cmd % 2 + 2 = 2 + cmd % 2 := by omega
  rw [e] at h
  split_ifs at h with h0 h1 h2 h3
  · injection h with h
    subst h
    have hs : ((s.pCurOutData : Int) - ((cmd >>> 1 : Nat) : Int)).toNat =
        s.pCurOutData - cmd >>> 1 := by omega
    refine ⟨h0, rfl, rfl, rfl, rfl, by omega, by omega, ?_⟩
    intro i hi
    simp only []
    rw [hs, fast10_eq _ _ _ (by omega),
      show (10 : Nat) = (2 + cmd % 2) + (10 - (2 + cmd % 2)) by omega,
      copyBytes_prefix _ _ _ _ _ _ hi]
  · injection h with h
    subst h
    have hs : ((s.pCurOutData : Int) - ((cmd >>> 1 : Nat) : Int)).toNat =
        s.pCurOutData - cmd >>> 1 := by omega
    refine ⟨h0, rfl, rfl, rfl, rfl, by omega, by omega, ?_⟩
    intro i _
    simp only []
    rw [hs]

theorem decLong_eq (fuel : Nat) (inp : List Nat) (past : Nat → Nat) (cap nFlags : Nat)
    (s : DState) (hi : Nat) (r1 : BitReader)
    (hg : apultra_read_gamma2 fuel inp s.rd (gammaIdx nFlags) = some (hi, r1)) :
    decLong fuel inp past cap nFlags s =
      if (s.pCurOutData : Int) -
          (longHead inp past s.nFollowsLiteral s.nMatchOffset hi r1).nMatchOffset ≥ 0 then
        match apultra_read_gamma2 fuel inp
            (longHead inp past s.nFollowsLiteral s.nMatchOffset hi r1).rd (gammaIdx nFlags) with
        | none => none
        | some (g, r3) =>
          copyLong fuel cap
            { s with
              rd := r3,
              nMatchOffset := (longHead inp past s.nFollowsLiteral s.nMatchOffset hi r1).nMatchOffset,
              nFollowsLiteral := false }
            ((s.pCurOutData : Int) -
              (longHead inp past s.nFollowsLiteral s.nMatchOffset hi r1).nMatchOffset).toNat
            (longLen (longHead inp past s.nFollowsLiteral s.nMatchOffset hi r1) g)
      else
        some (.ret SIZE_ERR
          { s with
            rd := (longHead inp past s.nFollowsLiteral s.nMatchOffset hi r1).rd,
            nMatchOffset := (longHead inp past s.nFollowsLiteral s.nMatchOffset hi r1).nMatchOffset,
            nFollowsLiteral := false }) := by
  unfold decLong
  rw [hg]

/-- A `'10'` token that is applied: the state after it, in terms of the two
gamma2 values and of `longHead`. -/
theorem decLong_next (fuel : Nat) (inp : List Nat) (past : Nat → Nat) (cap nFlags : Nat)
    (s s1 : DState) (hi g : Nat) (r1 r3 : BitReader)
    (hg : apultra_read_gamma2 fuel inp s.rd (gammaIdx nFlags) = some (hi, r1))
    (hg2 : apultra_read_gamma2 fuel inp
      (longHead inp past s.nFollowsLiteral s.nMatchOffset hi r1).rd (gammaIdx nFlags) =
        some (g, r3))
    (h : decLong fuel inp past cap nFlags s = some (.next s1)) :
    s1.pCurOutData = s.pCurOutData +
        longLen (longHead inp past s.nFollowsLiteral s.nMatchOffset hi r1) g ∧
      s1.rd = r3 ∧
      s1.nMatchOffset = (longHead inp past s.nFollowsLiteral s.nMatchOffset hi r1).nMatchOffset ∧
      s1.nFollowsLiteral = false ∧
      (longHead inp past s.nFollowsLiteral s.nMatchOffset hi r1).nMatchOffset ≤ s.pCurOutData ∧
      s.pCurOutData + longLen (longHead inp past s.nFollowsLiteral s.nMatchOffset hi r1) g ≤ cap ∧
      ((s.pCurOutData : Int) -
          (longHead inp past s.nFollowsLiteral s.nMatchOffset hi r1).nMatchOffset).toNat +
        longLen (longHead inp past s.nFollowsLiteral s.nMatchOffset hi r1) g ≤ cap ∧
      ∀ i, i < s.pCurOutData +
          longLen (longHead inp past s.nFollowsLiteral s.nMatchOffset hi r1) g →
        s1.out i = copyBytes (longLen (longHead inp past s.nFollowsLiteral s.nMatchOffset hi r1) g)
          s.out s.pCurOutData
          ((s.pCurOutData : Int) -
            (longHead inp past s.nFollowsLiteral s.nMatchOffset hi r1).nMatchOffset).toNat i := by
  rw [decLong_eq fuel inp past cap nFlags s hi r1 hg] at h
  generalize longHead inp past s.nFollowsLiteral s.nMatchOffset hi r1 = hd at h hg2 ⊢
  split_ifs at h with hp
  · rw [hg2] at h
    simp only [] at h
    obtain ⟨a1, a2, a3, a4, a5, a6, a7⟩ := copyLong_next fuel cap _ s1 _ _ h (by
      simp only []
      omega)
    exact ⟨a1, a2, a3, a4, by omega, a5, a6, a7⟩
  · have h := Option.some.inj h
    injection h

theorem decLong_ret (fuel : Nat) (inp : List Nat) (past : Nat → Nat) (cap nFlags : Nat)
    (s s1 : DState) (v : Nat) (h : decLong fuel inp past cap nFlags s = some (.ret v s1)) :
    v = SIZE_ERR := by
  unfold decLong at h
  split at h
  · simp at h
  · simp only [] at h
    split_ifs at h
    · split at h
      · simp at h
      · exact (copyLong_ret fuel cap _ s1 _ _ v h).1
    · have h := Option.some.inj h
      injection h with h3 h4
      exact h3.symm

theorem decLong_accepts (fuel : Nat) (inp : List Nat) (past : Nat → Nat) (cap nFlags : Nat)
    (s : DState) (hi g : Nat) (r1 r3 : BitReader)
    (hg : apultra_read_gamma2 fuel inp s.rd (gammaIdx nFlags) = some (hi, r1))
    (hg2 : apultra_read_gamma2 fuel inp
      (longHead inp past s.nFollowsLiteral s.nMatchOffset hi r1).rd (gammaIdx nFlags) =
        some (g, r3))
    (hf : cap < fuel)
    (h0 : 0 ≤ (longHead inp past s.nFollowsLiteral s.nMatchOffset hi r1).nMatchOffset)
    (h1 : (longHead inp past s.nFollowsLiteral s.nMatchOffset hi r1).nMatchOffset ≤ s.pCurOutData)
    (h2 : s.pCurOutData + longLen (longHead inp past s.nFollowsLiteral s.nMatchOffset hi r1) g
      ≤ cap) :
    ∃ s1, decLong fuel inp past cap nFlags s = some (.next s1) := by
  rw [decLong_eq fuel inp past cap nFlags s hi r1 hg]
  generalize longHead inp past s.nFollowsLiteral s.nMatchOffset hi r1 = hd at hg2 h0 h1 h2 ⊢
  rw [if_pos (by omega), hg2]
  exact copyLong_accepts fuel cap _ _ _ hf h2 (by omega)

/-! ## The fast paths refine the byte-by-byte copy -/

theorem agree_rd_eq {s r : DState} {q : BitReader} (h : Agree s r) :
    Agree { s with rd := q } { r with rd := q } :=
  ⟨rfl, h.2.1, h.2.2.1, h.2.2.2.1, h.2.2.2.2⟩

theorem decLiteral_refines (inp : List Nat) (past : Nat → Nat) (cap : Nat) (s r : DState)
    (h : Agree s r) : Refines (decLiteral inp past cap s) (some (decLiteral inp past cap r)) := by
  obtain ⟨hrd, hpos, hoff, hfl, hout⟩ := h
  unfold decLiteral
  rw [← hrd, ← hpos]
  split_ifs with hc
  · intro _
    refine ⟨_, rfl, rfl, rfl, hoff, rfl, ?_⟩
    intro i hi
    simp only [] at hi ⊢
    unfold store
    split_ifs
    · rfl
    · exact hout i (by omega)
  · exact Or.inl rfl

theorem decNibble_refines (inp : List Nat) (cap nFlags : Nat) (s r : DState)
    (h : Agree s r) :
    Refines (decNibble inp cap nFlags s) (some (decNibble inp cap nFlags r)) := by
  obtain ⟨hrd, hpos, hoff, hfl, hout⟩ := h
  unfold decNibble
  simp only []
  rw [← hrd, ← hpos]
  split_ifs with h1 h2 h3
  · intro _
    refine ⟨_, rfl, rfl, rfl, hoff, rfl, ?_⟩
    intro i hi
    simp only [] at hi ⊢
    unfold store
    split_ifs
    · exact hout _ (by omega)
    · exact hout i (by omega)
  · exact Or.inl rfl
  · intro _
    refine ⟨_, rfl, rfl, rfl, hoff, rfl, ?_⟩
    intro i hi
    simp only [] at hi ⊢
    unfold store
    split_ifs
    · rfl
    · exact hout i (by omega)
  · exact Or.inl rfl

theorem decShort_refines (inp : List Nat) (past : Nat → Nat) (cap : Nat) (s r : DState)
    (h : Agree s r) : Refines (decShort inp past cap s) (some (refShort inp past cap r)) := by
  obtain ⟨hrd, hpos, hoff, hfl, hout⟩ := h
  cases ho : decShort inp past cap s with
  | next s1 =>
    obtain ⟨a0, a1, a2, a3, a4, a5, a6, a7⟩ := decShort_next inp past cap s s1 ho
    intro hge
    rw [a3] at hge
    unfold refShort
    simp only [rawByte, Nat.and_one_is_mod]
    rw [← hrd, ← hpos, if_neg a0, if_pos (by omega), if_pos (by omega)]
    refine ⟨_, rfl, ?_, ?_, ?_, ?_, ?_⟩
    · rw [a2]; rfl
    · simp only []
      omega
    · rw [a3]
    · rw [a4]
    · intro i hi
      rw [a1] at hi
      have hs : ((s.pCurOutData : Int) -
          ((inByte inp past s.rd.pInputData >>> 1 : Nat) : Int)).toNat =
          s.pCurOutData - inByte inp past s.rd.pInputData >>> 1 := by omega
      simp only [hs]
      rw [a7 i hi, show inByte inp past s.rd.pInputData % 2 + 2 =
        2 + inByte inp past s.rd.pInputData % 2 by omega]
      exact copyBytes_congr _ _ _ _ _ (by omega) hout i hi
  | ret v s1 =>
    unfold decShort at ho
    simp only [rawByte] at ho
    split_ifs at ho with h0 h1 h2 h3
    · injection ho with e1 e2
      right
      unfold refShort
      simp only [rawByte]
      rw [← hrd, ← hpos, if_pos h0]
      subst e1 e2
      exact ⟨_, rfl, rfl, rfl, hoff, hfl, hout⟩
    · injection ho with e1 e2
      exact Or.inl e1.symm
    · injection ho with e1 e2
      exact Or.inl e1.symm

theorem copyLong_refines (fuel cap : Nat) (s r : DState) (pSrc nMatchLen : Nat) (o : Outcome)
    (h : Agree s r) (hsrc : (pSrc : Int) = (s.pCurOutData : Int) - s.nMatchOffset)
    (ho : copyLong fuel cap s pSrc nMatchLen = some o) :
    Refines o (some (refCopy cap r pSrc nMatchLen)) := by
  obtain ⟨hrd, hpos, hoff, hfl, hout⟩ := h
  cases o with
  | next s1 =>
    obtain ⟨a1, a2, a3, a4, a5, a6, a7⟩ := copyLong_next fuel cap s s1 pSrc nMatchLen ho hsrc
    intro hge
    unfold refCopy
    rw [← hpos, if_pos ⟨a5, a6⟩]
    refine ⟨_, rfl, ?_, ?_, ?_, ?_, ?_⟩
    · rw [a2, hrd]
    · rw [a1]
    · rw [a3, hoff]
    · rw [a4, hfl]
    · intro i hi
      rw [a1] at hi
      rw [a7 i hi]
      exact copyBytes_congr _ _ _ _ _ (by omega) hout i hi
  | ret v s1 => exact Or.inl (copyLong_ret fuel cap s s1 pSrc nMatchLen v ho).1

theorem decLong_refines (fuel : Nat) (inp : List Nat) (past : Nat → Nat) (cap nFlags : Nat)
    (s r : DState) (o : Outcome) (h : Agree s r)
    (ho : decLong fuel inp past cap nFlags s = some o) :
    Refines o (refLong fuel inp past cap nFlags r) := by
  cases o with
  | ret v s1 => exact Or.inl (decLong_ret fuel inp past cap nFlags s s1 v ho)
  | next s1 =>
    obtain ⟨hrd, hpos, hoff, hfl, hout⟩ := h
    unfold decLong at ho
    unfold refLong
    rw [← hrd, ← hpos, ← hoff, ← hfl]
    split at ho
    · simp at ho
    · rename_i hi r1 hg
      simp only [] at ho ⊢
      generalize longHead inp past s.nFollowsLiteral s.nMatchOffset hi r1 = hd at ho ⊢
      split_ifs at ho ⊢ with hp
      · split at ho
        · simp at ho
        · rename_i g r3 hg2
          have := copyLong_refines fuel cap
            { rd := r3, pCurOutData := s.pCurOutData, out := s.out,
              nMatchOffset := hd.nMatchOffset, nFollowsLiteral := false, writes := s.writes }
            { rd := r3, pCurOutData := s.pCurOutData, out := r.out,
              nMatchOffset := hd.nMatchOffset, nFollowsLiteral := false, writes := r.writes }
            _ _ (.next s1) ⟨rfl, rfl, rfl, rfl, hout⟩ (by simp only []; omega) ho
          rw [hpos] at this ⊢
          exact this
      · have ho := Option.some.inj ho
        injection ho

/-- One pass of `apultra_decompress` is refined by one pass of the reference
decoder. -/
theorem decStep_refines (fuel : Nat) (inp : List Nat) (past : Nat → Nat) (cap nFlags : Nat)
    (s r : DState) (o : Outcome) (h : Agree s r)
    (ho : decStep fuel inp past cap nFlags s = some o) :
    Refines o (refStep fuel inp past cap nFlags r) := by
  rw [decStep_eq] at ho
  unfold refStep
  have hrd : s.rd = r.rd := h.1
  rw [← hrd]
  have hag : Agree { s with rd := (tokenKind inp s.rd).2 } { r with rd := (tokenKind inp s.rd).2 } :=
    agree_rd_eq h
  split_ifs at ho ⊢
  · have ho := Option.some.inj ho
    subst ho
    exact decLiteral_refines inp past cap _ _ hag
  · exact decLong_refines fuel inp past cap nFlags _ _ o hag ho
  · have ho := Option.some.inj ho
    subst ho
    exact decShort_refines inp past cap _ _ hag
  · have ho := Option.some.inj ho
    subst ho
    exact decNibble_refines inp cap nFlags _ _ hag

theorem decLoop_refines (inner : Nat) (inp : List Nat) (past : Nat → Nat) (cap nFlags : Nat) :
    ∀ (fuel : Nat) (s r sf : DState) (v : Nat), Agree s r →
      decLoop inner inp past cap nFlags fuel s = some (v, sf) → v ≠ SIZE_ERR →
      offsetsPositive inner inp past cap nFlags fuel s = true →
      ∃ rf, refLoop inner inp past cap nFlags fuel r = some (v, rf) ∧ Agree sf rf := by
  intro fuel
  induction fuel with
  | zero => intro s r sf v _ h; simp [decLoop] at h
  | succ n ih =>
    intro s r sf v hag h hv hoff
    unfold decLoop at h
    unfold offsetsPositive at hoff
    unfold refLoop
    split at h
    · simp at h
    · rename_i v2 s2 hst
      have h := Option.some.inj h
      have e1 : v2 = v := congrArg Prod.fst h
      have e2 : s2 = sf := congrArg Prod.snd h
      subst e1 e2
      have hr := decStep_refines inner inp past cap nFlags s r _ hag hst
      simp only [Refines] at hr
      rcases hr with hbad | ⟨r1, hr1, hag1⟩
      · exact absurd hbad hv
      · rw [hr1]
        exact ⟨r1, rfl, hag1⟩
    · rename_i s2 hst
      rw [hst] at hoff
      simp only [Bool.and_eq_true, decide_eq_true_eq] at hoff
      have hr := decStep_refines inner inp past cap nFlags s r _ hag hst
      simp only [Refines] at hr
      obtain ⟨r1, hr1, hag1⟩ := hr hoff.1
      rw [hr1]
      exact ih s2 r1 sf v hag1 h hv hoff.2

/-- C11. The memcpy fast paths refine the byte-by-byte copy: when
`apultra_decompress` returns a length `v` and every pass of its run leaves an
offset of 1 or more, the reference decoder, which copies every match byte by
byte, returns `v` too, and the two output memories agree below `v`. -/
theorem fast_paths_refine (inp : List Nat) (past out : Nat → Nat) (cap nFlags v : Nat)
    (h : (apultra_decompress inp past out cap nFlags).map Prod.fst = some v)
    (hv : v ≠ SIZE_ERR)
    (hoff : offsetsPositive (decFuel inp cap) inp past cap nFlags (decFuel inp cap)
      (decFirst inp past out) = true) :
    ∃ sf rf, apultra_decompress inp past out cap nFlags = some (v, sf) ∧
      reference_decompress inp past out cap nFlags = some (v, rf) ∧
      ∀ i, i < v → sf.out i = rf.out i := by
  obtain ⟨⟨v2, sf⟩, h1, h2⟩ := Option.map_eq_some'.mp h
  simp only [] at h2
  subst h2
  refine ⟨sf, ?_⟩
  unfold apultra_decompress reference_decompress at *
  split_ifs at h1 ⊢ with hg
  · have h1 := Option.some.inj h1
    exact absurd (congrArg Prod.fst h1).symm hv
  · obtain ⟨rf, hrf, hag⟩ := decLoop_refines (decFuel inp cap) inp past cap nFlags
      (decFuel inp cap) (decFirst inp past out) (decFirst inp past out) sf v2
      ⟨rfl, rfl, rfl, rfl, fun _ _ => rfl⟩ h1 hv hoff
    refine ⟨rf, h1, hrf, ?_⟩
    intro i hi
    have hr := decLoop_ret _ _ _ _ _ _ _ _ _ h1
    have hle : v2 ≤ sf.pCurOutData := by
      rcases hr with hr | hr
      · exact absurd hr hv
      · rw [hr]
        exact Nat.mod_le _ _
    exact hag.2.2.2.2 i (by omega)

/-- C11, witness: `fastInput` with capacity 80 decodes to 31 bytes through both
fast paths, over an output buffer that held the byte 9 everywhere. -/
theorem fast_paths_refine_witness :
    (apultra_decompress fastInput zeros (fun _ => 9) 80 0).map Prod.fst = some 31 ∧
      31 ≠ SIZE_ERR ∧
      offsetsPositive (decFuel fastInput 80) fastInput zeros 80 0 (decFuel fastInput 80)
        (decFirst fastInput zeros (fun _ => 9)) = true ∧
      ∃ sf rf, apultra_decompress fastInput zeros (fun _ => 9) 80 0 = some (31, sf) ∧
        reference_decompress fastInput zeros (fun _ => 9) 80 0 = some (31, rf) ∧
        ∀ i, i < 31 → sf.out i = rf.out i :=
  ⟨by decide, by decide, by decide,
    fast_paths_refine fastInput zeros (fun _ => 9) 80 0 31 (by decide) (by decide) (by decide)⟩

/-- C12. Overlap correctness: when a pass of the loop of `apultra_decompress`
parses a `'10'` token whose offset is 1 and whose decoded length is `k`, at an
output position `pos ≥ 1` with `pos + k ≤ capacity`, the pass goes on with the
output length grown by exactly `k`, the `k` bytes `output[pos .. pos + k)` all
equal `output[pos - 1]`, and the bytes below `pos` are unchanged. -/
theorem overlap_offset_one (fuel : Nat) (inp : List Nat) (past : Nat → Nat) (cap nFlags : Nat)
    (s : DState) (hi g : Nat) (r1 r3 : BitReader)
    (hk : (tokenKind inp s.rd).1 = 1)
    (hg : apultra_read_gamma2 fuel inp (tokenKind inp s.rd).2 (gammaIdx nFlags) = some (hi, r1))
    (hoff : (longHead inp past s.nFollowsLiteral s.nMatchOffset hi r1).nMatchOffset = 1)
    (hg2 : apultra_read_gamma2 fuel inp
      (longHead inp past s.nFollowsLiteral s.nMatchOffset hi r1).rd (gammaIdx nFlags) =
        some (g, r3))
    (hf : cap < fuel) (hpos : 1 ≤ s.pCurOutData)
    (hcap : s.pCurOutData + longLen (longHead inp past s.nFollowsLiteral s.nMatchOffset hi r1) g
      ≤ cap) :
    ∃ s1, decStep fuel inp past cap nFlags s = some (.next s1) ∧
      s1.pCurOutData =
        s.pCurOutData + longLen (longHead inp past s.nFollowsLiteral s.nMatchOffset hi r1) g ∧
      (∀ j, j < longLen (longHead inp past s.nFollowsLiteral s.nMatchOffset hi r1) g →
        s1.out (s.pCurOutData + j) = s.out (s.pCurOutData - 1)) ∧
      ∀ i, i < s.pCurOutData → s1.out i = s.out i := by
  rw [decStep_kind1 fuel inp past cap nFlags s hk]
  have hacc := decLong_accepts fuel inp past cap nFlags
    { s with rd := (tokenKind inp s.rd).2 } hi g r1 r3 hg hg2 hf
    (by simp only [hoff]; decide) (by simp only [hoff]; exact_mod_cast hpos) hcap
  obtain ⟨s1, hs1⟩ := hacc
  have hn := decLong_next fuel inp past cap nFlags
    { s with rd := (tokenKind inp s.rd).2 } s1 hi g r1 r3 hg hg2 hs1
  simp only [hoff] at hn
  obtain ⟨a1, -, -, -, -, -, -, a8⟩ := hn
  have hsrc : ((s.pCurOutData : Int) - 1).toNat = s.pCurOutData - 1 := by omega
  rw [hsrc] at a8
  refine ⟨s1, hs1, a1, ?_, ?_⟩
  · intro j hj
    rw [a8 _ (by omega)]
    exact copyBytes_offset_one _ _ _ _ hpos hj
  · intro i hi2
    rw [a8 _ (by omega)]
    exact copyBytes_below _ _ _ _ _ hi2

/-- C12, witness: in the input `[0x41, 0xAB, 0x01, 0x00, 0x00]` the first token
is a LongMatch with offset 1 and length 5 at position 1; with capacity 6 the
call returns 6 and the output is six bytes `0x41`. -/
theorem overlap_offset_one_witness :
    (apultra_decompress [0x41, 0xAB, 0x01, 0x00, 0x00] zeros zeros 6 0).map
        (fun x => (x.1, take x.2.out 6)) = some (6, [0x41, 0x41, 0x41, 0x41, 0x41, 0x41]) ∧
      (decFirst [0x41, 0xAB, 0x01, 0x00, 0x00] zeros zeros).pCurOutData = 1 ∧
      (decFirst [0x41, 0xAB, 0x01, 0x00, 0x00] zeros zeros).out 0 = 0x41 ∧
      longLen (longHead [0x41, 0xAB, 0x01, 0x00, 0x00] zeros
        (decFirst [0x41, 0xAB, 0x01, 0x00, 0x00] zeros zeros).nFollowsLiteral
        (decFirst [0x41, 0xAB, 0x01, 0x00, 0x00] zeros zeros).nMatchOffset 3
        ⟨2, ⟨8, 0, 0⟩, ⟨176, 0, 0⟩, [0, 1]⟩) 3 = 5 ∧
      ∃ s1, decStep 20 [0x41, 0xAB, 0x01, 0x00, 0x00] zeros 6 0
          (decFirst [0x41, 0xAB, 0x01, 0x00, 0x00] zeros zeros) = some (.next s1) ∧
        s1.pCurOutData = (decFirst [0x41, 0xAB, 0x01, 0x00, 0x00] zeros zeros).pCurOutData +
          longLen (longHead [0x41, 0xAB, 0x01, 0x00, 0x00] zeros
            (decFirst [0x41, 0xAB, 0x01, 0x00, 0x00] zeros zeros).nFollowsLiteral
            (decFirst [0x41, 0xAB, 0x01, 0x00, 0x00] zeros zeros).nMatchOffset 3
            ⟨2, ⟨8, 0, 0⟩, ⟨176, 0, 0⟩, [0, 1]⟩) 3 ∧
        (∀ j, j < longLen (longHead [0x41, 0xAB, 0x01, 0x00, 0x00] zeros
            (decFirst [0x41, 0xAB, 0x01, 0x00, 0x00] zeros zeros).nFollowsLiteral
            (decFirst [0x41, 0xAB, 0x01, 0x00, 0x00] zeros zeros).nMatchOffset 3
            ⟨2, ⟨8, 0, 0⟩, ⟨176, 0, 0⟩, [0, 1]⟩) 3 →
          s1.out ((decFirst [0x41, 0xAB, 0x01, 0x00, 0x00] zeros zeros).pCurOutData + j) =
            (decFirst [0x41, 0xAB, 0x01, 0x00, 0x00] zeros zeros).out
              ((decFirst [0x41, 0xAB, 0x01, 0x00, 0x00] zeros zeros).pCurOutData - 1)) ∧
        ∀ i, i < (decFirst [0x41, 0xAB, 0x01, 0x00, 0x00] zeros zeros).pCurOutData →
          s1.out i = (decFirst [0x41, 0xAB, 0x01, 0x00, 0x00] zeros zeros).out i :=
  ⟨by decide, by decide, by decide, by decide,
    overlap_offset_one 20 [0x41, 0xAB, 0x01, 0x00, 0x00] zeros 6 0
      (decFirst [0x41, 0xAB, 0x01, 0x00, 0x00] zeros zeros) 3 3
      ⟨2, ⟨8, 0, 0⟩, ⟨176, 0, 0⟩, [0, 1]⟩ ⟨3, ⟨2, 0, 0⟩, ⟨192, 0, 0⟩, [0, 1, 2]⟩
      (by decide) (by decide) (by decide) (by decide) (by decide) (by decide) (by decide)⟩

/-- C13. First byte and end of data. For every byte `b`, every flags value and
every capacity of 1 or more, `apultra_decompress` on `[b, 0xC0, 0x00]` returns 1
with `output[0] = b` and the rest of the output memory as it was. More
generally, when a pass of the loop at output length `pos` parses the prefix bits
`110` and then the command byte `0x00`, the call returns `pos`, and the pass
leaves the output memory and the list of written indices as they were. -/
theorem first_byte_and_eod :
    (∀ (b : Nat) (past out : Nat → Nat) (cap nFlags : Nat), b < 256 → 1 ≤ cap →
      ∃ sf, apultra_decompress [b, 0xC0, 0x00] past out cap nFlags = some (1, sf) ∧
        sf.out 0 = b ∧ (∀ i, i ≠ 0 → sf.out i = out i) ∧ sf.writes = [0]) ∧
    (∀ (fuel : Nat) (inp : List Nat) (past : Nat → Nat) (cap nFlags : Nat) (s : DState),
      (tokenKind inp s.rd).1 = 2 →
      (rawByte inp past (tokenKind inp s.rd).2).1 = 0 →
      s.pCurOutData < 18446744073709551616 →
      ∃ s1, decStep fuel inp past cap nFlags s = some (.ret s.pCurOutData s1) ∧
        s1.out = s.out ∧ s1.writes = s.writes ∧ s1.pCurOutData = s.pCurOutData ∧
        ∀ f, decLoop fuel inp past cap nFlags (f + 1) s = some (s.pCurOutData, s1)) := by
  have gen : ∀ (fuel : Nat) (inp : List Nat) (past : Nat → Nat) (cap nFlags : Nat) (s : DState),
      (tokenKind inp s.rd).1 = 2 →
      (rawByte inp past (tokenKind inp s.rd).2).1 = 0 →
      s.pCurOutData < 18446744073709551616 →
      ∃ s1, decStep fuel inp past cap nFlags s = some (.ret s.pCurOutData s1) ∧
        s1.out = s.out ∧ s1.writes = s.writes ∧ s1.pCurOutData = s.pCurOutData ∧
        ∀ f, decLoop fuel inp past cap nFlags (f + 1) s = some (s.pCurOutData, s1) := by
    intro fuel inp past cap nFlags s hk hc hp
    have e : decStep fuel inp past cap nFlags s = some (.ret s.pCurOutData
        { s with rd := (rawByte inp past (tokenKind inp s.rd).2).2 }) := by
      rw [decStep_kind2 fuel inp past cap nFlags s hk]
      unfold decShort
      simp only []
      rw [if_pos hc, Nat.mod_eq_of_lt hp]
    refine ⟨_, e, rfl, rfl, rfl, ?_⟩
    intro f
    unfold decLoop
    rw [e]
  refine ⟨?_, gen⟩
  intro b past out cap nFlags hb hcap
  have hr := regInv_first b (litItems []) past out
  have hp : packFrom (litItems []) 0 = [0xC0, 0x00] := by decide
  have hin : b :: packFrom (litItems []) 0 = [b, 0xC0, 0x00] := by rw [hp]
  rw [hin] at hr
  obtain ⟨hk, i3⟩ := tokenKind_eod _ _ _ hr
  obtain ⟨-, hv, -⟩ := rawByte_packed _ past _ 0 [] i3
  obtain ⟨s1, -, ho, hw, -, hl⟩ := gen (decFuel [b, 0xC0, 0x00] cap) [b, 0xC0, 0x00] past cap nFlags
    (decFirst [b, 0xC0, 0x00] past out) hk hv
    (by show (1 : Nat) < 18446744073709551616; decide)
  refine ⟨s1, ?_, ?_, ?_, ?_⟩
  · unfold apultra_decompress
    rw [if_neg (by simp)]
    have := hl (decFuel [b, 0xC0, 0x00] cap - 1)
    rw [show decFuel [b, 0xC0, 0x00] cap - 1 + 1 = decFuel [b, 0xC0, 0x00] cap by
      unfold decFuel; omega] at this
    exact this
  · rw [ho]
    show store out 0 (inByte [b, 0xC0, 0x00] past 0) 0 = b
    rw [store_same]
    unfold inByte
    simp
    exact hb
  · intro i hi
    rw [ho]
    exact store_other _ _ _ _ hi
  · rw [hw]
    rfl

/-- C13, witness: the input `[0x41, 0xC0, 0x00]` with capacity 1 and flags 0, and
the end-of-data token of that input parsed after the first byte. -/
theorem first_byte_and_eod_witness :
    (∃ sf, apultra_decompress [0x41, 0xC0, 0x00] zeros zeros 1 0 = some (1, sf) ∧
      sf.out 0 = 0x41 ∧ (∀ i, i ≠ 0 → sf.out i = zeros i) ∧ sf.writes = [0]) ∧
    (tokenKind [0x41, 0xC0, 0x00] (decFirst [0x41, 0xC0, 0x00] zeros zeros).rd).1 = 2 ∧
    (rawByte [0x41, 0xC0, 0x00] zeros
      (tokenKind [0x41, 0xC0, 0x00] (decFirst [0x41, 0xC0, 0x00] zeros zeros).rd).2).1 = 0 ∧
    ∃ s1, decStep 5 [0x41, 0xC0, 0x00] zeros 1 0 (decFirst [0x41, 0xC0, 0x00] zeros zeros) =
        some (.ret (decFirst [0x41, 0xC0, 0x00] zeros zeros).pCurOutData s1) ∧
      s1.out = (decFirst [0x41, 0xC0, 0x00] zeros zeros).out ∧
      s1.writes = (decFirst [0x41, 0xC0, 0x00] zeros zeros).writes ∧
      s1.pCurOutData = (decFirst [0x41, 0xC0, 0x00] zeros zeros).pCurOutData ∧
      ∀ f, decLoop 5 [0x41, 0xC0, 0x00] zeros 1 0 (f + 1)
        (decFirst [0x41, 0xC0, 0x00] zeros zeros) =
          some ((decFirst [0x41, 0xC0, 0x00] zeros zeros).pCurOutData, s1) :=
  ⟨first_byte_and_eod.1 0x41 zeros zeros 1 0 (by decide) (by decide), by decide, by decide,
    first_byte_and_eod.2 5 [0x41, 0xC0, 0x00] zeros 1 0 (decFirst [0x41, 0xC0, 0x00] zeros zeros)
      (by decide) (by decide) (by decide)⟩

/-- C14 (amended). Literal token: when a pass of the loop reads the prefix bit 0
at output length `pos`, then, if an input byte remains and `pos` is below the
capacity, it takes the byte at the byte cursor (the bit register and its mask
are left as they are), stores it at `output[pos]`, advances the output length by
1, sets `nFollowsLiteral` and leaves `nMatchOffset` unchanged; otherwise the call
returns the error value. So, for `pos` not above the capacity, it returns the
error value exactly when no input byte remains or `pos` equals the capacity. -/
theorem literal_token (fuel : Nat) (inp : List Nat) (past : Nat → Nat) (cap nFlags : Nat)
    (s : DState) (hk : (tokenKind inp s.rd).1 = 0) :
    ((tokenKind inp s.rd).2.pInputData < inp.length ∧ s.pCurOutData < cap →
      ∃ s1, decStep fuel inp past cap nFlags s = some (.next s1) ∧
        s1.out = store s.out s.pCurOutData (inp.getD (tokenKind inp s.rd).2.pInputData 0 % 256) ∧
        s1.pCurOutData = s.pCurOutData + 1 ∧
        s1.nFollowsLiteral = true ∧ s1.nMatchOffset = s.nMatchOffset ∧
        s1.rd.pInputData = (tokenKind inp s.rd).2.pInputData + 1 ∧
        s1.rd.bits = (tokenKind inp s.rd).2.bits ∧
        s1.rd.nCurBitMask = (tokenKind inp s.rd).2.nCurBitMask ∧
        s1.writes = s.writes ++ [s.pCurOutData]) ∧
    (inp.length ≤ (tokenKind inp s.rd).2.pInputData ∨ cap ≤ s.pCurOutData →
      (∃ s1, decStep fuel inp past cap nFlags s = some (.ret SIZE_ERR s1) ∧
        s1.out = s.out ∧ s1.writes = s.writes) ∧
      ∀ f, (decLoop fuel inp past cap nFlags (f + 1) s).map Prod.fst = some SIZE_ERR) ∧
    (s.pCurOutData ≤ cap →
      ((∃ s1, decStep fuel inp past cap nFlags s = some (.ret SIZE_ERR s1)) ↔
        (inp.length ≤ (tokenKind inp s.rd).2.pInputData ∨ s.pCurOutData = cap))) := by
  have e : decStep fuel inp past cap nFlags s =
      some (decLiteral inp past cap { s with rd := (tokenKind inp s.rd).2 }) := by
    rw [decStep_eq, hk]
    simp
  refine ⟨?_, ?_, ?_⟩
  · intro h
    have e1 : decStep fuel inp past cap nFlags s = some (.next
        ⟨(rawByte inp past (tokenKind inp s.rd).2).2, s.pCurOutData + 1,
          store s.out s.pCurOutData (rawByte inp past (tokenKind inp s.rd).2).1,
          s.nMatchOffset, true, s.writes ++ [s.pCurOutData]⟩) := by
      rw [e]
      unfold decLiteral
      rw [if_pos h]
    refine ⟨_, e1, ?_, rfl, rfl, rfl, rfl, rfl, rfl, rfl⟩
    unfold rawByte inByte
    simp only []
    rw [if_pos h.1]
  · intro h
    have e2 : decStep fuel inp past cap nFlags s =
        some (.ret SIZE_ERR { s with rd := (tokenKind inp s.rd).2 }) := by
      rw [e]
      unfold decLiteral
      rw [if_neg (by simp only []; omega)]
    refine ⟨⟨_, e2, rfl, rfl⟩, ?_⟩
    intro f
    exact decLoop_of_ret fuel inp past cap nFlags f SIZE_ERR s _ e2
  · intro hle
    constructor
    · rintro ⟨s1, hs1⟩
      by_contra hcon
      rw [e] at hs1
      unfold decLiteral at hs1
      rw [if_pos (by simp only []; omega)] at hs1
      simp at hs1
    · intro h
      refine ⟨{ s with rd := (tokenKind inp s.rd).2 }, ?_⟩
      rw [e]
      unfold decLiteral
      rw [if_neg (by simp only []; omega)]

/-- C14, witness: after the first byte of `[0x41, 0x00, 0x42]` the prefix bit 0
is read; with capacity 2 the byte `0x42` is stored at `output[1]`. -/
theorem literal_token_witness :
    (tokenKind [0x41, 0x00, 0x42] (decFirst [0x41, 0x00, 0x42] zeros zeros).rd).1 = 0 ∧
    (tokenKind [0x41, 0x00, 0x42] (decFirst [0x41, 0x00, 0x42] zeros zeros).rd).2.pInputData = 2 ∧
    (decFirst [0x41, 0x00, 0x42] zeros zeros).pCurOutData = 1 ∧
    ∃ s1, decStep 5 [0x41, 0x00, 0x42] zeros 2 0 (decFirst [0x41, 0x00, 0x42] zeros zeros) =
        some (.next s1) ∧
      s1.out = store (decFirst [0x41, 0x00, 0x42] zeros zeros).out
        (decFirst [0x41, 0x00, 0x42] zeros zeros).pCurOutData
        ([0x41, 0x00, 0x42].getD
          (tokenKind [0x41, 0x00, 0x42]
            (decFirst [0x41, 0x00, 0x42] zeros zeros).rd).2.pInputData 0 % 256) ∧
      s1.pCurOutData = (decFirst [0x41, 0x00, 0x42] zeros zeros).pCurOutData + 1 ∧
      s1.nFollowsLiteral = true ∧
      s1.nMatchOffset = (decFirst [0x41, 0x00, 0x42] zeros zeros).nMatchOffset ∧
      s1.rd.pInputData =
        (tokenKind [0x41, 0x00, 0x42]
          (decFirst [0x41, 0x00, 0x42] zeros zeros).rd).2.pInputData + 1 ∧
      s1.rd.bits =
        (tokenKind [0x41, 0x00, 0x42] (decFirst [0x41, 0x00, 0x42] zeros zeros).rd).2.bits ∧
      s1.rd.nCurBitMask =
        (tokenKind [0x41, 0x00, 0x42]
          (decFirst [0x41, 0x00, 0x42] zeros zeros).rd).2.nCurBitMask ∧
      s1.writes = (decFirst [0x41, 0x00, 0x42] zeros zeros).writes ++
        [(decFirst [0x41, 0x00, 0x42] zeros zeros).pCurOutData] :=
  ⟨by decide, by decide, by decide,
    (literal_token 5 [0x41, 0x00, 0x42] zeros 2 0 (decFirst [0x41, 0x00, 0x42] zeros zeros)
      (by decide)).1 (by decide)⟩

/-- C14, counterexample: with capacity 0 the first byte of `[0x41, 0x00, 0x42]`
takes the output length to 1; the prefix bit 0 is then read while an input byte
remains (the cursor is at index 2 of 3) and the output length 1 does not equal
the capacity 0, and the call returns the error value without storing the byte. -/
theorem literal_rejected_above_capacity :
    (tokenKind [0x41, 0x00, 0x42] (decFirst [0x41, 0x00, 0x42] zeros zeros).rd).1 = 0 ∧
    (tokenKind [0x41, 0x00, 0x42] (decFirst [0x41, 0x00, 0x42] zeros zeros).rd).2.pInputData = 2 ∧
    (decFirst [0x41, 0x00, 0x42] zeros zeros).pCurOutData = 1 ∧
    (decStep (decFuel [0x41, 0x00, 0x42] 0) [0x41, 0x00, 0x42] zeros 0 0
      (decFirst [0x41, 0x00, 0x42] zeros zeros)).map
        (fun o => match o with
          | .ret v s1 => (v, s1.writes)
          | .next s1 => (0, s1.writes)) = some (SIZE_ERR, [0]) ∧
    (apultra_decompress [0x41, 0x00, 0x42] zeros zeros 0 0).map
      (fun x => (x.1, x.2.writes)) = some (SIZE_ERR, [0]) := by
  decide

/-! ## The LongMatch token -/

/-- Without wrap-around the lines between the two gamma2 reads set the offset of
the specification. -/
theorem longHead_new (inp : List Nat) (past : Nat → Nat) (fl : Bool) (m : Int) (hi : Nat)
    (r1 : BitReader) (hnr : fl = false ∨ hi ≠ 2) (hb : (if fl then 3 else 2) ≤ hi)
    (ho : specLongOffset fl hi (inByte inp past r1.pInputData) < 2147483648) :
    longHead inp past fl m hi r1 =
      ⟨false, (specLongOffset fl hi (inByte inp past r1.pInputData) : Nat),
        if specLongOffset fl hi (inByte inp past r1.pInputData) < 128 then 2 else 0,
        (rawByte inp past r1).2⟩ := by
  unfold longHead
  rw [if_pos hnr]
  have e : longOffset hi (if fl = true then 3 else 2) (rawByte inp past r1).1 =
      (specLongOffset fl hi (inByte inp past r1.pInputData) : Nat) :=
    longOffset_small hi _ _ hb (inByte_lt inp past _) ho
  simp only [e]
  generalize specLongOffset fl hi (inByte inp past r1.pInputData) = o
  have hc : ((o : Int) < 128) ↔ (o < 128) := by omega
  simp only [hc]

/-- Without wrap-around the length of a LongMatch is the length of the
specification. -/
theorem longLen_new (off g : Nat) (rd : BitReader) (hg : g + 2 < 4294967296) :
    longLen ⟨false, (off : Nat), if off < 128 then 2 else 0, rd⟩ g = specLongLen off g := by
  unfold longLen specLongLen MINMATCH3_OFFSET MINMATCH4_OFFSET
  simp only [true_and]
  split_ifs <;> omega

/-- With both gamma2 values read and fuel for the copy, the branch of the
`'10'` token gives an outcome. -/
theorem decLong_total (fuel : Nat) (inp : List Nat) (past : Nat → Nat) (cap nFlags : Nat)
    (s : DState) (hi g : Nat) (r1 r3 : BitReader)
    (hg : apultra_read_gamma2 fuel inp s.rd (gammaIdx nFlags) = some (hi, r1))
    (hg2 : apultra_read_gamma2 fuel inp
      (longHead inp past s.nFollowsLiteral s.nMatchOffset hi r1).rd (gammaIdx nFlags) =
        some (g, r3))
    (hf : cap < fuel) :
    ∃ o, decLong fuel inp past cap nFlags s = some o := by
  rw [decLong_eq fuel inp past cap nFlags s hi r1 hg]
  split_ifs
  · rw [hg2]
    obtain ⟨o, ho, -⟩ := copyLong_advances fuel cap inp
      { s with
        rd := r3,
        nMatchOffset := (longHead inp past s.nFollowsLiteral s.nMatchOffset hi r1).nMatchOffset,
        nFollowsLiteral := false }
      ((s.pCurOutData : Int) -
        (longHead inp past s.nFollowsLiteral s.nMatchOffset hi r1).nMatchOffset).toNat
      (longLen (longHead inp past s.nFollowsLiteral s.nMatchOffset hi r1) g) hf
    exact ⟨o, ho⟩
  · exact ⟨_, rfl⟩

/-- C15 (amended). LongMatch decoding without wrap-around. After the prefix bits
`10` and the gamma2 value `hi`, when not (`nFollowsLiteral` and `hi = 2`), with
`hi` at least the bias, the offset `((hi - bias) << 8) | lo` below `2^31` and the
second gamma2 value `g` below `2^32 - 2`: the token is applied exactly when the
offset is at most `pos` and `pos + len` is at most the capacity, where `len` is
`g + 2` below offset 128, `g` from 128, `g + 1` from 1280 and `g + 2` from 32000;
it then copies `len` bytes from `output[pos - offset ..]` left to right, the byte
`lo` is the raw byte after the first gamma2 value, `nMatchOffset` becomes the
offset and `nFollowsLiteral` false; otherwise the call returns the error value.
When `g` is 2 or more, `len` is 3 or more from offset 1280 and 4 or more from
offset 32000. -/
theorem long_match_decoding (fuel : Nat) (inp : List Nat) (past : Nat → Nat) (cap nFlags : Nat)
    (s : DState) (hi g : Nat) (r1 r3 : BitReader)
    (hk : (tokenKind inp s.rd).1 = 1)
    (hg : apultra_read_gamma2 fuel inp (tokenKind inp s.rd).2 (gammaIdx nFlags) = some (hi, r1))
    (hnr : s.nFollowsLiteral = false ∨ hi ≠ 2)
    (hb : (if s.nFollowsLiteral then 3 else 2) ≤ hi)
    (ho : specLongOffset s.nFollowsLiteral hi (inByte inp past r1.pInputData) < 2147483648)
    (hg2 : apultra_read_gamma2 fuel inp (rawByte inp past r1).2 (gammaIdx nFlags) = some (g, r3))
    (hgr : g + 2 < 4294967296)
    (hf : cap < fuel) :
    (specLongOffset s.nFollowsLiteral hi (inByte inp past r1.pInputData) ≤ s.pCurOutData ∧
        s.pCurOutData +
          specLongLen (specLongOffset s.nFollowsLiteral hi (inByte inp past r1.pInputData)) g
          ≤ cap →
      ∃ s1, decStep fuel inp past cap nFlags s = some (.next s1) ∧
        s1.pCurOutData = s.pCurOutData +
          specLongLen (specLongOffset s.nFollowsLiteral hi (inByte inp past r1.pInputData)) g ∧
        s1.nMatchOffset =
          (specLongOffset s.nFollowsLiteral hi (inByte inp past r1.pInputData) : Nat) ∧
        s1.nFollowsLiteral = false ∧ s1.rd = r3 ∧
        ∀ i, i < s.pCurOutData +
            specLongLen (specLongOffset s.nFollowsLiteral hi (inByte inp past r1.pInputData)) g →
          s1.out i = copyBytes
            (specLongLen (specLongOffset s.nFollowsLiteral hi (inByte inp past r1.pInputData)) g)
            s.out s.pCurOutData
            (s.pCurOutData - specLongOffset s.nFollowsLiteral hi (inByte inp past r1.pInputData))
            i) ∧
    (¬ (specLongOffset s.nFollowsLiteral hi (inByte inp past r1.pInputData) ≤ s.pCurOutData ∧
        s.pCurOutData +
          specLongLen (specLongOffset s.nFollowsLiteral hi (inByte inp past r1.pInputData)) g
          ≤ cap) →
      ∃ s1, decStep fuel inp past cap nFlags s = some (.ret SIZE_ERR s1)) ∧
    (2 ≤ g →
      (1280 ≤ specLongOffset s.nFollowsLiteral hi (inByte inp past r1.pInputData) →
        3 ≤ specLongLen (specLongOffset s.nFollowsLiteral hi (inByte inp past r1.pInputData)) g) ∧
      (32000 ≤ specLongOffset s.nFollowsLiteral hi (inByte inp past r1.pInputData) →
        4 ≤ specLongLen (specLongOffset s.nFollowsLiteral hi (inByte inp past r1.pInputData))
          g)) := by
  have hh := longHead_new inp past s.nFollowsLiteral s.nMatchOffset hi r1 hnr hb ho
  have hl := longLen_new (specLongOffset s.nFollowsLiteral hi (inByte inp past r1.pInputData)) g
    (rawByte inp past r1).2 hgr
  generalize specLongOffset s.nFollowsLiteral hi (inByte inp past r1.pInputData) = off
    at hh hl ho ⊢
  have hg2' : apultra_read_gamma2 fuel inp
      (longHead inp past s.nFollowsLiteral s.nMatchOffset hi r1).rd (gammaIdx nFlags) =
        some (g, r3) := by
    rw [hh]
    exact hg2
  rw [decStep_kind1 fuel inp past cap nFlags s hk]
  have hnext : ∀ s1, decLong fuel inp past cap nFlags { s with rd := (tokenKind inp s.rd).2 } =
      some (.next s1) →
      s1.pCurOutData = s.pCurOutData + specLongLen off g ∧
        s1.nMatchOffset = (off : Nat) ∧ s1.nFollowsLiteral = false ∧ s1.rd = r3 ∧
        off ≤ s.pCurOutData ∧ s.pCurOutData + specLongLen off g ≤ cap ∧
        ∀ i, i < s.pCurOutData + specLongLen off g →
          s1.out i = copyBytes (specLongLen off g) s.out s.pCurOutData (s.pCurOutData - off) i := by
    intro s1 hs1
    have hn := decLong_next fuel inp past cap nFlags
      { s with rd := (tokenKind inp s.rd).2 } s1 hi g r1 r3 hg hg2' hs1
    simp only [hh, hl] at hn
    obtain ⟨a1, a2, a3, a4, a5, a6, -, a8⟩ := hn
    have a5' : off ≤ s.pCurOutData := by exact_mod_cast a5
    have hsrc : ((s.pCurOutData : Int) - (off : Nat)).toNat = s.pCurOutData - off := by omega
    rw [hsrc] at a8
    exact ⟨a1, a3, a4, a2, a5', a6, a8⟩
  refine ⟨?_, ?_, ?_⟩
  · intro hacc
    obtain ⟨s1, hs1⟩ := decLong_accepts fuel inp past cap nFlags
      { s with rd := (tokenKind inp s.rd).2 } hi g r1 r3 hg hg2' hf
      (by simp only [hh]; omega) (by simp only [hh]; exact_mod_cast hacc.1)
      (by simp only [hh, hl]; exact hacc.2)
    obtain ⟨a1, a2, a3, a4, -, -, a7⟩ := hnext s1 hs1
    exact ⟨s1, hs1, a1, a2, a3, a4, a7⟩
  · intro hrej
    obtain ⟨o, ho2⟩ := decLong_total fuel inp past cap nFlags
      { s with rd := (tokenKind inp s.rd).2 } hi g r1 r3 hg hg2' hf
    cases o with
    | next s1 =>
      obtain ⟨-, -, -, -, a5, a6, -⟩ := hnext s1 ho2
      exact absurd ⟨a5, a6⟩ hrej
    | ret v s1 =>
      have := decLong_ret fuel inp past cap nFlags _ s1 v ho2
      subst this
      exact ⟨s1, ho2⟩
  · intro h2
    unfold specLongLen
    constructor
    · intro h
      split_ifs <;> omega
    · intro h
      split_ifs <;> omega

/-- C15, witness: in `[0x41, 0xAB, 0x01, 0x00, 0x00]` the first token is a
LongMatch with `hi = 3` after a literal, `lo = 1` and `g = 3`: offset 1 and
length 5, applied with capacity 6. -/
theorem long_match_decoding_witness :
    (specLongOffset (decFirst [0x41, 0xAB, 0x01, 0x00, 0x00] zeros zeros).nFollowsLiteral 3 (inByte [0x41, 0xAB, 0x01, 0x00, 0x00] zeros 2)) = 1 ∧
    specLongLen (specLongOffset (decFirst [0x41, 0xAB, 0x01, 0x00, 0x00] zeros zeros).nFollowsLiteral 3 (inByte [0x41, 0xAB, 0x01, 0x00, 0x00] zeros 2)) 3 = 5 ∧
    ∃ s1, decStep 20 [0x41, 0xAB, 0x01, 0x00, 0x00] zeros 6 0 (decFirst [0x41, 0xAB, 0x01, 0x00, 0x00] zeros zeros) = some (.next s1) ∧
      s1.pCurOutData = (decFirst [0x41, 0xAB, 0x01, 0x00, 0x00] zeros zeros).pCurOutData + specLongLen (specLongOffset (decFirst [0x41, 0xAB, 0x01, 0x00, 0x00] zeros zeros).nFollowsLiteral 3 (inByte [0x41, 0xAB, 0x01, 0x00, 0x00] zeros 2)) 3 ∧
      s1.nMatchOffset = ((specLongOffset (decFirst [0x41, 0xAB, 0x01, 0x00, 0x00] zeros zeros).nFollowsLiteral 3 (inByte [0x41, 0xAB, 0x01, 0x00, 0x00] zeros 2)) : Nat) ∧
      s1.nFollowsLiteral = false ∧ s1.rd = ⟨3, ⟨2, 0, 0⟩, ⟨192, 0, 0⟩, [0, 1, 2]⟩ ∧
      ∀ i, i < (decFirst [0x41, 0xAB, 0x01, 0x00, 0x00] zeros zeros).pCurOutData + specLongLen (specLongOffset (decFirst [0x41, 0xAB, 0x01, 0x00, 0x00] zeros zeros).nFollowsLiteral 3 (inByte [0x41, 0xAB, 0x01, 0x00, 0x00] zeros 2)) 3 →
        s1.out i = copyBytes (specLongLen (specLongOffset (decFirst [0x41, 0xAB, 0x01, 0x00, 0x00] zeros zeros).nFollowsLiteral 3 (inByte [0x41, 0xAB, 0x01, 0x00, 0x00] zeros 2)) 3) (decFirst [0x41, 0xAB, 0x01, 0x00, 0x00] zeros zeros).out (decFirst [0x41, 0xAB, 0x01, 0x00, 0x00] zeros zeros).pCurOutData
          ((decFirst [0x41, 0xAB, 0x01, 0x00, 0x00] zeros zeros).pCurOutData - (specLongOffset (decFirst [0x41, 0xAB, 0x01, 0x00, 0x00] zeros zeros).nFollowsLiteral 3 (inByte [0x41, 0xAB, 0x01, 0x00, 0x00] zeros 2))) i :=
  ⟨by decide, by decide,
    (long_match_decoding 20 [0x41, 0xAB, 0x01, 0x00, 0x00] zeros 6 0 (decFirst [0x41, 0xAB, 0x01, 0x00, 0x00] zeros zeros) 3 3
      ⟨2, ⟨8, 0, 0⟩, ⟨176, 0, 0⟩, [0, 1]⟩ ⟨3, ⟨2, 0, 0⟩, ⟨192, 0, 0⟩, [0, 1, 2]⟩
      (by decide) (by decide) (by decide) (by decide) (by decide) (by decide) (by decide)
      (by decide)).1 ⟨by decide, by decide⟩⟩

set_option maxRecDepth 100000 in
/-- C15, counterexample. In `lenWrapInput` the first token is a LongMatch with
offset 1 and gamma2 value `g = 2^32 - 1`: the length `g + 2` of the claim is
`2^32 + 1`, but with capacity 2 the call copies one byte and returns 2. In
`minWrapInput`, after one pass the output length is 1280 and the next token is a
LongMatch with offset 1280 and `g = 2^32 - 1`; with capacity 1280 it is applied
with length 0, which is below 3, and the call returns 1280. -/
theorem long_match_length_wraps :
    ((tokenKind lenWrapInput (decFirst lenWrapInput zeros zeros).rd).1 = 1 ∧
      (apultra_read_gamma2 40 lenWrapInput
        (tokenKind lenWrapInput (decFirst lenWrapInput zeros zeros).rd).2 0).map
        (fun x => (x.1, x.2.pInputData, inByte lenWrapInput zeros x.2.pInputData,
          (apultra_read_gamma2 40 lenWrapInput (rawByte lenWrapInput zeros x.2).2 0).map
            Prod.fst)) = some (3, 2, 1, some 4294967295) ∧
      specLongOffset true 3 1 = 1 ∧
      specLongLen 1 4294967295 = 4294967297 ∧
      (apultra_decompress lenWrapInput zeros zeros 2 0).map
        (fun x => (x.1, take x.2.out 2, x.2.writes)) = some (2, [0x41, 0x41], [0, 1])) ∧
    ((decPasses 40 minWrapInput zeros 1280 0 1 (decFirst minWrapInput zeros zeros)).map
        (fun s1 => (s1.pCurOutData, s1.nFollowsLiteral, (tokenKind minWrapInput s1.rd).1)) =
          some (1280, false, 1) ∧
      ((decPasses 40 minWrapInput zeros 1280 0 1 (decFirst minWrapInput zeros zeros)).bind
        (fun s1 => apultra_read_gamma2 40 minWrapInput (tokenKind minWrapInput s1.rd).2 0)).map
        (fun x => (x.1, inByte minWrapInput zeros x.2.pInputData,
          (apultra_read_gamma2 40 minWrapInput (rawByte minWrapInput zeros x.2).2 0).map
            Prod.fst)) = some (7, 0, some 4294967295) ∧
      specLongOffset false 7 0 = 1280 ∧
      (decPasses 40 minWrapInput zeros 1280 0 2 (decFirst minWrapInput zeros zeros)).map
        (fun s2 => (s2.pCurOutData, s2.nMatchOffset)) = some (1280, 1280) ∧
      (apultra_decompress minWrapInput zeros zeros 1280 0).map Prod.fst = some 1280) :=
  ⟨⟨by decide, by decide, by decide, by decide, by decide⟩,
    ⟨by decide, by decide, by decide, by decide, by decide⟩⟩

/-! ## The RepMatch token -/

theorem toU32_lt (x : Int) : toU32 x < 4294967296 := by
  unfold toU32
  omega

theorem gamma2Std_lt (inp : List Nat) (i : Nat) :
    ∀ (fuel v : Nat) (r : BitReader) (x : Nat × BitReader),
      gamma2Std inp i fuel v r = some x → x.1 < 4294967296 := by
  intro fuel
  induction fuel with
  | zero => intro v r x h; simp [gamma2Std] at h
  | succ n ih =>
    intro v r x h
    unfold gamma2Std at h
    simp only [] at h
    split_ifs at h
    · cases h
      exact toU32_lt _
    · exact ih _ _ x h
    · cases h
      exact Nat.mod_lt _ (by decide)

theorem gamma2Enh_lt (inp : List Nat) (i : Nat) :
    ∀ (fuel : Nat) (l : Int) (v : Nat) (r : BitReader) (x : Nat × BitReader),
      gamma2Enh inp i fuel l v r = some x → x.1 < 4294967296 := by
  intro fuel
  induction fuel with
  | zero => intro l v r x h; simp [gamma2Enh] at h
  | succ n ih =>
    intro l v r x h
    unfold gamma2Enh at h
    simp only [] at h
    generalize (if l = 0 ∧ v ≥ 256 then toI32 v else l) = l1 at h
    generalize (if l = 0 ∧ v ≥ 256 then 1 else v) = v0 at h
    split_ifs at h
    · cases h
      exact toU32_lt _
    · exact ih _ _ _ x h
    · cases h
      exact Nat.mod_lt _ (by decide)
    · cases h
      exact Nat.mod_lt _ (by decide)

/-- A value of `apultra_read_gamma2` is an `unsigned int`. -/
theorem read_gamma2_lt (fuel : Nat) (inp : List Nat) (r : BitReader) (i : Nat)
    (x : Nat × BitReader) (h : apultra_read_gamma2 fuel inp r i = some x) :
    x.1 < 4294967296 := by
  unfold apultra_read_gamma2 at h
  split_ifs at h
  · exact gamma2Std_lt inp i fuel 1 r x h
  · exact gamma2Enh_lt inp i fuel 0 1 r x h

/-- After a literal and the gamma2 value 2 the lines between the two gamma2
reads keep the offset and read nothing. -/
theorem longHead_rep (inp : List Nat) (past : Nat → Nat) (m : Int) (r1 : BitReader) :
    longHead inp past true m 2 r1 = ⟨true, m, 0, r1⟩ := by
  unfold longHead
  simp

theorem longLen_rep (m : Int) (g : Nat) (rd : BitReader) (hg : g < 4294967296) :
    longLen ⟨true, m, 0, rd⟩ g = g := by
  unfold longLen
  simp only [Bool.true_eq_false, false_and, if_false, Nat.add_zero]
  exact Nat.mod_eq_of_lt hg

/-- C16. RepMatch decoding: after the prefix bits `10`, when `nFollowsLiteral` is
set and the gamma2 value `hi` is 2, the next gamma2 value `g` is read right after
`hi`, with no offset byte in between. The token is applied exactly when
`nMatchOffset ≤ pos`, `pos + g ≤ capacity` and `pos - nMatchOffset + g ≤
capacity`; it then copies exactly `g` bytes from `output[pos - nMatchOffset ..]`
left to right, whatever `nMatchOffset` is, leaves `nMatchOffset` unchanged and
clears `nFollowsLiteral`; otherwise the call returns the error value. After the
first byte `nMatchOffset` is 1 and `nFollowsLiteral` is set. -/
theorem rep_match_decoding (fuel : Nat) (inp : List Nat) (past : Nat → Nat) (cap nFlags : Nat)
    (s : DState) (g : Nat) (r1 r3 : BitReader)
    (hk : (tokenKind inp s.rd).1 = 1)
    (hg : apultra_read_gamma2 fuel inp (tokenKind inp s.rd).2 (gammaIdx nFlags) = some (2, r1))
    (hfl : s.nFollowsLiteral = true)
    (hg2 : apultra_read_gamma2 fuel inp r1 (gammaIdx nFlags) = some (g, r3))
    (hf : cap < fuel) :
    (s.nMatchOffset ≤ s.pCurOutData ∧ s.pCurOutData + g ≤ cap ∧
        ((s.pCurOutData : Int) - s.nMatchOffset).toNat + g ≤ cap →
      ∃ s1, decStep fuel inp past cap nFlags s = some (.next s1) ∧
        s1.pCurOutData = s.pCurOutData + g ∧ s1.nMatchOffset = s.nMatchOffset ∧
        s1.nFollowsLiteral = false ∧ s1.rd = r3 ∧
        ∀ i, i < s.pCurOutData + g →
          s1.out i = copyBytes g s.out s.pCurOutData
            ((s.pCurOutData : Int) - s.nMatchOffset).toNat i) ∧
    (¬ (s.nMatchOffset ≤ s.pCurOutData ∧ s.pCurOutData + g ≤ cap ∧
        ((s.pCurOutData : Int) - s.nMatchOffset).toNat + g ≤ cap) →
      ∃ s1, decStep fuel inp past cap nFlags s = some (.ret SIZE_ERR s1)) ∧
    (∀ (inp2 : List Nat) (past2 out2 : Nat → Nat),
      (decFirst inp2 past2 out2).nMatchOffset = 1 ∧
        (decFirst inp2 past2 out2).nFollowsLiteral = true) := by
  have hlt := read_gamma2_lt fuel inp r1 (gammaIdx nFlags) _ hg2
  simp only [] at hlt
  have hh : longHead inp past ({ s with rd := (tokenKind inp s.rd).2 } : DState).nFollowsLiteral
      ({ s with rd := (tokenKind inp s.rd).2 } : DState).nMatchOffset 2 r1 =
      ⟨true, s.nMatchOffset, 0, r1⟩ := by
    simp only [hfl]
    exact longHead_rep inp past _ r1
  have hl := longLen_rep s.nMatchOffset g r1 hlt
  have hg2b : apultra_read_gamma2 fuel inp
      (longHead inp past ({ s with rd := (tokenKind inp s.rd).2 } : DState).nFollowsLiteral
        ({ s with rd := (tokenKind inp s.rd).2 } : DState).nMatchOffset 2 r1).rd
      (gammaIdx nFlags) = some (g, r3) := by
    rw [hh]
    exact hg2
  rw [decStep_kind1 fuel inp past cap nFlags s hk]
  have hnext : ∀ s1, decLong fuel inp past cap nFlags { s with rd := (tokenKind inp s.rd).2 } =
      some (.next s1) →
      s1.pCurOutData = s.pCurOutData + g ∧ s1.nMatchOffset = s.nMatchOffset ∧
        s1.nFollowsLiteral = false ∧ s1.rd = r3 ∧
        (s.nMatchOffset ≤ s.pCurOutData ∧ s.pCurOutData + g ≤ cap ∧
          ((s.pCurOutData : Int) - s.nMatchOffset).toNat + g ≤ cap) ∧
        ∀ i, i < s.pCurOutData + g →
          s1.out i = copyBytes g s.out s.pCurOutData
            ((s.pCurOutData : Int) - s.nMatchOffset).toNat i := by
    intro s1 hs1
    have hn := decLong_next fuel inp past cap nFlags
      { s with rd := (tokenKind inp s.rd).2 } s1 2 g r1 r3 hg hg2b hs1
    rw [hh] at hn
    simp only [hl] at hn
    obtain ⟨a1, a2, a3, a4, a5, a6, a7, a8⟩ := hn
    exact ⟨a1, a3, a4, a2, ⟨a5, a6, a7⟩, a8⟩
  refine ⟨?_, ?_, ?_⟩
  · intro hacc
    have hex : ∃ s1, decLong fuel inp past cap nFlags { s with rd := (tokenKind inp s.rd).2 } =
        some (.next s1) := by
      rw [decLong_eq fuel inp past cap nFlags _ 2 r1 hg, hg2b, hh]
      simp only []
      rw [if_pos (by omega), hl]
      exact copyLong_accepts fuel cap _ _ _ hf hacc.2.1 hacc.2.2
    obtain ⟨s1, hs1⟩ := hex
    obtain ⟨a1, a2, a3, a4, -, a6⟩ := hnext s1 hs1
    exact ⟨s1, hs1, a1, a2, a3, a4, a6⟩
  · intro hrej
    obtain ⟨o, ho2⟩ := decLong_total fuel inp past cap nFlags
      { s with rd := (tokenKind inp s.rd).2 } 2 g r1 r3 hg hg2b hf
    cases o with
    | next s1 =>
      obtain ⟨-, -, -, -, a5, -⟩ := hnext s1 ho2
      exact absurd a5 hrej
    | ret v s1 =>
      have := decLong_ret fuel inp past cap nFlags _ s1 v ho2
      subst this
      exact ⟨s1, ho2⟩
  · intro inp2 past2 out2
    exact ⟨rfl, rfl⟩

/-- C16, witness: in `[0x41, 0x83, 0x00, 0x00]` the first token is a RepMatch
with `g = 2`; with flags 0 and capacity 3 the call returns 3 and the output is
three bytes `0x41`. -/
theorem rep_match_decoding_witness :
    (apultra_decompress [0x41, 0x83, 0x00, 0x00] zeros zeros 3 0).map
        (fun x => (x.1, take x.2.out 3)) = some (3, [0x41, 0x41, 0x41]) ∧
    ∃ s1, decStep 20 [0x41, 0x83, 0x00, 0x00] zeros 3 0 (decFirst [0x41, 0x83, 0x00, 0x00] zeros zeros) = some (.next s1) ∧
      s1.pCurOutData = (decFirst [0x41, 0x83, 0x00, 0x00] zeros zeros).pCurOutData + 2 ∧
      s1.nMatchOffset = (decFirst [0x41, 0x83, 0x00, 0x00] zeros zeros).nMatchOffset ∧
      s1.nFollowsLiteral = false ∧ s1.rd = ⟨2, ⟨2, 0, 0⟩, ⟨192, 0, 0⟩, [0, 1]⟩ ∧
      ∀ i, i < (decFirst [0x41, 0x83, 0x00, 0x00] zeros zeros).pCurOutData + 2 →
        s1.out i = copyBytes 2 (decFirst [0x41, 0x83, 0x00, 0x00] zeros zeros).out (decFirst [0x41, 0x83, 0x00, 0x00] zeros zeros).pCurOutData
          (((decFirst [0x41, 0x83, 0x00, 0x00] zeros zeros).pCurOutData : Int) - (decFirst [0x41, 0x83, 0x00, 0x00] zeros zeros).nMatchOffset).toNat i :=
  ⟨by decide,
    (rep_match_decoding 20 [0x41, 0x83, 0x00, 0x00] zeros 3 0 (decFirst [0x41, 0x83, 0x00, 0x00] zeros zeros) 2
      ⟨2, ⟨8, 0, 0⟩, ⟨48, 0, 0⟩, [0, 1]⟩ ⟨2, ⟨2, 0, 0⟩, ⟨192, 0, 0⟩, [0, 1]⟩
      (by decide) (by decide) (by decide) (by decide) (by decide)).1
      ⟨by decide, by decide, by decide⟩⟩

/-! ## The ShortMatch token -/

/-- A short match is applied when its source starts in the buffer and its end
is within the capacity, and is refused otherwise. -/
theorem decShort_accepts (inp : List Nat) (past : Nat → Nat) (cap : Nat) (s : DState)
    (h0 : inByte inp past s.rd.pInputData ≠ 0) :
    (inByte inp past s.rd.pInputData >>> 1 ≤ s.pCurOutData ∧
        s.pCurOutData + (2 + inByte inp past s.rd.pInputData % 2) ≤ cap →
      ∃ s1, decShort inp past cap s = .next s1) ∧
    (¬ (inByte inp past s.rd.pInputData >>> 1 ≤ s.pCurOutData ∧
        s.pCurOutData + (2 + inByte inp past s.rd.pInputData % 2) ≤ cap) →
      ∃ s1, decShort inp past cap s = .ret SIZE_ERR s1) := by
  unfold decShort
  simp only [rawByte, Nat.and_one_is_mod]
  generalize inByte inp past s.rd.pInputData = cmd at h0 ⊢
  rw [if_neg h0]
  constructor
  · intro h
    rw [if_pos (by omega)]
    split_ifs with a b
    · exact ⟨_, rfl⟩
    · exact ⟨_, rfl⟩
    · omega
  · intro h
    split_ifs with a b c
    · omega
    · omega
    · exact ⟨_, rfl⟩
    · exact ⟨_, rfl⟩

/-- C17 (amended). ShortMatch decoding: after the prefix bits `110` and a raw
command byte `cmd ≠ 0`, with `len = 2 + (cmd & 1)`: the token is applied exactly
when `cmd >> 1 ≤ pos` and `pos + len ≤ capacity`; it then copies `len` bytes from
`output[pos - (cmd >> 1) ..]` to `output[pos ..]` left to right, sets
`nMatchOffset` to `cmd >> 1` and clears `nFollowsLiteral`; otherwise, so whenever
`pos + len` exceeds the capacity, the call returns the error value. The offset
`cmd >> 1` is in `[0, 127]` and the length is 2 or 3. -/
theorem short_match_decoding (fuel : Nat) (inp : List Nat) (past : Nat → Nat) (cap nFlags : Nat)
    (s : DState) (hk : (tokenKind inp s.rd).1 = 2)
    (hc : inByte inp past (tokenKind inp s.rd).2.pInputData ≠ 0) :
    (inByte inp past (tokenKind inp s.rd).2.pInputData >>> 1 ≤ s.pCurOutData ∧
        s.pCurOutData + (2 + (inByte inp past (tokenKind inp s.rd).2.pInputData &&& 1)) ≤ cap →
      ∃ s1, decStep fuel inp past cap nFlags s = some (.next s1) ∧
        s1.pCurOutData =
          s.pCurOutData + (2 + (inByte inp past (tokenKind inp s.rd).2.pInputData &&& 1)) ∧
        s1.nMatchOffset =
          ((inByte inp past (tokenKind inp s.rd).2.pInputData >>> 1 : Nat) : Int) ∧
        s1.nFollowsLiteral = false ∧
        s1.rd = (rawByte inp past (tokenKind inp s.rd).2).2 ∧
        ∀ i, i < s.pCurOutData +
            (2 + (inByte inp past (tokenKind inp s.rd).2.pInputData &&& 1)) →
          s1.out i = copyBytes (2 + (inByte inp past (tokenKind inp s.rd).2.pInputData &&& 1))
            s.out s.pCurOutData
            (s.pCurOutData - inByte inp past (tokenKind inp s.rd).2.pInputData >>> 1) i) ∧
    (¬ (inByte inp past (tokenKind inp s.rd).2.pInputData >>> 1 ≤ s.pCurOutData ∧
        s.pCurOutData + (2 + (inByte inp past (tokenKind inp s.rd).2.pInputData &&& 1)) ≤ cap) →
      (∃ s1, decStep fuel inp past cap nFlags s = some (.ret SIZE_ERR s1)) ∧
      ∀ f, (decLoop fuel inp past cap nFlags (f + 1) s).map Prod.fst = some SIZE_ERR) ∧
    inByte inp past (tokenKind inp s.rd).2.pInputData >>> 1 ≤ 127 ∧
    (2 + (inByte inp past (tokenKind inp s.rd).2.pInputData &&& 1) = 2 ∨
      2 + (inByte inp past (tokenKind inp s.rd).2.pInputData &&& 1) = 3) := by
  have hlt := inByte_lt inp past (tokenKind inp s.rd).2.pInputData
  have hacc := decShort_accepts inp past cap { s with rd := (tokenKind inp s.rd).2 } hc
  have hst := decStep_kind2 fuel inp past cap nFlags s hk
  simp only [Nat.and_one_is_mod]
  refine ⟨?_, ?_, ?_, ?_⟩
  · intro h
    obtain ⟨s1, hs1⟩ := hacc.1 h
    obtain ⟨-, a2, a3, a4, a5, -, -, a8⟩ := decShort_next inp past cap _ s1 hs1
    exact ⟨s1, by rw [hst, hs1], a2, a4, a5, a3, a8⟩
  · intro h
    obtain ⟨s1, hs1⟩ := hacc.2 h
    have e : decStep fuel inp past cap nFlags s = some (.ret SIZE_ERR s1) := by rw [hst, hs1]
    exact ⟨⟨s1, e⟩, fun f => decLoop_of_ret fuel inp past cap nFlags f SIZE_ERR s s1 e⟩
  · rw [Nat.shiftRight_eq_div_pow]
    omega
  · omega

/-- C17, witness: in `[0x41, 0xD8, 0x03, 0x00]` the first token is a ShortMatch
with command byte `0x03`: offset 1 and length 3 at output length 1, applied with
capacity 4; the call returns 4 and the output is four bytes `0x41`. -/
theorem short_match_decoding_witness :
    (apultra_decompress [0x41, 0xD8, 0x03, 0x00] zeros zeros 4 0).map
        (fun x => (x.1, take x.2.out 4)) = some (4, [0x41, 0x41, 0x41, 0x41]) ∧
    inByte [0x41, 0xD8, 0x03, 0x00] zeros (tokenKind [0x41, 0xD8, 0x03, 0x00] (decFirst [0x41, 0xD8, 0x03, 0x00] zeros zeros).rd).2.pInputData = 3 ∧
    ∃ s1, decStep 20 [0x41, 0xD8, 0x03, 0x00] zeros 4 0 (decFirst [0x41, 0xD8, 0x03, 0x00] zeros zeros) = some (.next s1) ∧
      s1.pCurOutData = (decFirst [0x41, 0xD8, 0x03, 0x00] zeros zeros).pCurOutData +
        (2 + (inByte [0x41, 0xD8, 0x03, 0x00] zeros (tokenKind [0x41, 0xD8, 0x03, 0x00] (decFirst [0x41, 0xD8, 0x03, 0x00] zeros zeros).rd).2.pInputData &&& 1)) ∧
      s1.nMatchOffset = ((inByte [0x41, 0xD8, 0x03, 0x00] zeros (tokenKind [0x41, 0xD8, 0x03, 0x00] (decFirst [0x41, 0xD8, 0x03, 0x00] zeros zeros).rd).2.pInputData >>> 1 : Nat) : Int) ∧
      s1.nFollowsLiteral = false ∧
      s1.rd = (rawByte [0x41, 0xD8, 0x03, 0x00] zeros (tokenKind [0x41, 0xD8, 0x03, 0x00] (decFirst [0x41, 0xD8, 0x03, 0x00] zeros zeros).rd).2).2 ∧
      ∀ i, i < (decFirst [0x41, 0xD8, 0x03, 0x00] zeros zeros).pCurOutData +
          (2 + (inByte [0x41, 0xD8, 0x03, 0x00] zeros (tokenKind [0x41, 0xD8, 0x03, 0x00] (decFirst [0x41, 0xD8, 0x03, 0x00] zeros zeros).rd).2.pInputData &&& 1)) →
        s1.out i = copyBytes (2 + (inByte [0x41, 0xD8, 0x03, 0x00] zeros (tokenKind [0x41, 0xD8, 0x03, 0x00] (decFirst [0x41, 0xD8, 0x03, 0x00] zeros zeros).rd).2.pInputData &&& 1))
          (decFirst [0x41, 0xD8, 0x03, 0x00] zeros zeros).out (decFirst [0x41, 0xD8, 0x03, 0x00] zeros zeros).pCurOutData
          ((decFirst [0x41, 0xD8, 0x03, 0x00] zeros zeros).pCurOutData - inByte [0x41, 0xD8, 0x03, 0x00] zeros (tokenKind [0x41, 0xD8, 0x03, 0x00] (decFirst [0x41, 0xD8, 0x03, 0x00] zeros zeros).rd).2.pInputData >>> 1) i :=
  ⟨by decide, by decide,
    (short_match_decoding 20 [0x41, 0xD8, 0x03, 0x00] zeros 4 0 (decFirst [0x41, 0xD8, 0x03, 0x00] zeros zeros) (by decide) (by decide)).1
      ⟨by decide, by decide⟩⟩

/-- C17, counterexample: in `[0x41, 0xD8, 0x01, 0x00]` the first token is a
ShortMatch with command byte `0x01`. With capacity 4 the pass applies it with
offset 0, which is not in `[1, 127]`: the output length goes from 1 to 4,
`nMatchOffset` becomes 0, and the call returns 4. -/
theorem short_match_offset_zero_accepted :
    (tokenKind [0x41, 0xD8, 0x01, 0x00] (decFirst [0x41, 0xD8, 0x01, 0x00] zeros zeros).rd).1 = 2 ∧
    inByte [0x41, 0xD8, 0x01, 0x00] zeros (tokenKind [0x41, 0xD8, 0x01, 0x00] (decFirst [0x41, 0xD8, 0x01, 0x00] zeros zeros).rd).2.pInputData = 1 ∧
    (decPasses 20 [0x41, 0xD8, 0x01, 0x00] zeros 4 0 1 (decFirst [0x41, 0xD8, 0x01, 0x00] zeros zeros)).map
      (fun s1 => (s1.pCurOutData, s1.nMatchOffset, s1.nFollowsLiteral)) = some (4, 0, false) ∧
    (apultra_decompress [0x41, 0xD8, 0x01, 0x00] zeros zeros 4 0).map Prod.fst = some 4 :=
  ⟨by decide, by decide, by decide, by decide⟩

/-! ## The NibbleMatch token -/

theorem toU32_small (b : Nat) (h : b ≤ 1) : toU32 (b : Int) = b := by
  unfold toU32
  omega

/-- Four bits read one after the other form the nibble, first bit highest. -/
theorem readNibble_bits (inp : List Nat) (r : BitReader) (i b3 b2 b1 b0 : Nat)
    (h : (readBits inp i 4 r).1 = [(b3 : Int), (b2 : Int), (b1 : Int), (b0 : Int)])
    (h3 : b3 ≤ 1) (h2 : b2 ≤ 1) (h1 : b1 ≤ 1) (h0 : b0 ≤ 1) :
    readNibble inp r i = (8 * b3 + 4 * b2 + 2 * b1 + b0, (readBits inp i 4 r).2) := by
  simp only [readBits, List.cons.injEq, and_true] at h
  obtain ⟨e3, e2, e1, e0⟩ := h
  unfold readNibble
  simp only [readBits, e3, e2, e1, e0, toU32_small _ h3, toU32_small _ h2, toU32_small _ h1,
    toU32_small _ h0]
  congr 1
  interval_cases b3 <;> interval_cases b2 <;> interval_cases b1 <;> interval_cases b0 <;> rfl

/-- C18. NibbleMatch decoding: after the prefix bits `111` the four bits
`b3 b2 b1 b0` read next from the nibble register give `n = 8 b3 + 4 b2 + 2 b1 +
b0`. With `pos` below the capacity, the pass stores 0 at `output[pos]` when
`n = 0`, and `output[pos - n]` when `0 < n ≤ pos`; in both cases the output
length grows by 1, `nFollowsLiteral` is set and `nMatchOffset` is unchanged. When
`n > pos`, or `pos` is not below the capacity, the call returns the error
value. -/
theorem nibble_match_decoding (fuel : Nat) (inp : List Nat) (past : Nat → Nat)
    (cap nFlags : Nat) (s : DState) (b3 b2 b1 b0 : Nat)
    (hk : (tokenKind inp s.rd).1 = 3)
    (hb : (readBits inp (nibbleIdx nFlags) 4 (tokenKind inp s.rd).2).1 =
      [(b3 : Int), (b2 : Int), (b1 : Int), (b0 : Int)])
    (h3 : b3 ≤ 1) (h2 : b2 ≤ 1) (h1 : b1 ≤ 1) (h0 : b0 ≤ 1) :
    (8 * b3 + 4 * b2 + 2 * b1 + b0 ≤ s.pCurOutData ∧ s.pCurOutData < cap →
      ∃ s1, decStep fuel inp past cap nFlags s = some (.next s1) ∧
        s1.out = store s.out s.pCurOutData
          (if 8 * b3 + 4 * b2 + 2 * b1 + b0 = 0 then 0
            else s.out (s.pCurOutData - (8 * b3 + 4 * b2 + 2 * b1 + b0))) ∧
        s1.pCurOutData = s.pCurOutData + 1 ∧ s1.nFollowsLiteral = true ∧
        s1.nMatchOffset = s.nMatchOffset ∧
        s1.rd = (readBits inp (nibbleIdx nFlags) 4 (tokenKind inp s.rd).2).2 ∧
        s1.writes = s.writes ++ [s.pCurOutData]) ∧
    (s.pCurOutData < 8 * b3 + 4 * b2 + 2 * b1 + b0 ∨ cap ≤ s.pCurOutData →
      (∃ s1, decStep fuel inp past cap nFlags s = some (.ret SIZE_ERR s1)) ∧
      ∀ f, (decLoop fuel inp past cap nFlags (f + 1) s).map Prod.fst = some SIZE_ERR) := by
  have hn := readNibble_bits inp (tokenKind inp s.rd).2 (nibbleIdx nFlags) b3 b2 b1 b0 hb
    h3 h2 h1 h0
  have hst : decStep fuel inp past cap nFlags s =
      some (decNibble inp cap nFlags { s with rd := (tokenKind inp s.rd).2 }) := by
    rw [decStep_eq, hk]
    simp
  generalize 8 * b3 + 4 * b2 + 2 * b1 + b0 = n at hn ⊢
  constructor
  · intro h
    by_cases hz : n = 0
    · refine ⟨⟨(readBits inp (nibbleIdx nFlags) 4 (tokenKind inp s.rd).2).2, s.pCurOutData + 1,
        store s.out s.pCurOutData 0, s.nMatchOffset, true, s.writes ++ [s.pCurOutData]⟩,
        ?_, ?_, rfl, rfl, rfl, rfl, rfl⟩
      · rw [hst]
        unfold decNibble
        simp only [hn]
        rw [if_neg (by simp [hz]), if_pos (by omega)]
      · simp only [hz, if_true]
    · refine ⟨⟨(readBits inp (nibbleIdx nFlags) 4 (tokenKind inp s.rd).2).2, s.pCurOutData + 1,
        store s.out s.pCurOutData (s.out (s.pCurOutData - n)), s.nMatchOffset, true,
        s.writes ++ [s.pCurOutData]⟩, ?_, ?_, rfl, rfl, rfl, rfl, rfl⟩
      · rw [hst]
        unfold decNibble
        simp only [hn]
        rw [if_pos hz, if_pos (by omega)]
        have e : ((s.pCurOutData : Int) - (n : Nat)).toNat = s.pCurOutData - n := by omega
        simp only [e]
      · simp only [hz, if_false]
  · intro h
    have e : decStep fuel inp past cap nFlags s = some (.ret SIZE_ERR
        ⟨(readBits inp (nibbleIdx nFlags) 4 (tokenKind inp s.rd).2).2, s.pCurOutData, s.out,
          s.nMatchOffset, true, s.writes⟩) := by
      rw [hst]
      unfold decNibble
      simp only [hn]
      by_cases hz : n = 0
      · rw [if_neg (by simp [hz]), if_neg (by omega)]
      · rw [if_pos hz, if_neg (by omega)]
    exact ⟨⟨_, e⟩, fun f => decLoop_of_ret fuel inp past cap nFlags f SIZE_ERR s _ e⟩

/-- C18, witness: in `[0x41, 0xE3, 0x80, 0x00]` the first token is a NibbleMatch
with the bits `0001`, which copies `output[0]`; in `[0x41, 0xE1, 0x80, 0x00]` it
is a NibbleMatch with the bits `0000`, which appends a zero byte. With flags 0 and
capacity 2 the outputs are `[0x41, 0x41]` and `[0x41, 0x00]`. -/
theorem nibble_match_decoding_witness :
    (apultra_decompress [0x41, 0xE3, 0x80, 0x00] zeros (fun _ => 9) 2 0).map
        (fun x => (x.1, take x.2.out 2)) = some (2, [0x41, 0x41]) ∧
    (apultra_decompress [0x41, 0xE1, 0x80, 0x00] zeros (fun _ => 9) 2 0).map
        (fun x => (x.1, take x.2.out 2)) = some (2, [0x41, 0x00]) ∧
    (∃ s1, decStep 20 [0x41, 0xE3, 0x80, 0x00] zeros 2 0 (decFirst [0x41, 0xE3, 0x80, 0x00] zeros zeros) = some (.next s1) ∧
      s1.out = store (decFirst [0x41, 0xE3, 0x80, 0x00] zeros zeros).out (decFirst [0x41, 0xE3, 0x80, 0x00] zeros zeros).pCurOutData
        (if 8 * 0 + 4 * 0 + 2 * 0 + 1 = 0 then 0
          else (decFirst [0x41, 0xE3, 0x80, 0x00] zeros zeros).out ((decFirst [0x41, 0xE3, 0x80, 0x00] zeros zeros).pCurOutData - (8 * 0 + 4 * 0 + 2 * 0 + 1))) ∧
      s1.pCurOutData = (decFirst [0x41, 0xE3, 0x80, 0x00] zeros zeros).pCurOutData + 1 ∧ s1.nFollowsLiteral = true ∧
      s1.nMatchOffset = (decFirst [0x41, 0xE3, 0x80, 0x00] zeros zeros).nMatchOffset ∧
      s1.rd = (readBits [0x41, 0xE3, 0x80, 0x00] (nibbleIdx 0) 4 (tokenKind [0x41, 0xE3, 0x80, 0x00] (decFirst [0x41, 0xE3, 0x80, 0x00] zeros zeros).rd).2).2 ∧
      s1.writes = (decFirst [0x41, 0xE3, 0x80, 0x00] zeros zeros).writes ++ [(decFirst [0x41, 0xE3, 0x80, 0x00] zeros zeros).pCurOutData]) :=
  ⟨by decide, by decide,
    (nibble_match_decoding 20 [0x41, 0xE3, 0x80, 0x00] zeros 2 0 (decFirst [0x41, 0xE3, 0x80, 0x00] zeros zeros) 0 0 0 1 (by decide) (by decide)
      (by decide) (by decide) (by decide) (by decide)).1 ⟨by decide, by decide⟩⟩

/-! ## Standard gamma2 codes -/

theorem readBits_two (inp : List Nat) (i n : Nat) (r : BitReader) :
    readBits inp i (n + 2) r =
      ((apultra_read_bit inp r i).1 ::
        (apultra_read_bit inp (apultra_read_bit inp r i).2 i).1 ::
        (readBits inp i n (apultra_read_bit inp (apultra_read_bit inp r i).2 i).2).1,
       (readBits inp i n (apultra_read_bit inp (apultra_read_bit inp r i).2 i).2).2) := rfl

theorem binVal_ge : ∀ (bs : List Bool) (v : Nat), v * 2 ^ bs.length ≤ binVal v bs := by
  intro bs
  induction bs with
  | nil => intro v; simp [binVal]
  | cons b r ih =>
    intro v
    unfold binVal
    have := ih (2 * v + b.toNat)
    rw [List.length_cons, pow_succ]
    have h2 : 2 * v * 2 ^ r.length ≤ (2 * v + b.toNat) * 2 ^ r.length :=
      Nat.mul_le_mul_right _ (by omega)
    calc v * (2 ^ r.length * 2) = 2 * v * 2 ^ r.length := by ring
      _ ≤ _ := h2
      _ ≤ _ := this

theorem binVal_lt : ∀ (bs : List Bool) (v : Nat), binVal v bs < (v + 1) * 2 ^ bs.length := by
  intro bs
  induction bs with
  | nil => intro v; simp [binVal]
  | cons b r ih =>
    intro v
    unfold binVal
    have := ih (2 * v + b.toNat)
    rw [List.length_cons, pow_succ]
    have hb : b.toNat ≤ 1 := Bool.toNat_le b
    have h2 : (2 * v + b.toNat + 1) * 2 ^ r.length ≤ (2 * v + 2) * 2 ^ r.length :=
      Nat.mul_le_mul_right _ (by omega)
    calc binVal (2 * v + b.toNat) r < (2 * v + b.toNat + 1) * 2 ^ r.length := this
      _ ≤ (2 * v + 2) * 2 ^ r.length := h2
      _ = (v + 1) * (2 ^ r.length * 2) := by ring

theorem binVal_append : ∀ (xs ys : List Bool) (v : Nat),
    binVal v (xs ++ ys) = binVal (binVal v xs) ys := by
  intro xs
  induction xs with
  | nil => intro ys v; rfl
  | cons b r ih =>
    intro ys v
    simp only [List.cons_append, binVal]
    exact ih ys _

/-- One assignment `v = (v << 1) + bit` without wrap-around. -/
theorem acc_step (v : Nat) (b : Bool) (h : 2 * v + b.toNat < 4294967296) :
    (toU32 (((v <<< 1) % 4294967296 : Nat) + (b.toNat : Int))) % 4294967296 =
      2 * v + b.toNat := by
  have hb : b.toNat ≤ 1 := Bool.toNat_le b
  rw [Nat.shiftLeft_eq, pow_one]
  unfold toU32
  omega

/-- The standard loop on a standard code, from any accumulator. -/
theorem gamma2Std_code (inp : List Nat) (i : Nat) :
    ∀ (bs : List Bool) (fuel v : Nat) (r : BitReader), bs ≠ [] → bs.length ≤ fuel →
      binVal v bs < 4294967296 →
      (readBits inp i (2 * bs.length) r).1 = stdCode bs →
      gamma2Std inp i fuel v r = some (binVal v bs, (readBits inp i (2 * bs.length) r).2) := by
  intro bs
  induction bs with
  | nil => intro fuel v r h; exact absurd rfl h
  | cons b rest ih =>
    intro fuel v r _ hf hv hrd
    obtain ⟨f, rfl⟩ : ∃ f, fuel = f + 1 := ⟨fuel - 1, by simp only [List.length_cons] at hf; omega⟩
    have hlen : 2 * (b :: rest).length = 2 * rest.length + 2 := by
      simp only [List.length_cons]
      omega
    rw [hlen, readBits_two] at hrd ⊢
    have hstep : 2 * v + b.toNat < 4294967296 := by
      have := binVal_ge rest (2 * v + b.toNat)
      have h1 : 1 ≤ 2 ^ rest.length := Nat.one_le_two_pow
      unfold binVal at hv
      calc 2 * v + b.toNat = (2 * v + b.toNat) * 1 := by ring
        _ ≤ (2 * v + b.toNat) * 2 ^ rest.length := Nat.mul_le_mul_left _ h1
        _ ≤ _ := this
        _ < _ := hv
    unfold gamma2Std
    simp only []
    cases rest with
    | nil =>
      simp only [stdCode, List.cons.injEq] at hrd
      obtain ⟨e1, e2, -⟩ := hrd
      rw [e1, e2, acc_step v b hstep]
      simp [binVal, readBits]
    | cons c rest2 =>
      simp only [stdCode, List.cons.injEq] at hrd
      obtain ⟨e1, e2, e3⟩ := hrd
      rw [e1, e2, acc_step v b hstep]
      simp only [show ¬ ((1 : Int) < 0) by decide, if_false, ne_eq, one_ne_zero,
        not_false_eq_true, if_true]
      have := ih f (2 * v + b.toNat)
        (apultra_read_bit inp (apultra_read_bit inp r i).2 i).2 (by simp)
        (by simp only [List.length_cons] at hf ⊢; omega) (by unfold binVal at hv; exact hv) e3
      rw [this]
      rfl

theorem binVal_snoc (xs : List Bool) (b : Bool) (v : Nat) :
    binVal v (xs ++ [b]) = 2 * binVal v xs + b.toNat := by
  rw [binVal_append]
  rfl

/-- The value bits are determined by the number they write after a leading 1. -/
theorem binVal_inj : ∀ (n : Nat) (xs ys : List Bool), xs.length = n →
    binVal 1 xs = binVal 1 ys → xs = ys := by
  intro n
  induction n with
  | zero =>
    intro xs ys hx h
    have hxs : xs = [] := List.length_eq_zero.mp hx
    subst hxs
    cases ys with
    | nil => rfl
    | cons c r =>
      have := binVal_ge (c :: r) 1
      have h2 : 2 ≤ 2 ^ (c :: r).length := by
        rw [List.length_cons, pow_succ]
        have : 1 ≤ 2 ^ r.length := Nat.one_le_two_pow
        omega
      simp only [binVal] at h
      simp only [binVal] at this
      omega
  | succ n ih =>
    intro xs ys hx h
    obtain ⟨xs0, a, rfl⟩ : ∃ xs0 a, xs = xs0 ++ [a] :=
      ⟨xs.dropLast, xs.getLast (by intro e; rw [e] at hx; simp at hx),
        (List.dropLast_append_getLast _).symm⟩
    have hx0 : xs0.length = n := by simpa using hx
    rcases List.eq_nil_or_concat ys with hy | ⟨ys0, c, hy⟩
    · subst hy
      have := binVal_ge (xs0 ++ [a]) 1
      have h2 : 2 ≤ 2 ^ (xs0 ++ [a]).length := by
        rw [List.length_append, List.length_singleton, pow_succ]
        have : 1 ≤ 2 ^ xs0.length := Nat.one_le_two_pow
        omega
      simp only [binVal] at h
      omega
    · subst hy
      rw [List.concat_eq_append] at h ⊢
      rw [binVal_snoc, binVal_snoc] at h
      have ha : a.toNat ≤ 1 := Bool.toNat_le a
      have hc : c.toNat ≤ 1 := Bool.toNat_le c
      have e1 : binVal 1 xs0 = binVal 1 ys0 := by omega
      have e2 : a.toNat = c.toNat := by omega
      have e3 : a = c := by
        cases a <;> cases c <;> simp_all
      rw [ih xs0 ys0 hx0 e1, e3]

/-- Every number from 2 on is written by some value bits after a leading 1. -/
theorem binVal_surj : ∀ (n v : Nat), v ≤ n → 2 ≤ v → ∃ bs, bs ≠ [] ∧ binVal 1 bs = v := by
  intro n
  induction n with
  | zero => intro v h1 h2; omega
  | succ n ih =>
    intro v h1 h2
    by_cases h4 : v < 4
    · by_cases h3 : v = 2
      · exact ⟨[false], by simp, by rw [h3]; rfl⟩
      · exact ⟨[true], by simp, by
          have : v = 3 := by omega
          rw [this]
          rfl⟩
    · obtain ⟨bs, -, hv⟩ := ih (v / 2) (by omega) (by omega)
      refine ⟨bs ++ [decide (v % 2 = 1)], by simp, ?_⟩
      rw [binVal_snoc, hv]
      by_cases hp : v % 2 = 1
      · simp only [hp, decide_True, Bool.toNat_true]
        omega
      · simp only [hp, decide_False, Bool.toNat_false]
        omega

/-- C19. Standard-mode gamma2: for value bits `b1 ... bk` with `1 ≤ k ≤ 30`,
`apultra_read_gamma2` on register 0, given fuel for `k` passes of its loop and
reading the bits `b1, 1, b2, 1, ..., bk, 0`, returns the number written
`1 b1 ... bk` in binary and leaves the reader as after exactly `2k` reads of a
bit. That number is at least 2 and below `2^31`, and every number from 2 to
`2^31 - 1` is the value of exactly one sequence of 1 to 30 value bits. -/
theorem gamma2_standard :
    (∀ (fuel : Nat) (inp : List Nat) (r : BitReader) (bs : List Bool),
      bs ≠ [] → bs.length ≤ 30 → bs.length ≤ fuel →
      (readBits inp 0 (2 * bs.length) r).1 = stdCode bs →
      apultra_read_gamma2 fuel inp r 0 =
        some (binVal 1 bs, (readBits inp 0 (2 * bs.length) r).2)) ∧
    (∀ bs : List Bool, bs ≠ [] → bs.length ≤ 30 →
      2 ≤ binVal 1 bs ∧ binVal 1 bs < 2147483648 ∧ (stdCode bs).length = 2 * bs.length) ∧
    (∀ v : Nat, 2 ≤ v → v < 2147483648 →
      ∃! bs : List Bool, bs ≠ [] ∧ bs.length ≤ 30 ∧ binVal 1 bs = v) := by
  have hrange : ∀ bs : List Bool, bs ≠ [] → bs.length ≤ 30 →
      2 ≤ binVal 1 bs ∧ binVal 1 bs < 2147483648 := by
    intro bs hne hlen
    have h1 := binVal_ge bs 1
    have h2 := binVal_lt bs 1
    have h3 : 2 ^ bs.length ≤ 2 ^ 30 := Nat.pow_le_pow_right (by decide) hlen
    have h4 : 2 ^ 1 ≤ 2 ^ bs.length := Nat.pow_le_pow_right (by decide) (by
      cases bs with
      | nil => exact absurd rfl hne
      | cons b r => simp)
    norm_num at h3 h4
    omega
  refine ⟨?_, ?_, ?_⟩
  · intro fuel inp r bs hne hlen hf hrd
    unfold apultra_read_gamma2
    rw [if_pos rfl]
    exact gamma2Std_code inp 0 bs fuel 1 r hne hf (by have := (hrange bs hne hlen).2; omega) hrd
  · intro bs hne hlen
    refine ⟨(hrange bs hne hlen).1, (hrange bs hne hlen).2, ?_⟩
    clear hlen hne
    induction bs with
    | nil => rfl
    | cons b r ih =>
      cases r with
      | nil => rfl
      | cons c r2 =>
        simp only [stdCode, List.length_cons] at ih ⊢
        omega
  · intro v h2 hlt
    obtain ⟨bs, hne, hv⟩ := binVal_surj v v (le_refl _) h2
    have hlen : bs.length ≤ 30 := by
      by_contra hcon
      have h1 := binVal_ge bs 1
      have h3 : 2 ^ 31 ≤ 2 ^ bs.length := Nat.pow_le_pow_right (by decide) (by omega)
      norm_num at h3
      omega
    refine ⟨bs, ⟨hne, hlen, hv⟩, ?_⟩
    intro ys ⟨_, _, hy⟩
    exact binVal_inj ys.length ys bs rfl (by rw [hy, hv])

/-- C19, witness: the byte `0xD8` holds the bits `1,1, 0,1, 1,0`, the standard
code of the value bits `1 0 1`; the value read is 13, binary `1101`, and six bits
are consumed. -/
theorem gamma2_standard_witness :
    (readBits [0xD8] 0 (2 * [true, false, true].length) ⟨0, ⟨0, 0, 0⟩, ⟨0, 0, 0⟩, []⟩).1 =
      stdCode [true, false, true] ∧
    binVal 1 [true, false, true] = 13 ∧
    (readBits [0xD8] 0 (2 * [true, false, true].length) ⟨0, ⟨0, 0, 0⟩, ⟨0, 0, 0⟩, []⟩).2 =
      ⟨1, ⟨2, 0, 0⟩, ⟨0, 0, 0⟩, [0]⟩ ∧
    apultra_read_gamma2 5 [0xD8] ⟨0, ⟨0, 0, 0⟩, ⟨0, 0, 0⟩, []⟩ 0 =
      some (binVal 1 [true, false, true],
        (readBits [0xD8] 0 (2 * [true, false, true].length) ⟨0, ⟨0, 0, 0⟩, ⟨0, 0, 0⟩, []⟩).2) :=
  ⟨by decide, by decide, by decide,
    gamma2_standard.1 5 [0xD8] ⟨0, ⟨0, 0, 0⟩, ⟨0, 0, 0⟩, []⟩ [true, false, true] (by decide) (by decide) (by decide)
      (by decide)⟩

/-! ## Enhanced gamma2 codes -/

/-- The enhanced loop on an enhanced code is the loop on the value bits. -/
theorem gamma2Enh_code (inp : List Nat) (i : Nat) :
    ∀ (bs : List Bool) (fuel : Nat) (l : Int) (v : Nat) (r : BitReader), bs ≠ [] →
      bs.length ≤ fuel →
      (readBits inp i (2 * bs.length) r).1 = enhCode bs →
      gamma2Enh inp i fuel l v r =
        some (enhLoop l v bs, (readBits inp i (2 * bs.length) r).2) := by
  intro bs
  induction bs with
  | nil => intro fuel l v r h; exact absurd rfl h
  | cons b rest ih =>
    intro fuel l v r _ hf hrd
    obtain ⟨f, rfl⟩ : ∃ f, fuel = f + 1 := ⟨fuel - 1, by simp only [List.length_cons] at hf; omega⟩
    have hlen : 2 * (b :: rest).length = 2 * rest.length + 2 := by
      simp only [List.length_cons]
      omega
    rw [hlen, readBits_two] at hrd ⊢
    unfold gamma2Enh enhLoop
    simp only []
    generalize (if l = 0 ∧ v ≥ 256 then toI32 v else l) = l1
    generalize (if l = 0 ∧ v ≥ 256 then 1 else v) = v0
    cases rest with
    | nil =>
      simp only [enhCode, List.cons.injEq] at hrd
      obtain ⟨e1, e2, -⟩ := hrd
      rw [e1, e2]
      simp only [show ¬ ((1 : Int) < 0) by decide, if_false, one_ne_zero, enhLoop, readBits,
        Nat.mul_zero]
      split_ifs <;> rfl
    | cons c rest2 =>
      simp only [enhCode, List.cons.injEq] at hrd
      obtain ⟨e1, e2, e3⟩ := hrd
      rw [e1, e2]
      simp only [show ¬ ((0 : Int) < 0) by decide, if_false, if_true]
      exact ih f l1 _ _ (by simp) (by simp only [List.length_cons] at hf ⊢; omega) e3

/-- While the accumulator stays below 256 at the head of the loop, the enhanced
loop shifts the value bits in and saves nothing. -/
theorem enhLoop_prefix : ∀ (xs ys : List Bool) (v : Nat),
    (xs = [] ∨ binVal v xs.dropLast < 256) →
    enhLoop 0 v (xs ++ ys) = enhLoop 0 (binVal v xs) ys := by
  intro xs
  induction xs with
  | nil => intro ys v _; rfl
  | cons b r ih =>
    intro ys v h
    have hd : binVal v (b :: r).dropLast < 256 := by
      rcases h with h | h
      · exact absurd h (by simp)
      · exact h
    have hv : v < 256 := by
      have := binVal_ge (b :: r).dropLast v
      have h1 : 1 ≤ 2 ^ (b :: r).dropLast.length := Nat.one_le_two_pow
      calc v = v * 1 := by ring
        _ ≤ v * 2 ^ (b :: r).dropLast.length := Nat.mul_le_mul_left _ h1
        _ ≤ _ := this
        _ < 256 := hd
    have hb : b.toNat ≤ 1 := Bool.toNat_le b
    simp only [List.cons_append, enhLoop, binVal]
    rw [if_neg (by omega), if_neg (by omega), acc_step v b (by omega)]
    apply ih
    by_cases hr : r = []
    · exact Or.inl hr
    · right
      rw [List.dropLast_cons_of_ne_nil hr] at hd
      exact hd

/-- Once a value is saved, the enhanced loop shifts the remaining value bits in
and recombines at the end. -/
theorem enhLoop_saved : ∀ (bs : List Bool) (l : Int) (v : Nat), l ≠ 0 →
    binVal v bs < 4294967296 →
    enhLoop l v bs = ((binVal v bs <<< 8) % 4294967296 + toU32 (l % 256)) % 4294967296 := by
  intro bs
  induction bs with
  | nil =>
    intro l v hl _
    simp only [enhLoop, binVal]
    rw [if_pos hl]
  | cons b r ih =>
    intro l v hl hv
    have hstep : 2 * v + b.toNat < 4294967296 := by
      have := binVal_ge r (2 * v + b.toNat)
      have h1 : 1 ≤ 2 ^ r.length := Nat.one_le_two_pow
      unfold binVal at hv
      calc 2 * v + b.toNat = (2 * v + b.toNat) * 1 := by ring
        _ ≤ (2 * v + b.toNat) * 2 ^ r.length := Nat.mul_le_mul_left _ h1
        _ ≤ _ := this
        _ < _ := hv
    simp only [enhLoop, binVal]
    rw [if_neg (by tauto), if_neg (by tauto), acc_step v b hstep]
    exact ih l _ hl (by unfold binVal at hv; exact hv)

theorem binVal_split : ∀ (bs : List Bool) (v : Nat),
    binVal v bs = v * 2 ^ bs.length + binVal 0 bs := by
  intro bs
  induction bs with
  | nil => intro v; simp [binVal]
  | cons b r ih =>
    intro v
    simp only [binVal, List.length_cons, pow_succ]
    rw [ih (2 * v + b.toNat), ih (2 * 0 + b.toNat)]
    ring

theorem binVal_lt_len (bs : List Bool) (v n : Nat) (h : bs.length ≤ n) :
    binVal v bs < (v + 1) * 2 ^ n := by
  have h1 := binVal_lt bs v
  have h2 : 2 ^ bs.length ≤ 2 ^ n := Nat.pow_le_pow_right (by decide) h
  calc binVal v bs < (v + 1) * 2 ^ bs.length := h1
    _ ≤ (v + 1) * 2 ^ n := Nat.mul_le_mul_left _ h2

theorem and_255 (n : Nat) : n &&& 255 = n % 256 := by
  have := Nat.and_pow_two_sub_one_eq_mod n 8
  simpa using this

/-- The enhanced loop on up to 30 value bits computes the value that the
specification gives. -/
theorem enhLoop_val (bs : List Bool) (hlen : bs.length ≤ 30) :
    enhLoop 0 1 bs = enhVal bs := by
  unfold enhVal
  by_cases h8 : bs.length ≤ 8
  · rw [if_pos h8]
    have := enhLoop_prefix bs [] 1 (by
      right
      have h1 := binVal_lt_len bs.dropLast 1 7 (by rw [List.length_dropLast]; omega)
      norm_num at h1
      exact h1)
    rw [List.append_nil] at this
    rw [this]
    rfl
  · rw [if_neg h8]
    have hl8 : (bs.take 8).length = 8 := by
      rw [List.length_take]
      omega
    have hd8 : (bs.drop 8).length = bs.length - 8 := List.length_drop _ _
    have hsplit := enhLoop_prefix (bs.take 8) (bs.drop 8) 1 (by
      right
      have h1 := binVal_lt_len (bs.take 8).dropLast 1 7 (by rw [List.length_dropLast, hl8])
      norm_num at h1
      exact h1)
    rw [List.take_append_drop] at hsplit
    rw [hsplit]
    have hge := binVal_ge (bs.take 8) 1
    have hlt := binVal_lt (bs.take 8) 1
    have hsp := binVal_split (bs.take 8) 1
    rw [hl8] at hge hlt hsp
    norm_num at hge hlt hsp
    generalize binVal 1 (bs.take 8) = v8 at hge hlt hsp ⊢
    generalize binVal 0 (bs.take 8) = lo at hsp ⊢
    have hup := binVal_lt_len (bs.drop 8) 1 22 (by rw [hd8]; omega)
    norm_num at hup
    cases hdr : bs.drop 8 with
    | nil =>
      rw [hdr] at hd8
      simp only [List.length_nil] at hd8
      omega
    | cons b9 rest =>
      rw [hdr] at hup
      have hb : b9.toNat ≤ 1 := Bool.toNat_le b9
      have hrec : enhLoop 0 v8 (b9 :: rest) = enhLoop (toI32 v8) (2 * 1 + b9.toNat) rest := by
        simp only [enhLoop]
        rw [if_pos ⟨trivial, hge⟩, if_pos ⟨trivial, hge⟩, acc_step 1 b9 (by omega)]
      have hup2 : binVal (2 * 1 + b9.toNat) rest < 8388608 := by
        have e : binVal 1 (b9 :: rest) = binVal (2 * 1 + b9.toNat) rest := rfl
        rw [← e]
        exact hup
      have e2 : binVal 1 (b9 :: rest) = binVal (2 * 1 + b9.toNat) rest := rfl
      rw [hrec, enhLoop_saved rest (toI32 v8) _
        (by rw [toI32_small v8 (by omega)]; omega) (by omega), e2,
        shl8_or _ lo (by omega), toI32_small v8 (by omega), Nat.shiftLeft_eq]
      generalize binVal (2 * 1 + b9.toNat) rest = up at hup2 ⊢
      have e3 : toU32 ((v8 : Int) % 256) = lo := by
        unfold toU32
        omega
      rw [e3]
      norm_num
      omega

/-- C20. Enhanced-mode gamma2: for value bits `b1 ... bk` with `1 ≤ k ≤ 30`,
`apultra_read_gamma2` on a register other than 0, given fuel for `k` passes of
its loop and reading the bits `b1, 0, b2, 0, ..., bk, 1`, returns the number
written `1 b1 ... bk` when `k ≤ 8`, and `((1 b9 ... bk) << 8) | (b1 ... b8)` when
`k > 8`, and leaves the reader as after `2k` reads of a bit. The number
`b1 ... b8` is the low byte of the accumulator `1 b1 ... b8`, which is the first
to reach 256. -/
theorem gamma2_enhanced :
    (∀ (fuel : Nat) (inp : List Nat) (r : BitReader) (i : Nat) (bs : List Bool),
      i ≠ 0 → bs ≠ [] → bs.length ≤ 30 → bs.length ≤ fuel →
      (readBits inp i (2 * bs.length) r).1 = enhCode bs →
      apultra_read_gamma2 fuel inp r i =
        some (enhVal bs, (readBits inp i (2 * bs.length) r).2)) ∧
    (∀ bs : List Bool, bs.length ≤ 8 → enhVal bs = binVal 1 bs) ∧
    (∀ bs : List Bool, 8 < bs.length →
      enhVal bs = (binVal 1 (bs.drop 8) <<< 8) ||| (binVal 1 (bs.take 8) &&& 255) ∧
      256 ≤ binVal 1 (bs.take 8) ∧
      ∀ j, j < 8 → binVal 1 (bs.take j) < 256) := by
  refine ⟨?_, ?_, ?_⟩
  · intro fuel inp r i bs hi hne hlen hf hrd
    unfold apultra_read_gamma2
    rw [if_neg hi, gamma2Enh_code inp i bs fuel 0 1 r hne hf hrd, enhLoop_val bs hlen]
  · intro bs h
    unfold enhVal
    rw [if_pos h]
  · intro bs h
    have hl8 : (bs.take 8).length = 8 := by
      rw [List.length_take]
      omega
    have hge := binVal_ge (bs.take 8) 1
    have hsp := binVal_split (bs.take 8) 1
    have hlo := binVal_lt (bs.take 8) 0
    rw [hl8] at hge hsp hlo
    norm_num at hge hsp hlo
    refine ⟨?_, hge, ?_⟩
    · unfold enhVal
      rw [if_neg (by omega), and_255]
      congr 1
      omega
    · intro j hj
      have h1 := binVal_lt_len (bs.take j) 1 7 (by rw [List.length_take]; omega)
      norm_num at h1
      exact h1

/-- C20, witness: on register 1 the bytes `0x80, 0x00, 0xC0` hold the enhanced
code of the nine value bits `1 0 0 0 0 0 0 0 1`: the accumulator reaches 384
after eight of them and is saved, and the value read is `(3 << 8) | 128 = 896`. -/
theorem gamma2_enhanced_witness :
    (readBits [0x80, 0x00, 0xC0] 1 (2 * [true, false, false, false, false, false, false, false, true].length) ⟨0, ⟨0, 0, 0⟩, ⟨0, 0, 0⟩, []⟩).1 = enhCode [true, false, false, false, false, false, false, false, true] ∧
    enhVal [true, false, false, false, false, false, false, false, true] = 896 ∧
    apultra_read_gamma2 10 [0x80, 0x00, 0xC0] ⟨0, ⟨0, 0, 0⟩, ⟨0, 0, 0⟩, []⟩ 1 =
      some (enhVal [true, false, false, false, false, false, false, false, true], (readBits [0x80, 0x00, 0xC0] 1 (2 * [true, false, false, false, false, false, false, false, true].length) ⟨0, ⟨0, 0, 0⟩, ⟨0, 0, 0⟩, []⟩).2) :=
  ⟨by decide, by decide,
    gamma2_enhanced.1 10 [0x80, 0x00, 0xC0] ⟨0, ⟨0, 0, 0⟩, ⟨0, 0, 0⟩, []⟩ 1 [true, false, false, false, false, false, false, false, true] (by decide) (by decide) (by decide)
      (by decide) (by decide)⟩

/-! ## The bit reader -/

/-- A read from an empty register with a byte left loads the byte and shifts. -/
theorem read_bit_load (inp : List Nat) (r : BitReader) (i : Nat)
    (hm : r.nCurBitMask.get i = 0) (hp : r.pInputData < inp.length) :
    apultra_read_bit inp r i =
      shiftBit ⟨r.pInputData + 1, r.nCurBitMask.set i 128,
        r.bits.set i (inp.getD r.pInputData 0 % 256), r.reads ++ [r.pInputData]⟩ i := by
  unfold apultra_read_bit
  rw [if_pos hm, if_neg (by omega)]

/-- A read from a register that holds bits shifts it and reads no byte. -/
theorem read_bit_shift (inp : List Nat) (r : BitReader) (i : Nat)
    (hm : r.nCurBitMask.get i ≠ 0) : apultra_read_bit inp r i = shiftBit r i := by
  unfold apultra_read_bit
  rw [if_neg hm]

/-- A read from an empty register with no byte left fails and changes nothing. -/
theorem read_bit_fail (inp : List Nat) (r : BitReader) (i : Nat)
    (hm : r.nCurBitMask.get i = 0) (hp : inp.length ≤ r.pInputData) :
    apultra_read_bit inp r i = (-1, r) := by
  unfold apultra_read_bit
  rw [if_pos hm, if_pos (by omega)]

/-- One shift of a register that was loaded with the byte `b` and has been
shifted `k` times. -/
theorem shiftBit_loaded (p : Nat) (m bs : Regs) (w : List Nat) (i b k : Nat) :
    shiftBit ⟨p, m.set i (128 >>> k), bs.set i (b * 2 ^ k % 256), w⟩ i =
      ((if (b * 2 ^ k % 256) &&& 128 ≠ 0 then 1 else 0),
        ⟨p, m.set i (128 >>> (k + 1)), bs.set i (b * 2 ^ (k + 1) % 256), w⟩) := by
  unfold shiftBit
  simp only [Regs.get_set, Regs.set_set]
  have e1 : ((b * 2 ^ k % 256) <<< 1) % 256 = b * 2 ^ (k + 1) % 256 := by
    rw [Nat.shiftLeft_eq, pow_one, pow_succ, ← Nat.mul_assoc]
    omega
  have e2 : (128 >>> k) >>> 1 = 128 >>> (k + 1) := by
    rw [← Nat.shiftRight_add]
  rw [e1, e2]

set_option maxRecDepth 100000 in
/-- The top bit of a byte shifted left `k` times is bit `7 - k` of the byte. -/
theorem top_bits (b : Nat) (h : b < 256) :
    ((if (b * 2 ^ 0 % 256) &&& 128 ≠ 0 then 1 else 0 : Int) = ((b / 128 % 2 : Nat) : Int)) ∧
    ((if (b * 2 ^ 1 % 256) &&& 128 ≠ 0 then 1 else 0 : Int) = ((b / 64 % 2 : Nat) : Int)) ∧
    ((if (b * 2 ^ 2 % 256) &&& 128 ≠ 0 then 1 else 0 : Int) = ((b / 32 % 2 : Nat) : Int)) ∧
    ((if (b * 2 ^ 3 % 256) &&& 128 ≠ 0 then 1 else 0 : Int) = ((b / 16 % 2 : Nat) : Int)) ∧
    ((if (b * 2 ^ 4 % 256) &&& 128 ≠ 0 then 1 else 0 : Int) = ((b / 8 % 2 : Nat) : Int)) ∧
    ((if (b * 2 ^ 5 % 256) &&& 128 ≠ 0 then 1 else 0 : Int) = ((b / 4 % 2 : Nat) : Int)) ∧
    ((if (b * 2 ^ 6 % 256) &&& 128 ≠ 0 then 1 else 0 : Int) = ((b / 2 % 2 : Nat) : Int)) ∧
    ((if (b * 2 ^ 7 % 256) &&& 128 ≠ 0 then 1 else 0 : Int) = ((b % 2 : Nat) : Int)) ∧
    b * 2 ^ 8 % 256 = 0 := by
  have key : ∀ y, y < 256 →
      ((if (y * 2 ^ 0 % 256) &&& 128 ≠ 0 then 1 else 0 : Int) = ((y / 128 % 2 : Nat) : Int)) ∧
      ((if (y * 2 ^ 1 % 256) &&& 128 ≠ 0 then 1 else 0 : Int) = ((y / 64 % 2 : Nat) : Int)) ∧
      ((if (y * 2 ^ 2 % 256) &&& 128 ≠ 0 then 1 else 0 : Int) = ((y / 32 % 2 : Nat) : Int)) ∧
      ((if (y * 2 ^ 3 % 256) &&& 128 ≠ 0 then 1 else 0 : Int) = ((y / 16 % 2 : Nat) : Int)) ∧
      ((if (y * 2 ^ 4 % 256) &&& 128 ≠ 0 then 1 else 0 : Int) = ((y / 8 % 2 : Nat) : Int)) ∧
      ((if (y * 2 ^ 5 % 256) &&& 128 ≠ 0 then 1 else 0 : Int) = ((y / 4 % 2 : Nat) : Int)) ∧
      ((if (y * 2 ^ 6 % 256) &&& 128 ≠ 0 then 1 else 0 : Int) = ((y / 2 % 2 : Nat) : Int)) ∧
      ((if (y * 2 ^ 7 % 256) &&& 128 ≠ 0 then 1 else 0 : Int) = ((y % 2 : Nat) : Int)) ∧
      y * 2 ^ 8 % 256 = 0 := by
    decide
  exact key b h

/-- The reads that follow the load of a byte `b`, from the register shifted `k`
times. -/
theorem readBits_loaded (inp : List Nat) (p : Nat) (m bs : Regs) (w : List Nat) (i b : Nat) :
    ∀ (n k : Nat), k + n ≤ 8 → 1 ≤ k →
      readBits inp i n ⟨p, m.set i (128 >>> k), bs.set i (b * 2 ^ k % 256), w⟩ =
        ((List.range' k n).map (fun j => if (b * 2 ^ j % 256) &&& 128 ≠ 0 then (1 : Int) else 0),
          ⟨p, m.set i (128 >>> (k + n)), bs.set i (b * 2 ^ (k + n) % 256), w⟩) := by
  intro n
  induction n with
  | zero => intro k _ _; rfl
  | succ n ih =>
    intro k hk h1
    have hm : (⟨p, m.set i (128 >>> k), bs.set i (b * 2 ^ k % 256), w⟩ : BitReader).nCurBitMask.get i
        ≠ 0 := by
      simp only [Regs.get_set]
      have hk7 : k ≤ 7 := by omega
      interval_cases k <;> decide
    unfold readBits
    simp only []
    rw [read_bit_shift inp _ i hm, shiftBit_loaded, ih (k + 1) (by omega) (by omega)]
    simp only [List.range', List.map_cons]
    rw [show k + 1 + n = k + (n + 1) by omega]

/-- C21. MSB-first bit reader: from a register with mask 0 and a byte `B` at the
byte cursor, eight calls of `apultra_read_bit` on the register return bit 7,
bit 6, ..., bit 0 of `B`; the first call moves the byte cursor by one and the
other seven leave it there; after the eight calls the register is empty again
(mask 0, bits 0), so that a ninth call, when a further byte is left, loads that
byte and returns its bit 7. A call on an empty register with no byte left returns
`-1` and changes nothing. -/
theorem bit_reader_msb_first (inp : List Nat) (r : BitReader) (i : Nat)
    (hm : r.nCurBitMask.get i = 0) :
    (r.pInputData < inp.length →
      (readBits inp i 8 r).1 =
        [((inp.getD r.pInputData 0 % 256 / 128 % 2 : Nat) : Int),
          ((inp.getD r.pInputData 0 % 256 / 64 % 2 : Nat) : Int),
          ((inp.getD r.pInputData 0 % 256 / 32 % 2 : Nat) : Int),
          ((inp.getD r.pInputData 0 % 256 / 16 % 2 : Nat) : Int),
          ((inp.getD r.pInputData 0 % 256 / 8 % 2 : Nat) : Int),
          ((inp.getD r.pInputData 0 % 256 / 4 % 2 : Nat) : Int),
          ((inp.getD r.pInputData 0 % 256 / 2 % 2 : Nat) : Int),
          ((inp.getD r.pInputData 0 % 256 % 2 : Nat) : Int)] ∧
      (apultra_read_bit inp r i).2.pInputData = r.pInputData + 1 ∧
      (readBits inp i 8 r).2 =
        ⟨r.pInputData + 1, r.nCurBitMask.set i 0, r.bits.set i 0, r.reads ++ [r.pInputData]⟩ ∧
      (readBits inp i 8 r).2.nCurBitMask.get i = 0 ∧
      (r.pInputData + 1 < inp.length →
        (apultra_read_bit inp (readBits inp i 8 r).2 i).1 =
          ((inp.getD (r.pInputData + 1) 0 % 256 / 128 % 2 : Nat) : Int) ∧
        (apultra_read_bit inp (readBits inp i 8 r).2 i).2.pInputData = r.pInputData + 2 ∧
        (apultra_read_bit inp (readBits inp i 8 r).2 i).2.reads =
          r.reads ++ [r.pInputData] ++ [r.pInputData + 1])) ∧
    (inp.length ≤ r.pInputData → apultra_read_bit inp r i = (-1, r)) := by
  refine ⟨?_, read_bit_fail inp r i hm⟩
  intro hp
  have hB : inp.getD r.pInputData 0 % 256 < 256 := Nat.mod_lt _ (by decide)
  obtain ⟨B, hBdef⟩ : ∃ B, B = inp.getD r.pInputData 0 % 256 := ⟨_, rfl⟩
  rw [← hBdef] at hB ⊢
  obtain ⟨t0, t1, t2, t3, t4, t5, t6, t7, t8⟩ := top_bits B hB
  have hfirst : apultra_read_bit inp r i =
      ((if (B * 2 ^ 0 % 256) &&& 128 ≠ 0 then 1 else 0),
        ⟨r.pInputData + 1, r.nCurBitMask.set i (128 >>> 1),
          r.bits.set i (B * 2 ^ 1 % 256), r.reads ++ [r.pInputData]⟩) := by
    rw [read_bit_load inp r i hm hp, ← hBdef]
    have := shiftBit_loaded (r.pInputData + 1) r.nCurBitMask r.bits (r.reads ++ [r.pInputData])
      i B 0
    rw [show (128 : Nat) >>> 0 = 128 by rfl, show B * 2 ^ 0 % 256 = B by omega] at this
    rw [show B * 2 ^ 0 % 256 = B by omega]
    exact this
  have hall : readBits inp i 8 r =
      ((if (B * 2 ^ 0 % 256) &&& 128 ≠ 0 then 1 else 0) ::
        (List.range' 1 7).map (fun j => if (B * 2 ^ j % 256) &&& 128 ≠ 0 then (1 : Int) else 0),
        ⟨r.pInputData + 1, r.nCurBitMask.set i (128 >>> (1 + 7)),
          r.bits.set i (B * 2 ^ (1 + 7) % 256), r.reads ++ [r.pInputData]⟩) := by
    rw [show (8 : Nat) = 7 + 1 by rfl]
    unfold readBits
    simp only []
    rw [hfirst]
    simp only []
    rw [readBits_loaded inp _ _ _ _ i B 7 1 (by omega) (by omega)]
  have hend : (readBits inp i 8 r).2 =
      ⟨r.pInputData + 1, r.nCurBitMask.set i 0, r.bits.set i 0, r.reads ++ [r.pInputData]⟩ := by
    rw [hall]
    simp only []
    rw [show (1 : Nat) + 7 = 8 by rfl, t8]
    rfl
  refine ⟨?_, ?_, hend, ?_, ?_⟩
  · rw [hall]
    simp only [List.range', List.map_cons, List.map_nil]
    rw [t0, t1, t2, t3, t4, t5, t6, t7]
  · rw [hfirst]
  · rw [hend]
    exact Regs.get_set _ _ _
  · intro hp2
    rw [hend]
    have hl := read_bit_load inp
      ⟨r.pInputData + 1, r.nCurBitMask.set i 0, r.bits.set i 0, r.reads ++ [r.pInputData]⟩ i
      (Regs.get_set _ _ _) hp2
    rw [hl]
    have hs := shiftBit_loaded (r.pInputData + 1 + 1) (r.nCurBitMask.set i 0) (r.bits.set i 0)
      (r.reads ++ [r.pInputData] ++ [r.pInputData + 1]) i
      (inp.getD (r.pInputData + 1) 0 % 256) 0
    have hC : inp.getD (r.pInputData + 1) 0 % 256 < 256 := Nat.mod_lt _ (by decide)
    have tC := (top_bits _ hC).1
    simp only [Regs.set_set] at hs ⊢
    rw [show (128 : Nat) >>> 0 = 128 by rfl,
      show inp.getD (r.pInputData + 1) 0 % 256 * 2 ^ 0 % 256 =
        inp.getD (r.pInputData + 1) 0 % 256 by omega] at hs
    rw [show inp.getD (r.pInputData + 1) 0 % 256 * 2 ^ 0 % 256 =
        inp.getD (r.pInputData + 1) 0 % 256 by omega] at tC
    rw [hs, tC]
    exact ⟨rfl, rfl, rfl⟩

/-- C21, witness: the byte `0xA5` (binary `1010 0101`) read from an empty
register 0, followed by the byte `0x80`. -/
theorem bit_reader_msb_first_witness :
    (readBits [0xA5, 0x80] 0 8 ⟨0, ⟨0, 0, 0⟩, ⟨0, 0, 0⟩, []⟩).1 = [1, 0, 1, 0, 0, 1, 0, 1] ∧
    (0 : Nat) < [0xA5, 0x80].length ∧
    ((readBits [0xA5, 0x80] 0 8 ⟨0, ⟨0, 0, 0⟩, ⟨0, 0, 0⟩, []⟩).1 =
        [(([0xA5, 0x80].getD 0 0 % 256 / 128 % 2 : Nat) : Int),
          (([0xA5, 0x80].getD 0 0 % 256 / 64 % 2 : Nat) : Int),
          (([0xA5, 0x80].getD 0 0 % 256 / 32 % 2 : Nat) : Int),
          (([0xA5, 0x80].getD 0 0 % 256 / 16 % 2 : Nat) : Int),
          (([0xA5, 0x80].getD 0 0 % 256 / 8 % 2 : Nat) : Int),
          (([0xA5, 0x80].getD 0 0 % 256 / 4 % 2 : Nat) : Int),
          (([0xA5, 0x80].getD 0 0 % 256 / 2 % 2 : Nat) : Int),
          (([0xA5, 0x80].getD 0 0 % 256 % 2 : Nat) : Int)] ∧
      (apultra_read_bit [0xA5, 0x80] ⟨0, ⟨0, 0, 0⟩, ⟨0, 0, 0⟩, []⟩ 0).2.pInputData = 0 + 1 ∧
      (readBits [0xA5, 0x80] 0 8 ⟨0, ⟨0, 0, 0⟩, ⟨0, 0, 0⟩, []⟩).2 =
        ⟨0 + 1, (⟨0, 0, 0⟩ : Regs).set 0 0, (⟨0, 0, 0⟩ : Regs).set 0 0, [] ++ [0]⟩ ∧
      (readBits [0xA5, 0x80] 0 8 ⟨0, ⟨0, 0, 0⟩, ⟨0, 0, 0⟩, []⟩).2.nCurBitMask.get 0 = 0 ∧
      (0 + 1 < [0xA5, 0x80].length →
        (apultra_read_bit [0xA5, 0x80]
          (readBits [0xA5, 0x80] 0 8 ⟨0, ⟨0, 0, 0⟩, ⟨0, 0, 0⟩, []⟩).2 0).1 =
          (([0xA5, 0x80].getD (0 + 1) 0 % 256 / 128 % 2 : Nat) : Int) ∧
        (apultra_read_bit [0xA5, 0x80]
          (readBits [0xA5, 0x80] 0 8 ⟨0, ⟨0, 0, 0⟩, ⟨0, 0, 0⟩, []⟩).2 0).2.pInputData = 0 + 2 ∧
        (apultra_read_bit [0xA5, 0x80]
          (readBits [0xA5, 0x80] 0 8 ⟨0, ⟨0, 0, 0⟩, ⟨0, 0, 0⟩, []⟩).2 0).2.reads =
          [] ++ [0] ++ [0 + 1])) :=
  ⟨by decide, by decide,
    (bit_reader_msb_first [0xA5, 0x80] ⟨0, ⟨0, 0, 0⟩, ⟨0, 0, 0⟩, []⟩ 0 (by decide)).1
      (by decide)⟩

/-! ## The three registers are independent -/

theorem Regs.get_set_ne (a : Regs) (i j v : Nat) (hi : i < 3) (hj : j < 3) (h : j ≠ i) :
    (a.set i v).get j = a.get j := by
  unfold Regs.get Regs.set
  split_ifs <;> first | rfl | omega

theorem regKept_refl (j : Nat) (a : BitReader) : regKept j a a := ⟨rfl, rfl⟩

theorem regKept_trans {j : Nat} {a b c : BitReader} (h1 : regKept j a b) (h2 : regKept j b c) :
    regKept j a c := ⟨h2.1.trans h1.1, h2.2.trans h1.2⟩

theorem shiftBit_kept (r : BitReader) (i j : Nat) (hi : i < 3) (hj : j < 3) (h : j ≠ i) :
    regKept j r (shiftBit r i).2 := by
  unfold shiftBit regKept
  exact ⟨Regs.get_set_ne _ _ _ _ hi hj h, Regs.get_set_ne _ _ _ _ hi hj h⟩

theorem read_bit_kept (inp : List Nat) (r : BitReader) (i j : Nat) (hi : i < 3) (hj : j < 3)
    (h : j ≠ i) : regKept j r (apultra_read_bit inp r i).2 := by
  unfold apultra_read_bit
  split_ifs
  · exact regKept_refl j r
  · refine regKept_trans ?_ (shiftBit_kept _ i j hi hj h)
    exact ⟨Regs.get_set_ne _ _ _ _ hi hj h, Regs.get_set_ne _ _ _ _ hi hj h⟩
  · exact shiftBit_kept r i j hi hj h

theorem rawByte_kept (inp : List Nat) (past : Nat → Nat) (r : BitReader) (j : Nat) :
    regKept j r (rawByte inp past r).2 := ⟨rfl, rfl⟩

theorem gamma2Std_kept (inp : List Nat) (i j : Nat) (hi : i < 3) (hj : j < 3) (h : j ≠ i) :
    ∀ (fuel v : Nat) (r : BitReader) (x : Nat × BitReader),
      gamma2Std inp i fuel v r = some x → regKept j r x.2 := by
  intro fuel
  induction fuel with
  | zero => intro v r x hx; simp [gamma2Std] at hx
  | succ n ih =>
    intro v r x hx
    have k1 := read_bit_kept inp r i j hi hj h
    have k2 := read_bit_kept inp (apultra_read_bit inp r i).2 i j hi hj h
    unfold gamma2Std at hx
    simp only [] at hx
    split_ifs at hx
    · cases hx
      exact regKept_trans k1 k2
    · exact regKept_trans (regKept_trans k1 k2) (ih _ _ x hx)
    · cases hx
      exact regKept_trans k1 k2

theorem gamma2Enh_kept (inp : List Nat) (i j : Nat) (hi : i < 3) (hj : j < 3) (h : j ≠ i) :
    ∀ (fuel : Nat) (l : Int) (v : Nat) (r : BitReader) (x : Nat × BitReader),
      gamma2Enh inp i fuel l v r = some x → regKept j r x.2 := by
  intro fuel
  induction fuel with
  | zero => intro l v r x hx; simp [gamma2Enh] at hx
  | succ n ih =>
    intro l v r x hx
    have k1 := read_bit_kept inp r i j hi hj h
    have k2 := read_bit_kept inp (apultra_read_bit inp r i).2 i j hi hj h
    unfold gamma2Enh at hx
    simp only [] at hx
    generalize (if l = 0 ∧ v ≥ 256 then toI32 v else l) = l1 at hx
    generalize (if l = 0 ∧ v ≥ 256 then 1 else v) = v0 at hx
    split_ifs at hx
    · cases hx
      exact regKept_trans k1 k2
    · exact regKept_trans (regKept_trans k1 k2) (ih _ _ _ x hx)
    · cases hx
      exact regKept_trans k1 k2
    · cases hx
      exact regKept_trans k1 k2

theorem read_gamma2_kept (fuel : Nat) (inp : List Nat) (r : BitReader) (i j : Nat)
    (hi : i < 3) (hj : j < 3) (h : j ≠ i) (x : Nat × BitReader)
    (hx : apultra_read_gamma2 fuel inp r i = some x) : regKept j r x.2 := by
  unfold apultra_read_gamma2 at hx
  split_ifs at hx
  · exact gamma2Std_kept inp i j hi hj h fuel 1 r x hx
  · exact gamma2Enh_kept inp i j hi hj h fuel 0 1 r x hx

theorem readNibble_kept (inp : List Nat) (r : BitReader) (i j : Nat) (hi : i < 3) (hj : j < 3)
    (h : j ≠ i) : regKept j r (readNibble inp r i).2 := by
  unfold readNibble
  simp only []
  exact regKept_trans (regKept_trans (regKept_trans (read_bit_kept inp r i j hi hj h)
    (read_bit_kept inp _ i j hi hj h)) (read_bit_kept inp _ i j hi hj h))
    (read_bit_kept inp _ i j hi hj h)

theorem tokenKind_kept (inp : List Nat) (r : BitReader) (j : Nat) (hj : j < 3) (h : j ≠ 0) :
    regKept j r (tokenKind inp r).2 := by
  have k1 := read_bit_kept inp r 0 j (by decide) hj h
  have k2 := read_bit_kept inp (apultra_read_bit inp r 0).2 0 j (by decide) hj h
  have k3 := read_bit_kept inp (apultra_read_bit inp (apultra_read_bit inp r 0).2 0).2 0 j
    (by decide) hj h
  unfold tokenKind
  simp only []
  split_ifs
  · exact k1
  · exact regKept_trans k1 k2
  · exact regKept_trans (regKept_trans k1 k2) k3
  · exact regKept_trans (regKept_trans k1 k2) k3

theorem longHead_kept (inp : List Nat) (past : Nat → Nat) (f : Bool) (o : Int) (hi : Nat)
    (r : BitReader) (j : Nat) : regKept j r (longHead inp past f o hi r).rd := by
  unfold longHead
  split_ifs <;> exact ⟨rfl, rfl⟩

theorem decLiteral_kept (inp : List Nat) (past : Nat → Nat) (cap : Nat) (s : DState) (j : Nat) :
    KeepsReg j s.rd (decLiteral inp past cap s) := by
  unfold decLiteral
  split_ifs
  · exact rawByte_kept inp past s.rd j
  · exact regKept_refl j s.rd

theorem decShort_kept (inp : List Nat) (past : Nat → Nat) (cap : Nat) (s : DState) (j : Nat) :
    KeepsReg j s.rd (decShort inp past cap s) := by
  unfold decShort
  simp only []
  split_ifs <;> exact rawByte_kept inp past s.rd j

theorem decNibble_kept (inp : List Nat) (cap nFlags : Nat) (s : DState) (j : Nat) (hj : j < 3)
    (h : j ≠ nibbleIdx nFlags) : KeepsReg j s.rd (decNibble inp cap nFlags s) := by
  have hi : nibbleIdx nFlags < 3 := by
    rcases nibbleIdx_cases nFlags with e | e <;> omega
  unfold decNibble
  simp only []
  split_ifs <;> exact readNibble_kept inp s.rd _ j hi hj h

theorem copyLong_kept (fuel cap : Nat) (s : DState) (pSrc nMatchLen : Nat) (o : Outcome) (j : Nat)
    (h : copyLong fuel cap s pSrc nMatchLen = some o) : KeepsReg j s.rd o := by
  unfold copyLong at h
  split_ifs at h
  · cases h
    exact regKept_refl j s.rd
  · split at h
    · simp at h
    · cases h
      exact regKept_refl j s.rd
  · cases h
    exact regKept_refl j s.rd
  · cases h
    exact regKept_refl j s.rd

theorem keepsReg_of (j : Nat) (a b : BitReader) (o : Outcome) (h1 : regKept j a b)
    (h2 : KeepsReg j b o) : KeepsReg j a o := by
  cases o with
  | next s1 => exact regKept_trans h1 h2
  | ret v s1 => exact regKept_trans h1 h2

theorem decLong_kept (fuel : Nat) (inp : List Nat) (past : Nat → Nat) (cap nFlags : Nat)
    (s : DState) (o : Outcome) (j : Nat) (hj : j < 3) (h : j ≠ gammaIdx nFlags)
    (ho : decLong fuel inp past cap nFlags s = some o) : KeepsReg j s.rd o := by
  have hi : gammaIdx nFlags < 3 := by
    rcases gammaIdx_cases nFlags with e | e <;> omega
  unfold decLong at ho
  split at ho
  · simp at ho
  · rename_i hi1 r1 hg
    have k1 := read_gamma2_kept fuel inp s.rd _ j hi hj h _ hg
    have k2 := longHead_kept inp past s.nFollowsLiteral s.nMatchOffset hi1 r1 j
    simp only [] at ho k1
    split_ifs at ho
    · split at ho
      · simp at ho
      · rename_i g r3 hg2
        have k3 := read_gamma2_kept fuel inp _ _ j hi hj h _ hg2
        have k4 := copyLong_kept fuel cap _ _ _ o j ho
        exact keepsReg_of j _ _ o (regKept_trans (regKept_trans k1 k2) k3) k4
    · cases ho
      exact regKept_trans k1 k2

/-- A pass of the loop changes register 0, and besides it only the gamma2
register in a `'10'` token and the nibble register in a `'111'` token. -/
theorem decStep_kept (fuel : Nat) (inp : List Nat) (past : Nat → Nat) (cap nFlags : Nat)
    (s : DState) (o : Outcome) (j : Nat) (hj : j < 3) (h0 : j ≠ 0)
    (hg : (tokenKind inp s.rd).1 = 1 → j ≠ gammaIdx nFlags)
    (hn : (tokenKind inp s.rd).1 = 3 → j ≠ nibbleIdx nFlags)
    (ho : decStep fuel inp past cap nFlags s = some o) : KeepsReg j s.rd o := by
  have kt := tokenKind_kept inp s.rd j hj h0
  have k3 := (tokenKind_le inp s.rd).2.1
  rw [decStep_eq] at ho
  split_ifs at ho with c0 c1 c2
  · cases ho
    exact keepsReg_of j _ _ _ kt (decLiteral_kept inp past cap _ j)
  · exact keepsReg_of j _ _ _ kt (decLong_kept fuel inp past cap nFlags _ o j hj (hg c1) ho)
  · cases ho
    exact keepsReg_of j _ _ _ kt (decShort_kept inp past cap _ j)
  · cases ho
    exact keepsReg_of j _ _ _ kt
      (decNibble_kept inp cap nFlags _ j hj (hn (by omega)))

/-- C22. Independent registers. A call of `apultra_read_bit` on register `i`
leaves the bits and the mask of the other two registers as they were. When the
register is empty and a byte is left, the call loads the byte at the shared
cursor and moves the cursor by one; when the register holds bits, the cursor
stays. The gamma2 and nibble registers are both register 0 with flags 0, and are
registers 1 and 2 when the ENHANCED bit is set; the prefix bits always come from
register 0, so that a pass of the decoder changes, besides register 0, only the
gamma2 register in a `'10'` token and the nibble register in a `'111'` token. -/
theorem registers_independent :
    (∀ (inp : List Nat) (r : BitReader) (i j : Nat), i < 3 → j < 3 → j ≠ i →
      regKept j r (apultra_read_bit inp r i).2) ∧
    (∀ (inp : List Nat) (r : BitReader) (i : Nat),
      r.nCurBitMask.get i = 0 → r.pInputData < inp.length →
      (apultra_read_bit inp r i).1 = ((inp.getD r.pInputData 0 % 256 / 128 % 2 : Nat) : Int) ∧
      (apultra_read_bit inp r i).2.pInputData = r.pInputData + 1 ∧
      (apultra_read_bit inp r i).2.reads = r.reads ++ [r.pInputData]) ∧
    (∀ (inp : List Nat) (r : BitReader) (i : Nat), r.nCurBitMask.get i ≠ 0 →
      (apultra_read_bit inp r i).2.pInputData = r.pInputData ∧
      (apultra_read_bit inp r i).2.reads = r.reads) ∧
    (gammaIdx 0 = 0 ∧ nibbleIdx 0 = 0) ∧
    (∀ nFlags : Nat, nFlags &&& APULTRA_FLAG_ENHANCED ≠ 0 →
      gammaIdx nFlags = 1 ∧ nibbleIdx nFlags = 2) ∧
    (∀ (fuel : Nat) (inp : List Nat) (past : Nat → Nat) (cap nFlags : Nat) (s : DState)
      (o : Outcome) (j : Nat),
      decStep fuel inp past cap nFlags s = some o → j < 3 → j ≠ 0 →
      ((tokenKind inp s.rd).1 = 1 → j ≠ gammaIdx nFlags) →
      ((tokenKind inp s.rd).1 = 3 → j ≠ nibbleIdx nFlags) →
      KeepsReg j s.rd o) := by
  refine ⟨?_, ?_, ?_, ⟨rfl, rfl⟩, ?_, ?_⟩
  · intro inp r i j hi hj h
    exact read_bit_kept inp r i j hi hj h
  · intro inp r i hm hp
    have hB : inp.getD r.pInputData 0 % 256 < 256 := Nat.mod_lt _ (by decide)
    have t0 := (top_bits _ hB).1
    rw [show inp.getD r.pInputData 0 % 256 * 2 ^ 0 % 256 = inp.getD r.pInputData 0 % 256 by
      omega] at t0
    rw [read_bit_load inp r i hm hp]
    unfold shiftBit
    simp only [Regs.get_set]
    exact ⟨t0, trivial, trivial⟩
  · intro inp r i hm
    rw [read_bit_shift inp r i hm]
    exact ⟨rfl, rfl⟩
  · intro nFlags h
    unfold gammaIdx nibbleIdx
    rw [if_pos h, if_pos h]
    exact ⟨rfl, rfl⟩
  · intro fuel inp past cap nFlags s o j ho hj h0 hg hn
    exact decStep_kept fuel inp past cap nFlags s o j hj h0 hg hn ho

/-- C22, witness: with the ENHANCED bit set, the first pass on
`[0x41, 0xE3, 0x18, 0x00]` reads the prefix `111` from register 0 and loads the
byte `0x18` into the nibble register 2; register 1 stays empty. A read on
register 2 of the reader after the first byte loads the byte at the cursor. -/
theorem registers_independent_witness :
    (tokenKind [0x41, 0xE3, 0x18, 0x00] (decFirst [0x41, 0xE3, 0x18, 0x00] zeros zeros).rd).1 = 3 ∧
    nibbleIdx 1 = 2 ∧
    (decPasses 20 [0x41, 0xE3, 0x18, 0x00] zeros 4 1 1
      (decFirst [0x41, 0xE3, 0x18, 0x00] zeros zeros)).map (fun s1 => s1.rd) =
        some ⟨3, ⟨16, 0, 8⟩, ⟨24, 0, 128⟩, [0, 1, 2]⟩ ∧
    regKept 1 ⟨1, ⟨0, 0, 0⟩, ⟨0, 0, 0⟩, [0]⟩ (apultra_read_bit [0x41, 0xE3, 0x18, 0x00] ⟨1, ⟨0, 0, 0⟩, ⟨0, 0, 0⟩, [0]⟩ 2).2 ∧
    ((apultra_read_bit [0x41, 0xE3, 0x18, 0x00] ⟨1, ⟨0, 0, 0⟩, ⟨0, 0, 0⟩, [0]⟩ 2).1 =
        (([0x41, 0xE3, 0x18, 0x00].getD (⟨1, ⟨0, 0, 0⟩, ⟨0, 0, 0⟩, [0]⟩ : BitReader).pInputData 0 % 256 / 128 % 2 : Nat) :
          Int) ∧
      (apultra_read_bit [0x41, 0xE3, 0x18, 0x00] ⟨1, ⟨0, 0, 0⟩, ⟨0, 0, 0⟩, [0]⟩ 2).2.pInputData =
        (⟨1, ⟨0, 0, 0⟩, ⟨0, 0, 0⟩, [0]⟩ : BitReader).pInputData + 1 ∧
      (apultra_read_bit [0x41, 0xE3, 0x18, 0x00] ⟨1, ⟨0, 0, 0⟩, ⟨0, 0, 0⟩, [0]⟩ 2).2.reads =
        (⟨1, ⟨0, 0, 0⟩, ⟨0, 0, 0⟩, [0]⟩ : BitReader).reads ++ [(⟨1, ⟨0, 0, 0⟩, ⟨0, 0, 0⟩, [0]⟩ : BitReader).pInputData]) :=
  ⟨by decide, by decide, by decide,
    registers_independent.1 [0x41, 0xE3, 0x18, 0x00] ⟨1, ⟨0, 0, 0⟩, ⟨0, 0, 0⟩, [0]⟩ 2 1 (by decide) (by decide) (by decide),
    registers_independent.2.1 [0x41, 0xE3, 0x18, 0x00] ⟨1, ⟨0, 0, 0⟩, ⟨0, 0, 0⟩, [0]⟩ 2 (by decide) (by decide)⟩

/-! ## The flag `nFollowsLiteral` -/

theorem copyLong_flag (fuel cap : Nat) (s s1 : DState) (pSrc nMatchLen : Nat)
    (h : copyLong fuel cap s pSrc nMatchLen = some (.next s1)) :
    s1.nFollowsLiteral = s.nFollowsLiteral ∧ s1.nMatchOffset = s.nMatchOffset := by
  unfold copyLong at h
  split_ifs at h
  · cases h
    exact ⟨rfl, rfl⟩
  · split at h
    · simp at h
    · cases h
      exact ⟨rfl, rfl⟩
  · cases h
    exact ⟨rfl, rfl⟩
  · cases h

theorem decLong_flag (fuel : Nat) (inp : List Nat) (past : Nat → Nat) (cap nFlags : Nat)
    (s s1 : DState) (h : decLong fuel inp past cap nFlags s = some (.next s1)) :
    s1.nFollowsLiteral = false := by
  unfold decLong at h
  split at h
  · simp at h
  · simp only [] at h
    split_ifs at h
    · split at h
      · simp at h
      · exact (copyLong_flag fuel cap _ s1 _ _ h).1
    · cases h

theorem decStep_flag (fuel : Nat) (inp : List Nat) (past : Nat → Nat) (cap nFlags : Nat)
    (s s1 : DState) (h : decStep fuel inp past cap nFlags s = some (.next s1)) :
    s1.nFollowsLiteral = true ↔ ((tokenKind inp s.rd).1 = 0 ∨ (tokenKind inp s.rd).1 = 3) := by
  have k3 := (tokenKind_le inp s.rd).2.1
  rw [decStep_eq] at h
  split_ifs at h with c0 c1 c2
  · unfold decLiteral at h
    split_ifs at h <;> cases h
    simp [c0]
  · have := decLong_flag fuel inp past cap nFlags _ s1 h
    simp [this, c1]
  · unfold decShort at h
    simp only [] at h
    split_ifs at h <;> cases h <;> simp [c2]
  · have c3 : (tokenKind inp s.rd).1 = 3 := by omega
    unfold decNibble at h
    simp only [] at h
    split_ifs at h <;> cases h <;> simp [c3]

theorem maxStep_flag (fuel : Nat) (inp : List Nat) (past : Nat → Nat) (nFlags : Nat)
    (m m1 : MState) (h : maxStep fuel inp past nFlags m = some (.next m1)) :
    m1.nFollowsLiteral = true ↔ ((tokenKind inp m.rd).1 = 0 ∨ (tokenKind inp m.rd).1 = 3) := by
  have k3 := (tokenKind_le inp m.rd).2.1
  rw [maxStep_eq] at h
  split_ifs at h with c0 c1 c2
  · unfold maxLiteral at h
    split_ifs at h <;> cases h
    simp [c0]
  · unfold maxLong at h
    split at h
    · simp at h
    · simp only [] at h
      split at h
      · simp at h
      · cases h
        simp [c1]
  · unfold maxShort at h
    simp only [] at h
    split_ifs at h <;> cases h
    simp [c2]
  · have c3 : (tokenKind inp m.rd).1 = 3 := by omega
    unfold maxNibble at h
    cases h
    simp [c3]

/-- After a match, a `'10'` token with the gamma2 value 2 reads an offset byte:
it is a LongMatch with offset `lo`, not a RepMatch. -/
theorem longHead_after_match (inp : List Nat) (past : Nat → Nat) (off : Int) (r1 : BitReader) :
    (longHead inp past false off 2 r1).nIsRepMatch = false ∧
      (longHead inp past false off 2 r1).nMatchOffset = (inByte inp past r1.pInputData : Nat) ∧
      (longHead inp past false off 2 r1).rd = (rawByte inp past r1).2 := by
  have hl := inByte_lt inp past r1.pInputData
  have e := longOffset_small 2 2 (inByte inp past r1.pInputData) (le_refl _) hl (by
    simp only [Nat.sub_self, Nat.zero_shiftLeft, Nat.zero_or]
    omega)
  simp only [Nat.sub_self, Nat.zero_shiftLeft, Nat.zero_or] at e
  unfold longHead
  rw [if_pos (Or.inl rfl)]
  simp only [Bool.false_eq_true, if_false, rawByte]
  exact ⟨trivial, e, trivial⟩

/-- C23. The flag `nFollowsLiteral`, in `apultra_decompress` and in
`apultra_get_max_decompressed_size` alike: it is set before the first token, and
after a pass that applies a token it is set if and only if the token was a
Literal (`'0'`) or a NibbleMatch (`'111'`), so it is clear after every
LongMatch, RepMatch and ShortMatch. Hence a `'10'` token with the gamma2 value 2
that comes right after a match reads an offset byte `lo` and is a LongMatch with
offset `lo`, not a RepMatch. -/
theorem follows_literal_invariant :
    (∀ (inp : List Nat) (past out : Nat → Nat), (decFirst inp past out).nFollowsLiteral = true) ∧
    maxFirst.nFollowsLiteral = true ∧
    (∀ (fuel : Nat) (inp : List Nat) (past : Nat → Nat) (cap nFlags : Nat) (s s1 : DState),
      decStep fuel inp past cap nFlags s = some (.next s1) →
      (s1.nFollowsLiteral = true ↔
        ((tokenKind inp s.rd).1 = 0 ∨ (tokenKind inp s.rd).1 = 3))) ∧
    (∀ (fuel : Nat) (inp : List Nat) (past : Nat → Nat) (nFlags : Nat) (m m1 : MState),
      maxStep fuel inp past nFlags m = some (.next m1) →
      (m1.nFollowsLiteral = true ↔
        ((tokenKind inp m.rd).1 = 0 ∨ (tokenKind inp m.rd).1 = 3))) ∧
    (∀ (fuel : Nat) (inp : List Nat) (past : Nat → Nat) (cap nFlags : Nat) (s s1 : DState)
      (r1 : BitReader),
      decStep fuel inp past cap nFlags s = some (.next s1) →
      ((tokenKind inp s.rd).1 = 1 ∨ (tokenKind inp s.rd).1 = 2) →
      (longHead inp past s1.nFollowsLiteral s1.nMatchOffset 2 r1).nIsRepMatch = false ∧
        (longHead inp past s1.nFollowsLiteral s1.nMatchOffset 2 r1).nMatchOffset =
          (inByte inp past r1.pInputData : Nat) ∧
        (longHead inp past s1.nFollowsLiteral s1.nMatchOffset 2 r1).rd =
          (rawByte inp past r1).2) := by
  refine ⟨fun _ _ _ => rfl, rfl, ?_, ?_, ?_⟩
  · intro fuel inp past cap nFlags s s1 h
    exact decStep_flag fuel inp past cap nFlags s s1 h
  · intro fuel inp past nFlags m m1 h
    exact maxStep_flag fuel inp past nFlags m m1 h
  · intro fuel inp past cap nFlags s s1 r1 h hk
    have hf := decStep_flag fuel inp past cap nFlags s s1 h
    have hfl : s1.nFollowsLiteral = false := by
      cases hb : s1.nFollowsLiteral with
      | false => rfl
      | true =>
        have := hf.mp hb
        omega
    rw [hfl]
    exact longHead_after_match inp past s1.nMatchOffset r1

/-- C23, witness: the first token of `[0x41, 0xD8, 0x03, 0x00]` is a ShortMatch;
after it the flag is clear in the decoder and in the size query, and a `'10'`
token with gamma2 value 2 would read its offset byte. -/
theorem follows_literal_invariant_witness :
    (tokenKind [0x41, 0xD8, 0x03, 0x00] (decFirst [0x41, 0xD8, 0x03, 0x00] zeros zeros).rd).1 = 2 ∧
    ((⟨⟨3, ⟨16, 0, 0⟩, ⟨192, 0, 0⟩, [0, 1, 2]⟩, 4, copyBytes 3 (store zeros 0 0x41) 1 0, 1, false,
      [0, 1, 2, 3]⟩ : DState).nFollowsLiteral = true ↔
      ((tokenKind [0x41, 0xD8, 0x03, 0x00] (decFirst [0x41, 0xD8, 0x03, 0x00] zeros zeros).rd).1 = 0 ∨ (tokenKind [0x41, 0xD8, 0x03, 0x00] (decFirst [0x41, 0xD8, 0x03, 0x00] zeros zeros).rd).1 = 3)) ∧
    ((⟨⟨3, ⟨16, 0, 0⟩, ⟨192, 0, 0⟩, [1, 2]⟩, 1, false, 4⟩ : MState).nFollowsLiteral = true ↔
      ((tokenKind [0x41, 0xD8, 0x03, 0x00] maxFirst.rd).1 = 0 ∨ (tokenKind [0x41, 0xD8, 0x03, 0x00] maxFirst.rd).1 = 3)) ∧
    ((longHead [0x41, 0xD8, 0x03, 0x00] zeros (⟨⟨3, ⟨16, 0, 0⟩, ⟨192, 0, 0⟩, [0, 1, 2]⟩, 4, copyBytes 3 (store zeros 0 0x41) 1 0, 1, false,
      [0, 1, 2, 3]⟩ : DState).nFollowsLiteral (⟨⟨3, ⟨16, 0, 0⟩, ⟨192, 0, 0⟩, [0, 1, 2]⟩, 4, copyBytes 3 (store zeros 0 0x41) 1 0, 1, false,
      [0, 1, 2, 3]⟩ : DState).nMatchOffset 2
        ⟨3, ⟨4, 0, 0⟩, ⟨0, 0, 0⟩, [0, 1, 2]⟩).nIsRepMatch = false ∧
      (longHead [0x41, 0xD8, 0x03, 0x00] zeros (⟨⟨3, ⟨16, 0, 0⟩, ⟨192, 0, 0⟩, [0, 1, 2]⟩, 4, copyBytes 3 (store zeros 0 0x41) 1 0, 1, false,
      [0, 1, 2, 3]⟩ : DState).nFollowsLiteral (⟨⟨3, ⟨16, 0, 0⟩, ⟨192, 0, 0⟩, [0, 1, 2]⟩, 4, copyBytes 3 (store zeros 0 0x41) 1 0, 1, false,
      [0, 1, 2, 3]⟩ : DState).nMatchOffset 2
        ⟨3, ⟨4, 0, 0⟩, ⟨0, 0, 0⟩, [0, 1, 2]⟩).nMatchOffset =
          (inByte [0x41, 0xD8, 0x03, 0x00] zeros (⟨3, ⟨4, 0, 0⟩, ⟨0, 0, 0⟩, [0, 1, 2]⟩ : BitReader).pInputData : Nat) ∧
      (longHead [0x41, 0xD8, 0x03, 0x00] zeros (⟨⟨3, ⟨16, 0, 0⟩, ⟨192, 0, 0⟩, [0, 1, 2]⟩, 4, copyBytes 3 (store zeros 0 0x41) 1 0, 1, false,
      [0, 1, 2, 3]⟩ : DState).nFollowsLiteral (⟨⟨3, ⟨16, 0, 0⟩, ⟨192, 0, 0⟩, [0, 1, 2]⟩, 4, copyBytes 3 (store zeros 0 0x41) 1 0, 1, false,
      [0, 1, 2, 3]⟩ : DState).nMatchOffset 2
        ⟨3, ⟨4, 0, 0⟩, ⟨0, 0, 0⟩, [0, 1, 2]⟩).rd =
          (rawByte [0x41, 0xD8, 0x03, 0x00] zeros ⟨3, ⟨4, 0, 0⟩, ⟨0, 0, 0⟩, [0, 1, 2]⟩).2) :=
  ⟨by decide,
    follows_literal_invariant.2.2.1 20 [0x41, 0xD8, 0x03, 0x00] zeros 4 0 (decFirst [0x41, 0xD8, 0x03, 0x00] zeros zeros) (⟨⟨3, ⟨16, 0, 0⟩, ⟨192, 0, 0⟩, [0, 1, 2]⟩, 4, copyBytes 3 (store zeros 0 0x41) 1 0, 1, false,
      [0, 1, 2, 3]⟩ : DState) (by rfl),
    follows_literal_invariant.2.2.2.1 20 [0x41, 0xD8, 0x03, 0x00] zeros 0 maxFirst (⟨⟨3, ⟨16, 0, 0⟩, ⟨192, 0, 0⟩, [1, 2]⟩, 1, false, 4⟩ : MState) (by rfl),
    follows_literal_invariant.2.2.2.2 20 [0x41, 0xD8, 0x03, 0x00] zeros 4 0 (decFirst [0x41, 0xD8, 0x03, 0x00] zeros zeros) (⟨⟨3, ⟨16, 0, 0⟩, ⟨192, 0, 0⟩, [0, 1, 2]⟩, 4, copyBytes 3 (store zeros 0 0x41) 1 0, 1, false,
      [0, 1, 2, 3]⟩ : DState)
      ⟨3, ⟨4, 0, 0⟩, ⟨0, 0, 0⟩, [0, 1, 2]⟩ (by rfl) (by decide)⟩

/-! ## Every byte sequence has a stream -/

/-- C25. Expressiveness of the format: for every non-empty sequence `x` of `N`
bytes (`N` below `2^64`) and every flags value, the stream made of `x[0]`, one
Literal token for each further byte and the end-of-data token has at most
`N + N / 8 + 16` bytes, and `apultra_decompress` on it with capacity `N` returns
`N` and leaves `x` in `output[0 .. N)`, whatever the output memory and the memory
after the stream held. -/
theorem format_expressive (x : List Nat) (past out : Nat → Nat) (nFlags : Nat)
    (hne : x ≠ []) (hbytes : ∀ v ∈ x, v < 256) (hlen : x.length < 18446744073709551616) :
    ∃ s sf, s = literalStream x ∧ s.length ≤ x.length + x.length / 8 + 16 ∧
      apultra_decompress s past out x.length nFlags = some (x.length, sf) ∧
      take sf.out x.length = x := by
  cases x with
  | nil => exact absurd rfl hne
  | cons b r =>
    have hb : b % 256 = b := Nat.mod_eq_of_lt (hbytes b (List.mem_cons_self _ _))
    have hinv := regInv_first (b % 256) (litItems r) past out
    obtain ⟨sf, hsf, hlow, hhi⟩ := decLoop_literals
      (decFuel (b % 256 :: packFrom (litItems r) 0) (b :: r).length)
      (b % 256 :: packFrom (litItems r) 0) past (b :: r).length nFlags r
      (decFirst (b % 256 :: packFrom (litItems r) 0) past out)
      (decFuel (b % 256 :: packFrom (litItems r) 0) (b :: r).length) hinv
      (by simp only [decFirst, List.length_cons]; omega)
      (by unfold decFuel; simp only [List.length_cons]; omega)
    have hpos : (decFirst (b % 256 :: packFrom (litItems r) 0) past out).pCurOutData = 1 := rfl
    rw [hpos] at hsf hlow hhi
    refine ⟨_, sf, rfl, ?_, ?_, ?_⟩
    · have h1 := packFrom_length (litItems r) 0 (by omega)
      rw [weight_litItems] at h1
      simp only [literalStream, List.length_cons]
      omega
    · unfold literalStream apultra_decompress
      rw [if_neg (by simp), hsf]
      simp only [List.length_cons] at hlen ⊢
      rw [Nat.mod_eq_of_lt (by omega), Nat.add_comm]
    · apply take_eq
      intro i hi
      cases i with
      | zero =>
        rw [hlow 0 (by omega)]
        simp [decFirst, decInit, rawByte, store, inByte, hb]
      | succ n =>
        simp only [List.length_cons] at hi
        have := hhi n (by omega)
        rw [show n + 1 = 1 + n by omega, this]
        have hm : r.getD n 0 < 256 := by
          rw [List.getD_eq_getElem _ _ (by omega)]
          exact hbytes _ (List.mem_cons_of_mem _ (List.getElem_mem _))
        rw [Nat.mod_eq_of_lt hm, Nat.add_comm 1 n]
        rfl

/-- C25, witness: the three bytes `[1, 2, 3]` with the ENHANCED flag; the stream
is `[0x01, 0x30, 0x02, 0x03, 0x00]`. -/
theorem format_expressive_witness :
    literalStream [1, 2, 3] = [0x01, 0x30, 0x02, 0x03, 0x00] ∧
    ∃ s sf, s = literalStream [1, 2, 3] ∧
      s.length ≤ ([1, 2, 3] : List Nat).length + ([1, 2, 3] : List Nat).length / 8 + 16 ∧
      apultra_decompress s zeros zeros ([1, 2, 3] : List Nat).length 1 =
        some (([1, 2, 3] : List Nat).length, sf) ∧
      take sf.out ([1, 2, 3] : List Nat).length = [1, 2, 3] :=
  ⟨by decide,
    format_expressive [1, 2, 3] zeros zeros 1 (by decide) (by decide) (by decide)⟩

/-! ## The register `nMatchOffset` -/

/-- The offset after a `'10'` token that is applied is the one that the lines
between the two gamma2 reads set. -/
theorem decLong_offset (fuel : Nat) (inp : List Nat) (past : Nat → Nat) (cap nFlags : Nat)
    (s s1 : DState) (h : decLong fuel inp past cap nFlags s = some (.next s1)) :
    ∃ hi r1, apultra_read_gamma2 fuel inp s.rd (gammaIdx nFlags) = some (hi, r1) ∧
      s1.nMatchOffset = (longHead inp past s.nFollowsLiteral s.nMatchOffset hi r1).nMatchOffset := by
  unfold decLong at h
  split at h
  · simp at h
  · rename_i hi r1 hg
    refine ⟨hi, r1, hg, ?_⟩
    simp only [] at h
    split_ifs at h
    · split at h
      · simp at h
      · exact (copyLong_flag fuel cap _ s1 _ _ h).2
    · cases h

/-- A pass that applies a token whose encoded offset is 1 or more keeps
`nMatchOffset` at 1 or more. -/
theorem decStep_offset_pos (fuel : Nat) (inp : List Nat) (past : Nat → Nat) (cap nFlags : Nat)
    (s s1 : DState) (h : decStep fuel inp past cap nFlags s = some (.next s1))
    (h1 : 1 ≤ s.nMatchOffset) (hok : encodedOffsetOK fuel inp past nFlags s = true) :
    1 ≤ s1.nMatchOffset := by
  rw [decStep_eq] at h
  unfold encodedOffsetOK at hok
  split_ifs at h with c0 c1 c2
  · unfold decLiteral at h
    split_ifs at h <;> cases h
    exact h1
  · obtain ⟨hi, r1, hg, ho⟩ := decLong_offset fuel inp past cap nFlags _ s1 h
    rw [ho]
    simp only [] at hg ⊢
    rw [if_pos c1, hg] at hok
    simp only [] at hok
    by_cases hrep : s.nFollowsLiteral = true ∧ hi = 2
    · rw [hrep.1, hrep.2, longHead_rep]
      exact h1
    · rw [if_neg hrep] at hok
      have hok := of_decide_eq_true hok
      have hnr : s.nFollowsLiteral = false ∨ hi ≠ 2 := by
        cases hb : s.nFollowsLiteral with
        | false => exact Or.inl rfl
        | true =>
          right
          intro e
          exact hrep ⟨hb, e⟩
      rw [longHead_new inp past s.nFollowsLiteral s.nMatchOffset hi r1 hnr hok.1 hok.2.2]
      simp only []
      exact_mod_cast hok.2.1
  · obtain ⟨-, -, -, a4, -⟩ := decShort_next inp past cap
      { s with rd := (tokenKind inp s.rd).2 } s1 (Option.some.inj h)
    rw [a4]
    rw [if_neg c1, if_pos c2] at hok
    have hok := of_decide_eq_true hok
    exact_mod_cast hok
  · unfold decNibble at h
    simp only [] at h
    split_ifs at h <;> cases h <;> exact h1

/-- The invariant along a run. -/
theorem decPasses_offset_pos (inner : Nat) (inp : List Nat) (past : Nat → Nat)
    (cap nFlags : Nat) :
    ∀ (n k : Nat) (s sk : DState), k ≤ n → 1 ≤ s.nMatchOffset →
      encodedOffsetsPositive inner inp past cap nFlags n s = true →
      decPasses inner inp past cap nFlags k s = some sk → 1 ≤ sk.nMatchOffset := by
  intro n
  induction n with
  | zero =>
    intro k s sk hk h1 _ hp
    have : k = 0 := by omega
    subst this
    simp only [decPasses] at hp
    cases hp
    exact h1
  | succ n ih =>
    intro k s sk hk h1 hall hp
    cases k with
    | zero =>
      simp only [decPasses] at hp
      cases hp
      exact h1
    | succ k =>
      unfold decPasses at hp
      unfold encodedOffsetsPositive at hall
      split at hp
      · rename_i s1 hst
        rw [hst] at hall
        simp only [Bool.and_eq_true] at hall
        exact ih k s1 sk (by omega)
          (decStep_offset_pos inner inp past cap nFlags s s1 hst h1 hall.1) hall.2 hp
      · simp at hp

/-- C24 (amended). The register `nMatchOffset` is 1 or more in every state that
the token loop of `apultra_decompress` reaches, after the first byte and after
each of the first `k` tokens applied, on an input in which every applied
ShortMatch encodes `cmd >> 1 ≥ 1` and every applied LongMatch encodes `hi ≥ bias`
and `1 ≤ ((hi - bias) << 8) | lo < 2^31`. -/
theorem last_offset_invariant (inner : Nat) (inp : List Nat) (past out : Nat → Nat)
    (cap nFlags n k : Nat) (sk : DState)
    (hall : encodedOffsetsPositive inner inp past cap nFlags n (decFirst inp past out) = true)
    (hk : k ≤ n)
    (hp : decPasses inner inp past cap nFlags k (decFirst inp past out) = some sk) :
    1 ≤ sk.nMatchOffset :=
  decPasses_offset_pos inner inp past cap nFlags n k (decFirst inp past out) sk hk
    (by show (1 : Int) ≤ 1; decide) hall hp

/-- C24, witness: the first token of `[0x41, 0xD8, 0x03, 0x00]` is a ShortMatch with
offset 1; the state after it has `nMatchOffset = 1`. All tokens of `fastInput`
encode offsets of 1 or more. -/
theorem last_offset_invariant_witness :
    encodedOffsetsPositive (decFuel fastInput 80) fastInput zeros 80 0 20
      (decFirst fastInput zeros zeros) = true ∧
    encodedOffsetsPositive 20 [0x41, 0xD8, 0x03, 0x00] zeros 4 0 1 (decFirst [0x41, 0xD8, 0x03, 0x00] zeros zeros) = true ∧
    1 ≤ (⟨⟨3, ⟨16, 0, 0⟩, ⟨192, 0, 0⟩, [0, 1, 2]⟩, 4, copyBytes 3 (store zeros 0 0x41) 1 0, 1, false,
      [0, 1, 2, 3]⟩ : DState).nMatchOffset :=
  ⟨by decide, by decide,
    last_offset_invariant 20 [0x41, 0xD8, 0x03, 0x00] zeros zeros 4 0 1 1 (⟨⟨3, ⟨16, 0, 0⟩, ⟨192, 0, 0⟩, [0, 1, 2]⟩, 4, copyBytes 3 (store zeros 0 0x41) 1 0, 1, false,
      [0, 1, 2, 3]⟩ : DState) (by decide) (by decide) (by rfl)⟩

/-- C24, counterexample. In `zeroOffsetInput` the first token is a LongMatch with
offset 0: with capacity 6 it is applied, the state after it has
`nMatchOffset = 0`, and the call returns 6. In `negOffsetInput` the first token
is a LongMatch with `hi - bias = 2^24 - 1` and `lo = 0xFF`, whose offset the
decoder computes as `-1`: with capacity 6 it is applied, the state after it has
`nMatchOffset = -1`, and the call returns 5. -/
theorem last_offset_not_positive :
    (decPasses 40 zeroOffsetInput zeros 6 0 1 (decFirst zeroOffsetInput zeros zeros)).map
        (fun s1 => (s1.pCurOutData, s1.nMatchOffset)) = some (6, 0) ∧
    (apultra_decompress zeroOffsetInput zeros zeros 6 0).map Prod.fst = some 6 ∧
    (decPasses 40 negOffsetInput zeros 6 0 1 (decFirst negOffsetInput zeros zeros)).map
        (fun s1 => (s1.pCurOutData, s1.nMatchOffset)) = some (5, -1) ∧
    (apultra_decompress negOffsetInput zeros zeros 6 0).map Prod.fst = some 5 :=
  ⟨by decide, by decide, by decide, by decide⟩

/-! ## A larger capacity and another output memory change no decision -/

theorem sameCtl_rd {s r : DState} {q : BitReader} (h : sameCtl s r) :
    sameCtl { s with rd := q } { r with rd := q } :=
  ⟨rfl, h.2.1, h.2.2.1, h.2.2.2⟩

theorem decLiteral_ctl (inp : List Nat) (past : Nat → Nat) (cap cap2 : Nat) (s r : DState)
    (hc : cap ≤ cap2) (h : sameCtl s r) :
    CtlFollows (decLiteral inp past cap s) (some (decLiteral inp past cap2 r)) := by
  obtain ⟨hrd, hpos, hoff, hfl⟩ := h
  unfold decLiteral
  rw [← hrd, ← hpos]
  by_cases h1 : s.rd.pInputData < inp.length ∧ s.pCurOutData < cap
  · rw [if_pos h1, if_pos ⟨h1.1, by omega⟩]
    exact ⟨_, rfl, rfl, rfl, hoff, rfl⟩
  · rw [if_neg h1]
    exact Or.inl rfl

theorem decNibble_ctl (inp : List Nat) (cap cap2 nFlags : Nat) (s r : DState)
    (hc : cap ≤ cap2) (h : sameCtl s r) :
    CtlFollows (decNibble inp cap nFlags s) (some (decNibble inp cap2 nFlags r)) := by
  obtain ⟨hrd, hpos, hoff, hfl⟩ := h
  unfold decNibble
  simp only []
  rw [← hrd, ← hpos]
  by_cases h0 : (readNibble inp s.rd (nibbleIdx nFlags)).1 ≠ 0
  · rw [if_pos h0, if_pos h0]
    by_cases h1 : (s.pCurOutData : Int) - ((readNibble inp s.rd (nibbleIdx nFlags)).1 : Nat) ≥ 0 ∧
        s.pCurOutData + 1 ≤ cap ∧
        (s.pCurOutData : Int) - ((readNibble inp s.rd (nibbleIdx nFlags)).1 : Nat) + 1 ≤ cap
    · rw [if_pos h1, if_pos ⟨h1.1, by omega, by omega⟩]
      exact ⟨_, rfl, rfl, rfl, hoff, rfl⟩
    · rw [if_neg h1]
      exact Or.inl rfl
  · rw [if_neg h0, if_neg h0]
    by_cases h1 : s.pCurOutData + 1 ≤ cap
    · rw [if_pos h1, if_pos (by omega)]
      exact ⟨_, rfl, rfl, rfl, hoff, rfl⟩
    · rw [if_neg h1]
      exact Or.inl rfl

theorem decShort_ctl (inp : List Nat) (past : Nat → Nat) (cap cap2 : Nat) (s r : DState)
    (hc : cap ≤ cap2) (h : sameCtl s r) :
    CtlFollows (decShort inp past cap s) (some (decShort inp past cap2 r)) := by
  obtain ⟨hrd, hpos, hoff, hfl⟩ := h
  by_cases h0 : inByte inp past s.rd.pInputData = 0
  · have e1 : decShort inp past cap s =
        .ret (s.pCurOutData % 18446744073709551616) { s with rd := (rawByte inp past s.rd).2 } := by
      unfold decShort
      simp only [rawByte]
      rw [if_pos h0]
    have e2 : decShort inp past cap2 r =
        .ret (s.pCurOutData % 18446744073709551616) { r with rd := (rawByte inp past s.rd).2 } := by
      unfold decShort
      simp only [rawByte]
      rw [← hrd, ← hpos, if_pos h0]
    rw [e1, e2]
    exact Or.inr ⟨_, rfl, rfl, hpos, hoff, hfl⟩
  · have h0r : inByte inp past r.rd.pInputData ≠ 0 := by rw [← hrd]; exact h0
    cases ho : decShort inp past cap s with
    | next s1 =>
      obtain ⟨-, a1, a2, a3, a4, a5, a6, -⟩ := decShort_next inp past cap s s1 ho
      obtain ⟨r1, hr1⟩ := (decShort_accepts inp past cap2 r h0r).1 (by
        rw [← hrd, ← hpos]
        exact ⟨a5, by omega⟩)
      obtain ⟨-, b1, b2, b3, b4, -⟩ := decShort_next inp past cap2 r r1 hr1
      refine ⟨r1, by rw [hr1], ?_, ?_, ?_, ?_⟩
      · rw [a2, b2, hrd]
      · rw [a1, b1, hrd, hpos]
      · rw [a3, b3, hrd]
      · rw [a4, b4]
    | ret v s1 =>
      left
      rcases Classical.em (inByte inp past s.rd.pInputData >>> 1 ≤ s.pCurOutData ∧
        s.pCurOutData + (2 + inByte inp past s.rd.pInputData % 2) ≤ cap) with hb | hb
      · obtain ⟨s2, hs2⟩ := (decShort_accepts inp past cap s h0).1 hb
        rw [hs2] at ho
        cases ho
      · obtain ⟨s2, hs2⟩ := (decShort_accepts inp past cap s h0).2 hb
        rw [hs2] at ho
        cases ho
        rfl

/-- Both gamma2 values of a `'10'` token that is applied. -/
theorem decLong_reads (fuel : Nat) (inp : List Nat) (past : Nat → Nat) (cap nFlags : Nat)
    (s s1 : DState) (h : decLong fuel inp past cap nFlags s = some (.next s1)) :
    ∃ hi r1 g r3, apultra_read_gamma2 fuel inp s.rd (gammaIdx nFlags) = some (hi, r1) ∧
      apultra_read_gamma2 fuel inp
        (longHead inp past s.nFollowsLiteral s.nMatchOffset hi r1).rd (gammaIdx nFlags) =
          some (g, r3) := by
  unfold decLong at h
  split at h
  · simp at h
  · rename_i hi r1 hg
    simp only [] at h
    split_ifs at h
    · split at h
      · simp at h
      · rename_i g r3 hg2
        exact ⟨hi, r1, g, r3, hg, hg2⟩
    · cases h

/-- A `'10'` token is applied when its source starts in the buffer and both the
source and the destination end within the capacity. -/
theorem decLong_applies (fuel : Nat) (inp : List Nat) (past : Nat → Nat) (cap nFlags : Nat)
    (s : DState) (hi g : Nat) (r1 r3 : BitReader)
    (hg : apultra_read_gamma2 fuel inp s.rd (gammaIdx nFlags) = some (hi, r1))
    (hg2 : apultra_read_gamma2 fuel inp
      (longHead inp past s.nFollowsLiteral s.nMatchOffset hi r1).rd (gammaIdx nFlags) =
        some (g, r3))
    (hf : cap < fuel)
    (h1 : (longHead inp past s.nFollowsLiteral s.nMatchOffset hi r1).nMatchOffset ≤ s.pCurOutData)
    (h2 : s.pCurOutData + longLen (longHead inp past s.nFollowsLiteral s.nMatchOffset hi r1) g
      ≤ cap)
    (h3 : ((s.pCurOutData : Int) -
        (longHead inp past s.nFollowsLiteral s.nMatchOffset hi r1).nMatchOffset).toNat +
      longLen (longHead inp past s.nFollowsLiteral s.nMatchOffset hi r1) g ≤ cap) :
    ∃ s1, decLong fuel inp past cap nFlags s = some (.next s1) := by
  rw [decLong_eq fuel inp past cap nFlags s hi r1 hg]
  generalize longHead inp past s.nFollowsLiteral s.nMatchOffset hi r1 = hd at hg2 h1 h2 h3 ⊢
  rw [if_pos (by omega), hg2]
  exact copyLong_accepts fuel cap _ _ _ hf h2 h3

theorem decLong_ctl (fuel : Nat) (inp : List Nat) (past : Nat → Nat) (cap cap2 nFlags : Nat)
    (s r : DState) (o : Outcome) (hc : cap ≤ cap2) (hf : cap2 < fuel) (h : sameCtl s r)
    (ho : decLong fuel inp past cap nFlags s = some o) :
    CtlFollows o (decLong fuel inp past cap2 nFlags r) := by
  obtain ⟨hrd, hpos, hoff, hfl⟩ := h
  cases o with
  | ret v s1 => exact Or.inl (decLong_ret fuel inp past cap nFlags s s1 v ho)
  | next s1 =>
    obtain ⟨hi, r1, g, r3, hg, hg2⟩ := decLong_reads fuel inp past cap nFlags s s1 ho
    obtain ⟨a1, a2, a3, a4, a5, a6, a7, -⟩ :=
      decLong_next fuel inp past cap nFlags s s1 hi g r1 r3 hg hg2 ho
    have hgr : apultra_read_gamma2 fuel inp r.rd (gammaIdx nFlags) = some (hi, r1) := by
      rw [← hrd]
      exact hg
    have hg2r : apultra_read_gamma2 fuel inp
        (longHead inp past r.nFollowsLiteral r.nMatchOffset hi r1).rd (gammaIdx nFlags) =
          some (g, r3) := by
      rw [← hfl, ← hoff]
      exact hg2
    obtain ⟨r2, hr2⟩ := decLong_applies fuel inp past cap2 nFlags r hi g r1 r3 hgr hg2r hf
      (by rw [← hfl, ← hoff, ← hpos]; exact a5)
      (by rw [← hfl, ← hoff, ← hpos]; omega)
      (by rw [← hfl, ← hoff, ← hpos]; omega)
    obtain ⟨b1, b2, b3, b4, -⟩ :=
      decLong_next fuel inp past cap2 nFlags r r2 hi g r1 r3 hgr hg2r hr2
    refine ⟨r2, hr2, ?_, ?_, ?_, ?_⟩
    · rw [a2, b2]
    · rw [a1, b1, hfl, hoff, hpos]
    · rw [a3, b3, hfl, hoff]
    · rw [a4, b4]

/-- One pass of a run is followed by the pass of a run with a capacity at least
as large, from a state with the same control state. -/
theorem decStep_ctl (fuel : Nat) (inp : List Nat) (past : Nat → Nat) (cap cap2 nFlags : Nat)
    (s r : DState) (o : Outcome) (hc : cap ≤ cap2) (hf : cap2 < fuel) (h : sameCtl s r)
    (ho : decStep fuel inp past cap nFlags s = some o) :
    CtlFollows o (decStep fuel inp past cap2 nFlags r) := by
  rw [decStep_eq] at ho ⊢
  have hrd := h.1
  rw [← hrd]
  have hs : sameCtl { s with rd := (tokenKind inp s.rd).2 } { r with rd := (tokenKind inp s.rd).2 } :=
    sameCtl_rd h
  split_ifs at ho ⊢ with c0 c1 c2
  · cases ho
    exact decLiteral_ctl inp past cap cap2 _ _ hc hs
  · exact decLong_ctl fuel inp past cap cap2 nFlags _ _ o hc hf hs ho
  · cases ho
    exact decShort_ctl inp past cap cap2 _ _ hc hs
  · cases ho
    exact decNibble_ctl inp cap cap2 nFlags _ _ hc hs

/-- A run that returns a length is followed to the same length by a run with a
capacity at least as large. -/
theorem decLoop_ctl (inner : Nat) (inp : List Nat) (past : Nat → Nat) (cap cap2 nFlags : Nat)
    (hc : cap ≤ cap2) (hf : cap2 < inner) :
    ∀ (fuel : Nat) (s r sf : DState) (v : Nat), sameCtl s r →
      decLoop inner inp past cap nFlags fuel s = some (v, sf) → v ≠ SIZE_ERR →
      ∃ rf, decLoop inner inp past cap2 nFlags fuel r = some (v, rf) ∧ sameCtl sf rf := by
  intro fuel
  induction fuel with
  | zero => intro s r sf v _ h; simp [decLoop] at h
  | succ n ih =>
    intro s r sf v hs h hv
    unfold decLoop at h ⊢
    split at h
    · simp at h
    · rename_i v2 s2 hst
      have h := Option.some.inj h
      have e1 : v2 = v := congrArg Prod.fst h
      have e2 : s2 = sf := congrArg Prod.snd h
      subst e1 e2
      have := decStep_ctl inner inp past cap cap2 nFlags s r _ hc hf hs hst
      rcases this with herr | ⟨r1, hr1, hs1⟩
      · exact absurd herr hv
      · rw [hr1]
        exact ⟨r1, rfl, hs1⟩
    · rename_i s2 hst
      obtain ⟨r1, hr1, hs1⟩ := decStep_ctl inner inp past cap cap2 nFlags s r _ hc hf hs hst
      rw [hr1]
      exact ih s2 r1 sf v hs1 h hv

/-! ## Monotonicity in the capacity -/

theorem sameCtl_first (inp : List Nat) (past out out2 : Nat → Nat) :
    sameCtl (decFirst inp past out) (decFirst inp past out2) := ⟨rfl, rfl, rfl, rfl⟩

/-- The value that the loop of the decoder returns does not change with a larger
capacity or another output memory, when it is not the error value. -/
theorem decompress_ctl (inp : List Nat) (past out out2 : Nat → Nat) (c c2 nFlags v : Nat)
    (sf : DState) (hc : c ≤ c2)
    (h : apultra_decompress inp past out c nFlags = some (v, sf)) (hv : v ≠ SIZE_ERR) :
    ∃ rf, apultra_decompress inp past out2 c2 nFlags = some (v, rf) ∧ sameCtl sf rf := by
  unfold apultra_decompress at h ⊢
  split_ifs at h with hg
  · have h := Option.some.inj h
    exact absurd (congrArg Prod.fst h).symm hv
  · have hne : inp ≠ [] := by
      intro e
      subst e
      have hc0 : c = 0 := by
        simp only [List.length_nil, ge_iff_le, le_refl, true_and, not_lt, Nat.le_zero] at hg
        exact hg
      subst hc0
      have hfu : decFuel [] 0 = 1 + 1 := rfl
      have := decLoop_empty past out nFlags (decFuel [] 0) 1
      rw [← hfu, h] at this
      exact hv (Option.some.inj this)
    have hlen : 0 < inp.length := List.length_pos.mpr hne
    rw [if_neg (by omega)]
    have hm := decLoop_mono (decFuel inp c) (c2 - c) inp past c nFlags (decFuel inp c) (c2 - c)
      _ _ h
    have hfu : decFuel inp c + (c2 - c) = decFuel inp c2 := by
      unfold decFuel
      omega
    rw [hfu] at hm
    exact decLoop_ctl (decFuel inp c2) inp past c c2 nFlags hc (by unfold decFuel; omega)
      (decFuel inp c2) _ _ sf v (sameCtl_first inp past out out2) hm hv

/-- C27. Monotonicity in the capacity: when `apultra_decompress` with capacity
`c` returns a value `n` other than the error value, it returns the same `n` with
every capacity `c2 ≥ c`, on the same input and flags. -/
theorem capacity_monotone (inp : List Nat) (past out : Nat → Nat) (c c2 nFlags n : Nat)
    (hc : c ≤ c2)
    (h : (apultra_decompress inp past out c nFlags).map Prod.fst = some n)
    (hn : n ≠ SIZE_ERR) :
    (apultra_decompress inp past out c2 nFlags).map Prod.fst = some n := by
  obtain ⟨⟨v, sf⟩, h1, h2⟩ := Option.map_eq_some'.mp h
  simp only [] at h2
  subst h2
  obtain ⟨rf, hrf, -⟩ := decompress_ctl inp past out out c c2 nFlags v sf hc h1 hn
  rw [hrf]
  rfl

/-- C27, witness: `fastInput` decodes to 31 bytes with capacity 31, where every
match is copied by the byte loop, and with capacity 80, where both fast paths are
taken. -/
theorem capacity_monotone_witness :
    (31 : Nat) ≤ 80 ∧
    (apultra_decompress fastInput zeros zeros 31 0).map Prod.fst = some 31 ∧
    31 ≠ SIZE_ERR ∧
    (apultra_decompress fastInput zeros zeros 80 0).map Prod.fst = some 31 :=
  ⟨by decide, by decide, by decide,
    capacity_monotone fastInput zeros zeros 31 80 0 31 (by decide) (by decide) (by decide)⟩

/-! ## The output memory before the call -/

theorem agree_refl (s : DState) : Agree s s := ⟨rfl, rfl, rfl, rfl, fun _ _ => rfl⟩

theorem agree_symm {s r : DState} (h : Agree s r) : Agree r s :=
  ⟨h.1.symm, h.2.1.symm, h.2.2.1.symm, h.2.2.2.1.symm,
    fun i hi => (h.2.2.2.2 i (by rw [h.2.1]; exact hi)).symm⟩

theorem agree_trans {s r q : DState} (h1 : Agree s r) (h2 : Agree r q) : Agree s q :=
  ⟨h1.1.trans h2.1, h1.2.1.trans h2.2.1, h1.2.2.1.trans h2.2.2.1, h1.2.2.2.1.trans h2.2.2.2.1,
    fun i hi => (h1.2.2.2.2 i hi).trans (h2.2.2.2.2 i (by rw [← h1.2.1]; exact hi))⟩

theorem agree_ctl {s r : DState} (h : Agree s r) : sameCtl s r :=
  ⟨h.1, h.2.1, h.2.2.1, h.2.2.2.1⟩

/-- One pass from two states that agree below the output length: when the first
goes on with an offset of 1 or more, or returns a length, so does the second,
and the states agree again. -/
theorem decStep_agree (fuel : Nat) (inp : List Nat) (past : Nat → Nat) (cap nFlags : Nat)
    (s r : DState) (o : Outcome) (hf : cap < fuel) (h : Agree s r)
    (ho : decStep fuel inp past cap nFlags s = some o) :
    Refines o (decStep fuel inp past cap nFlags r) := by
  have hctl := decStep_ctl fuel inp past cap cap nFlags s r o (le_refl _) hf (agree_ctl h) ho
  have href := decStep_refines fuel inp past cap nFlags s s o (agree_refl s) ho
  cases o with
  | next s1 =>
    intro hpos
    obtain ⟨r1, hr1, hc1⟩ := hctl
    obtain ⟨q, hq, hag1⟩ := href hpos
    have href2 := decStep_refines fuel inp past cap nFlags r s _ (agree_symm h) hr1
    obtain ⟨q2, hq2, hag2⟩ := href2 (by rw [← hc1.2.2.1]; exact hpos)
    rw [hq] at hq2
    have e : q = q2 := by
      have := Option.some.inj hq2
      cases this
      rfl
    subst e
    exact ⟨r1, hr1, agree_trans hag1 (agree_symm hag2)⟩
  | ret v s1 =>
    by_cases hv : v = SIZE_ERR
    · exact Or.inl hv
    · right
      rcases hctl with hbad | ⟨r1, hr1, -⟩
      · exact absurd hbad hv
      · rcases href with hbad | ⟨q, hq, hag1⟩
        · exact absurd hbad hv
        · have href2 := decStep_refines fuel inp past cap nFlags r s _ (agree_symm h) hr1
          rcases href2 with hbad | ⟨q2, hq2, hag2⟩
          · exact absurd hbad hv
          · rw [hq] at hq2
            have e : q = q2 := by
              have := Option.some.inj hq2
              cases this
              rfl
            subst e
            exact ⟨r1, hr1, agree_trans hag1 (agree_symm hag2)⟩

theorem decLoop_agree (inner : Nat) (inp : List Nat) (past : Nat → Nat) (cap nFlags : Nat)
    (hf : cap < inner) :
    ∀ (fuel : Nat) (s r sf : DState) (v : Nat), Agree s r →
      decLoop inner inp past cap nFlags fuel s = some (v, sf) → v ≠ SIZE_ERR →
      offsetsPositive inner inp past cap nFlags fuel s = true →
      ∃ rf, decLoop inner inp past cap nFlags fuel r = some (v, rf) ∧ Agree sf rf := by
  intro fuel
  induction fuel with
  | zero => intro s r sf v _ h; simp [decLoop] at h
  | succ n ih =>
    intro s r sf v hag h hv hoff
    unfold decLoop at h ⊢
    unfold offsetsPositive at hoff
    split at h
    · simp at h
    · rename_i v2 s2 hst
      have h := Option.some.inj h
      have e1 : v2 = v := congrArg Prod.fst h
      have e2 : s2 = sf := congrArg Prod.snd h
      subst e1 e2
      have hr := decStep_agree inner inp past cap nFlags s r _ hf hag hst
      simp only [Refines] at hr
      rcases hr with hbad | ⟨r1, hr1, hag1⟩
      · exact absurd hbad hv
      · rw [hr1]
        exact ⟨r1, rfl, hag1⟩
    · rename_i s2 hst
      rw [hst] at hoff
      simp only [Bool.and_eq_true, decide_eq_true_eq] at hoff
      have hr := decStep_agree inner inp past cap nFlags s r _ hf hag hst
      simp only [Refines] at hr
      obtain ⟨r1, hr1, hag1⟩ := hr hoff.1
      rw [hr1]
      exact ih s2 r1 sf v hag1 h hv hoff.2

theorem agree_first (inp : List Nat) (past out out2 : Nat → Nat) :
    Agree (decFirst inp past out) (decFirst inp past out2) := by
  refine ⟨rfl, rfl, rfl, rfl, ?_⟩
  intro i hi
  have h1 : (decFirst inp past out).pCurOutData = 1 := rfl
  rw [h1] at hi
  have h0 : i = 0 := by omega
  subst h0
  simp [decFirst, store, decInit]

/-- The call returns a value for every output memory. -/
theorem decompress_some (inp : List Nat) (past out : Nat → Nat) (cap nFlags : Nat) :
    ∃ x, apultra_decompress inp past out cap nFlags = some x := by
  unfold apultra_decompress
  split_ifs
  · exact ⟨_, rfl⟩
  · obtain ⟨hb, hm⟩ := decFirst_measure inp past out cap
    exact decLoop_some (decFuel inp cap) inp past cap nFlags (by unfold decFuel; omega)
      (decFuel inp cap) (decFirst inp past out) hb hm

/-- C26 (amended). The output memory before the call: the value that
`apultra_decompress` returns is the same for any two contents of the output
memory, and when it is a length `n` and every pass of the run leaves an offset of
1 or more, the bytes `output[0 .. n)` are the same too. -/
theorem output_independent_of_buffer (inp : List Nat) (past out out2 : Nat → Nat)
    (cap nFlags : Nat) :
    (apultra_decompress inp past out cap nFlags).map Prod.fst =
      (apultra_decompress inp past out2 cap nFlags).map Prod.fst ∧
    (∀ n : Nat, (apultra_decompress inp past out cap nFlags).map Prod.fst = some n →
      n ≠ SIZE_ERR →
      offsetsPositive (decFuel inp cap) inp past cap nFlags (decFuel inp cap)
        (decFirst inp past out) = true →
      ∃ sf rf, apultra_decompress inp past out cap nFlags = some (n, sf) ∧
        apultra_decompress inp past out2 cap nFlags = some (n, rf) ∧
        ∀ i, i < n → sf.out i = rf.out i) := by
  constructor
  · obtain ⟨⟨v1, s1⟩, h1⟩ := decompress_some inp past out cap nFlags
    obtain ⟨⟨v2, s2⟩, h2⟩ := decompress_some inp past out2 cap nFlags
    rw [h1, h2]
    simp only [Option.map_some', Option.some.injEq]
    by_cases hv1 : v1 = SIZE_ERR
    · by_cases hv2 : v2 = SIZE_ERR
      · rw [hv1, hv2]
      · obtain ⟨rf, hrf, -⟩ :=
          decompress_ctl inp past out2 out cap cap nFlags v2 s2 (le_refl _) h2 hv2
        rw [h1] at hrf
        exact congrArg Prod.fst (Option.some.inj hrf)
    · obtain ⟨rf, hrf, -⟩ :=
        decompress_ctl inp past out out2 cap cap nFlags v1 s1 (le_refl _) h1 hv1
      rw [h2] at hrf
      exact (congrArg Prod.fst (Option.some.inj hrf)).symm
  · intro n hmap hn hoff
    obtain ⟨⟨v, sf⟩, h, h2⟩ := Option.map_eq_some'.mp hmap
    simp only [] at h2
    subst h2
    refine ⟨sf, ?_⟩
    unfold apultra_decompress at h ⊢
    split_ifs at h ⊢ with hg
    · have h := Option.some.inj h
      exact absurd (congrArg Prod.fst h).symm hn
    · obtain ⟨rf, hrf, hag⟩ := decLoop_agree (decFuel inp cap) inp past cap nFlags
        (by unfold decFuel; omega) (decFuel inp cap) _ _ sf v (agree_first inp past out out2)
        h hn hoff
      refine ⟨rf, h, hrf, ?_⟩
      intro i hi
      have hr := decLoop_ret _ _ _ _ _ _ _ _ _ h
      have hle : v ≤ sf.pCurOutData := by
        rcases hr with hr | hr
        · exact absurd hr hn
        · rw [hr]
          exact Nat.mod_le _ _
      exact hag.2.2.2.2 i (by omega)

/-- C26, witness: `fastInput` with capacity 80, decoded over a buffer of zeros
and over a buffer that held the byte 9 everywhere. -/
theorem output_independent_of_buffer_witness :
    (apultra_decompress fastInput zeros zeros 80 0).map Prod.fst = some 31 ∧
    31 ≠ SIZE_ERR ∧
    offsetsPositive (decFuel fastInput 80) fastInput zeros 80 0 (decFuel fastInput 80)
      (decFirst fastInput zeros zeros) = true ∧
    ∃ sf rf, apultra_decompress fastInput zeros zeros 80 0 = some (31, sf) ∧
      apultra_decompress fastInput zeros (fun _ => 9) 80 0 = some (31, rf) ∧
      ∀ i, i < 31 → sf.out i = rf.out i :=
  ⟨by decide, by decide, by decide,
    (output_independent_of_buffer fastInput zeros zeros (fun _ => 9) 80 0).2 31 (by decide)
      (by decide) (by decide)⟩

/-- C26, counterexample. On `zeroOffsetInput` with capacity 6 the call returns 6
for both buffers, but the five bytes of the match with offset 0 are what the
buffer held: zeros in one run and the byte 9 in the other. On `negOffsetInput`
with capacity 6 the call returns 5 for both buffers, and the four bytes of the
match with offset `-1` are bytes 2 to 5 of the buffer before the call. -/
theorem output_depends_on_buffer :
    (apultra_decompress zeroOffsetInput zeros zeros 6 0).map
        (fun x => (x.1, take x.2.out 6)) = some (6, [0x41, 0, 0, 0, 0, 0]) ∧
    (apultra_decompress zeroOffsetInput zeros (fun _ => 9) 6 0).map
        (fun x => (x.1, take x.2.out 6)) = some (6, [0x41, 9, 9, 9, 9, 9]) ∧
    (apultra_decompress negOffsetInput zeros (fun i => 10 + i) 6 0).map
        (fun x => (x.1, take x.2.out 5)) = some (5, [0x41, 12, 13, 14, 15]) ∧
    (apultra_decompress negOffsetInput zeros (fun i => 20 + i) 6 0).map
        (fun x => (x.1, take x.2.out 5)) = some (5, [0x41, 22, 23, 24, 25]) :=
  ⟨by decide, by decide, by decide, by decide⟩

end Apultra
